import Mathlib

/-!
# Verification of the Comment Threading System

A shallow embedding of `src/comment_system.py`.  Python objects are aliased
(the same `Comment` object is reachable through the post tree and through the
global index `self.comments`), so the embedding uses arena style: records are
stored once in the global index, keyed by id, and both `Post.comments` and
`Comment.replies` hold ids.  Mutation of a shared object becomes an in-place
update of the arena entry, which is observationally identical to the Python
aliasing.  Python dicts preserve insertion order, so dicts become association
lists: insertion appends, deletion removes the entry, updates are in place.

The wall-clock timestamp (`time.time()`) is abstracted to `0`: no claim and no
other part of the code reads it.  `threading.Lock` is erased in the sequential
embedding (every public operation is atomic); a second, lock-aware embedding of
`delete_comment` below models the non-reentrant lock explicitly in order to
settle the concurrency claim.

Recursive Python loops over the arena (`_get_comment_depth`,
`_count_total_replies`, `_flatten_comments`, the delete cascade) are embedded
with explicit fuel `length + 1`; on every state whose parent chains terminate
(all states reachable through the API, see `WF` below) the fuel is sufficient
and the embedding agrees with the Python recursion, which is proved where the
claims need it.
-/

namespace CTS

/-- `Comment` of `comment_system.py`: `replies` holds ids (arena style). -/
structure Comment where
  id : Nat
  user : String
  content : String
  timestamp : Nat
  parent_comment_id : Option Nat
  replies : List Nat
  vote_count : Int
  collapsed : Bool
deriving Repr, DecidableEq

/-- `Post` of `comment_system.py`: `comments` holds the top-level comment ids
in insertion order.  The back reference `comment_system` is dropped (it is only
used by the tests as a convenience handle). -/
structure Post where
  id : Nat
  title : String
  comments : List Nat
deriving Repr, DecidableEq

/-- `CommentSystem.__init__`: the whole store.  Dicts are ordered association
lists, the id counters start at 1. -/
structure CommentSystem where
  posts : List (Nat × Post)
  comments : List (Nat × Comment)
  user_comments : List (String × List Nat)
  next_comment_id : Nat
  next_post_id : Nat
deriving Repr, DecidableEq

/-- The freshly constructed store. -/
def CommentSystem.init : CommentSystem :=
  { posts := [], comments := [], user_comments := [],
    next_comment_id := 1, next_post_id := 1 }

/-- In-place update of the arena entry with key `id` (Python: mutating the
shared `Comment` object found in `self.comments[id]`). -/
def updateComment : List (Nat × Comment) → Nat → (Comment → Comment) →
    List (Nat × Comment)
  | [], _, _ => []
  | (k, v) :: t, id, f =>
    (if k = id then (k, f v) else (k, v)) :: updateComment t id f

/-- `parent_comment.replies.append(new_comment)`. -/
def pushReply (cid : Nat) (c : Comment) : Comment :=
  { c with replies := c.replies ++ [cid] }

/-- `parent_comment.collapsed = True`. -/
def markCollapsed (c : Comment) : Comment :=
  { c with collapsed := true }

/-- `comment.vote_count += 1`. -/
def incVote (c : Comment) : Comment :=
  { c with vote_count := c.vote_count + 1 }

/-- `comment.vote_count -= 1`. -/
def decVote (c : Comment) : Comment :=
  { c with vote_count := c.vote_count - 1 }

/-- `comment.collapsed = not comment.collapsed`. -/
def flipCollapsed (c : Comment) : Comment :=
  { c with collapsed := !c.collapsed }

/-- `parent.replies.remove(comment)`: erase the first occurrence. -/
def dropReply (cid : Nat) (c : Comment) : Comment :=
  { c with replies := c.replies.erase cid }

/-- `post.comments.append(new_comment)`. -/
def pushTopLevel (cid : Nat) (p : Post) : Post :=
  { p with comments := p.comments ++ [cid] }

/-- In-place update of a post record. -/
def updatePost : List (Nat × Post) → Nat → (Post → Post) → List (Nat × Post)
  | [], _, _ => []
  | (k, v) :: t, id, f =>
    (if k = id then (k, f v) else (k, v)) :: updatePost t id f

/-- `del self.comments[id]` on an ordered dict. -/
def eraseKey (comments : List (Nat × Comment)) (id : Nat) :
    List (Nat × Comment) :=
  comments.filter (fun p => p.1 ≠ id)

/-- `CommentSystem.create_post`. -/
def create_post (s : CommentSystem) (title : String) : CommentSystem × Post :=
  let post_id := s.next_post_id
  let post : Post := { id := post_id, title := title, comments := [] }
  ({ s with next_post_id := post_id + 1, posts := s.posts ++ [(post_id, post)] },
   post)

/-- The `while` loop of `CommentSystem._get_comment_depth`, with fuel.  Each
iteration looks the current id up; on a missing id or a `None` parent the loop
exits with the accumulated depth; a present parent increments the depth.  Fuel
exhaustion (only possible on a cyclic parent chain, where the Python loop would
not terminate) returns the depth accumulated so far. -/
def depthAux (comments : List (Nat × Comment)) :
    Nat → Nat → Nat → Nat
  | 0, _, depth => depth
  | fuel + 1, current_id, depth =>
    match comments.lookup current_id with
    | none => depth
    | some c =>
      match c.parent_comment_id with
      | none => depth
      | some p => depthAux comments fuel p (depth + 1)

/-- `CommentSystem._get_comment_depth`: depth 0 for top-level comments.  Fuel
`length + 1` covers every terminating parent chain (a terminating chain never
revisits a node, so it has at most `length` hops). -/
def get_comment_depth (s : CommentSystem) (comment_id : Nat) : Nat :=
  depthAux s.comments (s.comments.length + 1) comment_id 0

/-- `CommentSystem._count_total_replies`, with fuel for the structural
recursion: direct replies plus, recursively, their own totals.  Reply ids are
resolved through the arena; a dangling id contributes nothing (well-formed
states have no dangling ids). -/
def count_total_replies (comments : List (Nat × Comment)) :
    Nat → Comment → Nat
  | 0, _ => 0
  | fuel + 1, c =>
    c.replies.length +
      ((c.replies.filterMap (fun rid => comments.lookup rid)).map
        (count_total_replies comments fuel)).foldr (· + ·) 0

/-- `CommentSystem.should_collapse_thread`: more than 10 total replies. -/
def should_collapse_thread (s : CommentSystem) (c : Comment) : Bool :=
  decide (count_total_replies s.comments (s.comments.length + 1) c > 10)

/-- Python's guard `not content.strip()`: stripping leading and trailing
whitespace leaves the empty string exactly when every character of the content
is whitespace (in particular when the content is empty). -/
def isBlank (content : String) : Bool :=
  content.toList.all Char.isWhitespace

/-- In-place update of one user's id list. -/
def updateUserList : List (String × List Nat) → String →
    (List Nat → List Nat) → List (String × List Nat)
  | [], _, _ => []
  | (u, l) :: t, user, f =>
    (if u = user then (u, f l) else (u, l)) :: updateUserList t user f

/-- `user_comments.setdefault`-style insertion of `add_comment`: Python creates
the key at the end of the dict on first insertion, otherwise appends to the
existing list. -/
def userAppend (uc : List (String × List Nat)) (user : String) (id : Nat) :
    List (String × List Nat) :=
  match uc.lookup user with
  | none => uc ++ [(user, [id])]
  | some _ => updateUserList uc user (fun l => l ++ [id])

/-- The `Comment(...)` constructor call of `add_comment`: the next id, the
current wall-clock timestamp (abstracted), no replies, zero votes, not
collapsed. -/
def newComment (s : CommentSystem) (user content : String)
    (parent_comment_id : Option Nat) : Comment :=
  { id := s.next_comment_id, user := user, content := content, timestamp := 0,
    parent_comment_id := parent_comment_id, replies := [],
    vote_count := 0, collapsed := false }

/-- The mutation half of `CommentSystem.add_comment` (everything after the
validation guards): allocate the id, build the record, index it, record it for
the user, attach it to the post or to the parent, and re-evaluate auto-collapse
on the direct parent. -/
def add_comment_insert (s : CommentSystem) (post_id : Nat)
    (user content : String) (parent_comment_id : Option Nat) :
    CommentSystem × Option Comment :=
  let comment_id := s.next_comment_id
  let new_comment : Comment := newComment s user content parent_comment_id
  let s1 := { s with next_comment_id := comment_id + 1,
                     comments := s.comments ++ [(comment_id, new_comment)] }
  let s2 := { s1 with user_comments := userAppend s1.user_comments user comment_id }
  match parent_comment_id with
  | none =>
    ({ s2 with posts := updatePost s2.posts post_id (pushTopLevel comment_id) },
     some new_comment)
  | some pid =>
    let s3 := { s2 with comments := updateComment s2.comments pid (pushReply comment_id) }
    let s4 :=
      match s3.comments.lookup pid with
      | some parent_comment =>
        if should_collapse_thread s3 parent_comment then
          { s3 with comments := updateComment s3.comments pid markCollapsed }
        else s3
      | none => s3
    (s4, some new_comment)

/-- `CommentSystem.add_comment`: the validation guards in source order (empty
user or blank content, unknown post, unknown parent, parent depth ≥ 4), then
the mutation.  `None` is the rejection sentinel. -/
def add_comment (s : CommentSystem) (post_id : Nat) (user content : String)
    (parent_comment_id : Option Nat) : CommentSystem × Option Comment :=
  if user = "" ∨ isBlank content then (s, none)
  else if (s.posts.lookup post_id).isNone then (s, none)
  else
    match parent_comment_id with
    | some pid =>
      if (s.comments.lookup pid).isNone then (s, none)
      else if get_comment_depth s pid ≥ 4 then (s, none)
      else add_comment_insert s post_id user content (some pid)
    | none => add_comment_insert s post_id user content none

/-- `CommentSystem._flatten_comments`, with fuel for the tree recursion: emit
each comment, then — only if it is not collapsed — its recursively flattened
replies. -/
def flatten_comments (comments : List (Nat × Comment)) :
    Nat → List Comment → List Comment
  | 0, _ => []
  | fuel + 1, cs =>
    cs.flatMap (fun c =>
      c :: (if c.collapsed then []
            else flatten_comments comments fuel
              (c.replies.filterMap (fun rid => comments.lookup rid))))

/-- Resolve a list of ids through the arena (reading Python's lists of shared
`Comment` objects). -/
def resolve (comments : List (Nat × Comment)) (ids : List Nat) : List Comment :=
  ids.filterMap (fun id => comments.lookup id)

/-- `CommentSystem.get_comments_view`.  The state is threaded to record that
the operation performs no mutation; the `ValueError` branch is an `Except`
error. -/
def get_comments_view (s : CommentSystem) (post_id : Nat) (view_type : String) :
    CommentSystem × Except String (List Comment) :=
  match s.posts.lookup post_id with
  | none => (s, .ok [])
  | some post =>
    if view_type = "tree" then (s, .ok (resolve s.comments post.comments))
    else if view_type = "flat" then
      (s, .ok (flatten_comments s.comments (s.comments.length + 1)
        (resolve s.comments post.comments)))
    else (s, .error "view_type must be 'tree' or 'flat'")

/-- `CommentSystem.upvote_comment`. -/
def upvote_comment (s : CommentSystem) (comment_id : Nat) :
    CommentSystem × Bool :=
  match s.comments.lookup comment_id with
  | some _ =>
    ({ s with comments := updateComment s.comments comment_id incVote }, true)
  | none => (s, false)

/-- `CommentSystem.downvote_comment`. -/
def downvote_comment (s : CommentSystem) (comment_id : Nat) :
    CommentSystem × Bool :=
  match s.comments.lookup comment_id with
  | some _ =>
    ({ s with comments := updateComment s.comments comment_id decVote }, true)
  | none => (s, false)

/-- `CommentSystem.toggle_collapse`. -/
def toggle_collapse (s : CommentSystem) (comment_id : Nat) :
    CommentSystem × Bool :=
  match s.comments.lookup comment_id with
  | some _ =>
    ({ s with comments := updateComment s.comments comment_id flipCollapsed }, true)
  | none => (s, false)

/-- `CommentSystem.get_user_comments`: resolve the stored ids.  (A dangling id
would raise `KeyError` in Python; well-formed states have none, which the
user-list invariant below proves.) -/
def get_user_comments (s : CommentSystem) (user : String) :
    CommentSystem × List Comment :=
  match s.user_comments.lookup user with
  | none => (s, [])
  | some ids => (s, resolve s.comments ids)

/-- `post.comments.remove(comment)` applied to the first post whose top-level
list contains the comment (`for post in self.posts.values(): ... break`). -/
def removeFromPosts (posts : List (Nat × Post)) (cid : Nat) :
    List (Nat × Post) :=
  match posts with
  | [] => []
  | (k, p) :: rest =>
    if p.comments.contains cid then
      (k, { p with comments := p.comments.erase cid }) :: rest
    else (k, p) :: removeFromPosts rest cid

/-- `user_comments[user].remove(id)` guarded by the membership test: erase the
first occurrence from that user's list (no entry, no change). -/
def userRemove (uc : List (String × List Nat)) (user : String) (id : Nat) :
    List (String × List Nat) :=
  updateUserList uc user (fun l => l.erase id)

/-- The body of `CommentSystem.delete_comment` (lock erased), with fuel for the
cascade recursion: detach from the container, drop the author's list entry,
recursively delete the (snapshot of) direct replies, finally drop the arena
entry.  Fuel exhaustion leaves the state unchanged and reports failure; fuel
`length + 1` is sufficient on well-formed states, which is proved below. -/
def delete_go : Nat → CommentSystem → Nat → CommentSystem × Bool
  | 0, s, _ => (s, false)
  | fuel + 1, s, comment_id =>
    match s.comments.lookup comment_id with
    | none => (s, false)
    | some comment =>
      let s1 :=
        match comment.parent_comment_id with
        | none => { s with posts := removeFromPosts s.posts comment_id }
        | some pid =>
          { s with comments := updateComment s.comments pid (dropReply comment_id) }
      let s2 := { s1 with
        user_comments := userRemove s1.user_comments comment.user comment_id }
      let s3 := comment.replies.foldl
        (fun st rid => (delete_go fuel st rid).1) s2
      ({ s3 with comments := eraseKey s3.comments comment_id }, true)

/-- `CommentSystem.delete_comment` (lock erased). -/
def delete_comment (s : CommentSystem) (comment_id : Nat) :
    CommentSystem × Bool :=
  delete_go (s.comments.length + 1) s comment_id

/-- The reply subtree of a comment (the comment itself followed by the
subtrees of its replies, resolved through the arena), with fuel. -/
def subtreeIds (comments : List (Nat × Comment)) : Nat → Nat → List Nat
  | 0, _ => []
  | fuel + 1, id =>
    match comments.lookup id with
    | none => []
    | some c => id :: c.replies.flatMap (subtreeIds comments fuel)

/-!
## The lock-aware embedding of `delete_comment`

`CommentSystem.__init__` creates `self.lock = threading.Lock()`, which is not
re-entrant: a thread that already holds it and calls `acquire` again blocks
forever.  `delete_comment` wraps its whole body in `with self.lock:` and calls
itself recursively for every direct reply, so the recursive call re-acquires
the lock the caller still holds.  `lockHeld` records whether the caller
already holds the lock; `none` means the call never returns (deadlock, or fuel
exhaustion on a cyclic arena).
-/

/-- Lock-aware `delete_comment`: identical to `delete_go` except that entering
`with self.lock:` while the lock is already held blocks forever (`none`). -/
def delete_locked_go : Nat → Bool → CommentSystem → Nat →
    Option (CommentSystem × Bool)
  | _, true, _, _ => none
  | 0, false, _, _ => none
  | fuel + 1, false, s, comment_id =>
    match s.comments.lookup comment_id with
    | none => some (s, false)
    | some comment =>
      let s1 :=
        match comment.parent_comment_id with
        | none => { s with posts := removeFromPosts s.posts comment_id }
        | some pid =>
          { s with comments := updateComment s.comments pid (dropReply comment_id) }
      let s2 := { s1 with
        user_comments := userRemove s1.user_comments comment.user comment_id }
      match comment.replies.foldlM
          (fun st rid => (delete_locked_go fuel true st rid).map (·.1)) s2 with
      | none => none
      | some s3 =>
        some ({ s3 with comments := eraseKey s3.comments comment_id }, true)

/-- `delete_comment` as actually executed by a thread that does not yet hold
the store lock. -/
def delete_comment_locked (s : CommentSystem) (comment_id : Nat) :
    Option (CommentSystem × Bool) :=
  delete_locked_go (s.comments.length + 1) false s comment_id

/-!
## Parent chains

`ReachesRoot m id d` is the specification-level notion of depth: following
`parent_comment_id` links through the index `m`, the comment `id` reaches a
comment with no parent after exactly `d` hops (a root has depth 0).
-/

inductive ReachesRoot (m : List (Nat × Comment)) : Nat → Nat → Prop
  | root {id : Nat} {c : Comment} (hc : m.lookup id = some c)
      (hp : c.parent_comment_id = none) : ReachesRoot m id 0
  | step {id p d : Nat} {c : Comment} (hc : m.lookup id = some c)
      (hp : c.parent_comment_id = some p) (h : ReachesRoot m p d) :
      ReachesRoot m id (d + 1)

/-- Parent links are functional, so the depth of a comment is unique. -/
theorem ReachesRoot.unique {m : List (Nat × Comment)} {id d₁ d₂ : Nat}
    (h1 : ReachesRoot m id d₁) (h2 : ReachesRoot m id d₂) : d₁ = d₂ := by
  induction h1 generalizing d₂ with
  | root hc hp =>
    cases h2 with
    | root hc' hp' => rfl
    | step hc' hp' h' =>
      rw [hc] at hc'; cases hc'; rw [hp] at hp'; cases hp'
  | step hc hp h ih =>
    cases h2 with
    | root hc' hp' =>
      rw [hc] at hc'; cases hc'; rw [hp] at hp'; cases hp'
    | step hc' hp' h' =>
      rw [hc] at hc'; cases hc'; rw [hp] at hp'; cases hp'
      rw [ih h']

/-- A present key belongs to the key list. -/
theorem mem_keys_of_lookup {m : List (Nat × Comment)} {id : Nat} {c : Comment}
    (h : m.lookup id = some c) : id ∈ m.map Prod.fst := by
  have hs : (m.lookup id).isSome = true := by rw [h]; rfl
  rw [List.lookup_isSome_iff] at hs
  obtain ⟨p, hp, he⟩ := hs
  exact List.mem_map.mpr ⟨p, hp, (beq_iff_eq.mp he).symm⟩

/-- A terminating parent chain never revisits a node, so its length is bounded
by the number of indexed comments. -/
theorem ReachesRoot.lt_length {m : List (Nat × Comment)} {id d : Nat}
    (h : ReachesRoot m id d) : d < m.length := by
  have key : ∀ {id d}, ReachesRoot m id d →
      ∃ l : List Nat, l.length = d + 1 ∧ l.Nodup ∧
        (∀ x ∈ l, x ∈ m.map Prod.fst) ∧
        (∀ x ∈ l, ∃ k, k ≤ d ∧ ReachesRoot m x k) := by
    intro id d h
    induction h with
    | root hc hp =>
      exact ⟨[_], rfl, List.nodup_singleton _,
        by simpa using mem_keys_of_lookup hc,
        by simp only [List.mem_singleton, forall_eq]
           exact ⟨0, le_refl 0, ReachesRoot.root hc hp⟩⟩
    | step hc hp hr ih =>
      obtain ⟨l, hlen, hnd, hkeys, hdep⟩ := ih
      rename_i id' p d' c
      refine ⟨id' :: l, by simp [hlen], ?_, ?_, ?_⟩
      · refine List.nodup_cons.mpr ⟨fun hmem => ?_, hnd⟩
        obtain ⟨k, hk, hrr⟩ := hdep _ hmem
        have := ReachesRoot.unique (ReachesRoot.step hc hp hr) hrr
        omega
      · intro x hx
        rcases List.mem_cons.mp hx with rfl | hx
        · exact mem_keys_of_lookup hc
        · exact hkeys x hx
      · intro x hx
        rcases List.mem_cons.mp hx with rfl | hx
        · exact ⟨d' + 1, le_refl _, ReachesRoot.step hc hp hr⟩
        · obtain ⟨k, hk, hrr⟩ := hdep x hx
          exact ⟨k, by omega, hrr⟩
  obtain ⟨l, hlen, hnd, hkeys, _⟩ := key h
  have hsub : l ⊆ m.map Prod.fst := fun x hx => hkeys x hx
  have := (hnd.subperm hsub).length_le
  rw [hlen, List.length_map] at this
  omega

/-- The embedded depth loop computes the chain length whenever the fuel
exceeds it. -/
theorem depthAux_eq {m : List (Nat × Comment)} {id d : Nat}
    (h : ReachesRoot m id d) :
    ∀ fuel acc, d < fuel → depthAux m fuel id acc = acc + d := by
  induction h with
  | root hc hp =>
    intro fuel acc hf
    cases fuel with
    | zero => omega
    | succ f => simp [depthAux, hc, hp]
  | step hc hp hr ih =>
    intro fuel acc hf
    cases fuel with
    | zero => omega
    | succ f =>
      simp only [depthAux, hc, hp]
      rw [ih f (acc + 1) (by omega)]
      omega

/-- `_get_comment_depth` agrees with the specification-level depth. -/
theorem get_comment_depth_eq {s : CommentSystem} {id d : Nat}
    (h : ReachesRoot s.comments id d) : get_comment_depth s id = d := by
  have hb : d < s.comments.length + 1 := by
    have := h.lt_length; omega
  rw [get_comment_depth, depthAux_eq h _ 0 hb, Nat.zero_add]

/-- Executable check that `id` reaches a root in exactly `d` hops, used to
discharge `ReachesRoot` hypotheses on concrete stores. -/
def rrCheck (m : List (Nat × Comment)) : Nat → Nat → Nat → Bool
  | 0, _, _ => false
  | fuel + 1, id, d =>
    match m.lookup id with
    | none => false
    | some c =>
      match c.parent_comment_id, d with
      | none, 0 => true
      | some p, dd + 1 => rrCheck m fuel p dd
      | _, _ => false

theorem rrCheck_sound {m : List (Nat × Comment)} :
    ∀ (fuel : Nat) {id d}, rrCheck m fuel id d = true → ReachesRoot m id d := by
  intro fuel
  induction fuel with
  | zero => intro id d h; simp [rrCheck] at h
  | succ f ih =>
    intro id d h
    rw [rrCheck] at h
    cases hc : m.lookup id with
    | none => simp [hc] at h
    | some c =>
      simp only [hc] at h
      cases hp : c.parent_comment_id with
      | none =>
        cases d with
        | zero => exact ReachesRoot.root hc hp
        | succ dd => simp [hp] at h
      | some p =>
        cases d with
        | zero => simp [hp] at h
        | succ dd =>
          simp only [hp] at h
          exact ReachesRoot.step hc hp (ih h)

/-- `ReachesRoot` transfers along any index transformation that preserves the
lookups' parent pointers of present keys. -/
theorem ReachesRoot.mono {m₁ m₂ : List (Nat × Comment)}
    (hm : ∀ j c, m₁.lookup j = some c →
      ∃ c', m₂.lookup j = some c' ∧
        c'.parent_comment_id = c.parent_comment_id) :
    ∀ {id d}, ReachesRoot m₁ id d → ReachesRoot m₂ id d := by
  intro id d h
  induction h with
  | root hc hp =>
    obtain ⟨c', hc', hp'⟩ := hm _ _ hc
    exact ReachesRoot.root hc' (hp' ▸ hp)
  | step hc hp hr ih =>
    obtain ⟨c', hc', hp'⟩ := hm _ _ hc
    exact ReachesRoot.step hc' (hp' ▸ hp) ih

/-!
## Shared example states

Small stores used by the witnesses: one post, one top-level comment by alice
(id 1), one reply by bob (id 2). -/

def postState : CommentSystem := (create_post CommentSystem.init "Post Title").1

def exState1 : CommentSystem := (add_comment postState 1 "alice" "hi" none).1

def exState2 : CommentSystem := (add_comment exState1 1 "bob" "hello" (some 1)).1

/-!
## C5 — rejection paths of `add_comment`
-/

/-- C5: `add_comment` returns the absence value and leaves the store (and in
particular the comment-id counter) completely unchanged whenever the user is
empty, the content trims to empty, the post id is unknown, or a given parent id
is unknown. -/
theorem C5_add_comment_rejections (s : CommentSystem) (post_id : Nat)
    (user content : String) (parent : Option Nat) :
    (user = "" ∨ isBlank content = true →
      add_comment s post_id user content parent = (s, none)) ∧
    (s.posts.lookup post_id = none →
      add_comment s post_id user content parent = (s, none)) ∧
    (∀ pid, parent = some pid → s.comments.lookup pid = none →
      add_comment s post_id user content parent = (s, none)) := by
  refine ⟨fun h => ?_, fun h => ?_, fun pid hp h => ?_⟩
  · simp [add_comment, h]
  · by_cases h1 : user = "" ∨ isBlank content = true <;> simp [add_comment, h1, h]
  · subst hp
    by_cases h1 : user = "" ∨ isBlank content = true <;>
      by_cases h2 : (s.posts.lookup post_id).isNone <;>
        simp [add_comment, h1, h2, h]

/-- Witness for C5: the empty-user, blank-content, unknown-post and
unknown-parent rejections on concrete stores. -/
theorem C5_witness :
    add_comment exState1 1 "" "hi" none = (exState1, none) ∧
    add_comment exState1 1 "bob" "   " none = (exState1, none) ∧
    add_comment exState1 7 "bob" "hi" none = (exState1, none) ∧
    add_comment exState1 1 "bob" "hi" (some 9) = (exState1, none) :=
  ⟨(C5_add_comment_rejections exState1 1 "" "hi" none).1 (Or.inl rfl),
   (C5_add_comment_rejections exState1 1 "bob" "   " none).1 (Or.inr (by decide)),
   (C5_add_comment_rejections exState1 7 "bob" "hi" none).2.1 (by decide),
   (C5_add_comment_rejections exState1 1 "bob" "hi" (some 9)).2.2 9 rfl (by decide)⟩

/-!
## C7 — upvote / downvote
-/

/-- Unfolding `updateComment` at a matching head. -/
theorem updateComment_cons_eq {k : Nat} (v : Comment)
    (t : List (Nat × Comment)) (f : Comment → Comment) :
    updateComment ((k, v) :: t) k f = (k, f v) :: updateComment t k f := by
  simp [updateComment]

/-- Unfolding `updateComment` at a non-matching head. -/
theorem updateComment_cons_ne {k id : Nat} (h : k ≠ id) (v : Comment)
    (t : List (Nat × Comment)) (f : Comment → Comment) :
    updateComment ((k, v) :: t) id f = (k, v) :: updateComment t id f := by
  simp [updateComment, h]

/-- The effect of an in-place arena update on lookups. -/
theorem lookup_updateComment (m : List (Nat × Comment)) (id j : Nat)
    (f : Comment → Comment) :
    (updateComment m id f).lookup j =
      if j = id then (m.lookup j).map f else m.lookup j := by
  induction m with
  | nil => simp [updateComment]
  | cons p t ih =>
    obtain ⟨k, v⟩ := p
    by_cases hk : k = id
    · subst hk
      rw [updateComment_cons_eq]
      by_cases hj : j = k
      · subst hj; simp
      · have hb : (j == k) = false := beq_eq_false_iff_ne.mpr hj
        rw [List.lookup_cons, List.lookup_cons]
        simp [hb, ih, hj]
    · rw [updateComment_cons_ne hk]
      by_cases hj : j = k
      · subst hj; simp [hk]
      · have hb : (j == k) = false := beq_eq_false_iff_ne.mpr hj
        rw [List.lookup_cons, List.lookup_cons]
        simp [hb, ih]

/-- Updating twice at the same key composes the updates. -/
theorem updateComment_updateComment (m : List (Nat × Comment)) (id : Nat)
    (f g : Comment → Comment) :
    updateComment (updateComment m id f) id g =
      updateComment m id (fun c => g (f c)) := by
  induction m with
  | nil => rfl
  | cons p t ih =>
    obtain ⟨k, v⟩ := p
    by_cases hk : k = id
    · subst hk
      rw [updateComment_cons_eq, updateComment_cons_eq, updateComment_cons_eq, ih]
    · rw [updateComment_cons_ne hk, updateComment_cons_ne hk,
        updateComment_cons_ne hk, ih]

/-- An update that fixes every entry is the identity. -/
theorem updateComment_id (m : List (Nat × Comment)) (id : Nat)
    (f : Comment → Comment) (hf : ∀ c, f c = c) :
    updateComment m id f = m := by
  induction m with
  | nil => rfl
  | cons p t ih =>
    obtain ⟨k, v⟩ := p
    by_cases hk : k = id
    · subst hk
      rw [updateComment_cons_eq, hf, ih]
    · rw [updateComment_cons_ne hk, ih]

/-- C7: on an existing comment, upvote followed by downvote both succeed and
restore the store exactly (the vote count returns to its original value and no
other field or comment changes); on a missing id both operations fail and
change nothing.  `vote_count` is a plain `Int`, so no floor or ceiling is
applied. -/
theorem C7_upvote_downvote (s : CommentSystem) (id : Nat) :
    (s.comments.lookup id ≠ none →
      (upvote_comment s id).2 = true ∧
      (downvote_comment (upvote_comment s id).1 id).2 = true ∧
      (downvote_comment (upvote_comment s id).1 id).1 = s) ∧
    (s.comments.lookup id = none →
      upvote_comment s id = (s, false) ∧
      downvote_comment s id = (s, false)) := by
  constructor
  · intro h
    obtain ⟨c, hc⟩ := Option.ne_none_iff_exists'.mp h
    have h1 : (upvote_comment s id).1 =
        { s with comments := updateComment s.comments id incVote } := by
      simp [upvote_comment, hc]
    have h2 : (upvote_comment s id).2 = true := by simp [upvote_comment, hc]
    have hlk : (updateComment s.comments id incVote).lookup id =
        some (incVote c) := by
      rw [lookup_updateComment]; simp [hc]
    refine ⟨h2, ?_, ?_⟩
    · rw [h1]; simp [downvote_comment, hlk]
    · rw [h1]; simp only [downvote_comment, hlk]
      have : updateComment (updateComment s.comments id incVote) id decVote =
          s.comments := by
        rw [updateComment_updateComment, updateComment_id]
        intro c'; cases c' <;> simp [incVote, decVote]
      simp [this]
  · intro h
    constructor <;> simp [upvote_comment, downvote_comment, h]

/-- Witness for C7: both branches on a concrete store. -/
theorem C7_witness :
    ((upvote_comment exState2 2).2 = true ∧
      (downvote_comment (upvote_comment exState2 2).1 2).2 = true ∧
      (downvote_comment (upvote_comment exState2 2).1 2).1 = exState2) ∧
    (upvote_comment exState2 9 = (exState2, false) ∧
      downvote_comment exState2 9 = (exState2, false)) :=
  ⟨(C7_upvote_downvote exState2 2).1 (by decide),
   (C7_upvote_downvote exState2 9).2 (by decide)⟩

/-!
## C8 and C10 — `get_comments_view` error behaviour
-/

/-- C8: an unknown post id yields the empty sequence; on an existing post a
`view_type` other than `"tree"` and `"flat"` raises the `ValueError` (an
error, never the absence value), with no mutation in either case. -/
theorem C8_view_type_error (s : CommentSystem) (post_id : Nat)
    (view_type : String) :
    (s.posts.lookup post_id = none →
      get_comments_view s post_id view_type = (s, .ok [])) ∧
    (∀ p, s.posts.lookup post_id = some p →
      view_type ≠ "tree" → view_type ≠ "flat" →
      get_comments_view s post_id view_type =
        (s, .error "view_type must be 'tree' or 'flat'")) := by
  constructor
  · intro h; simp [get_comments_view, h]
  · intro p hp ht hf; simp [get_comments_view, hp, ht, hf]

/-- Witness for C8: unknown post, and a bad view type on an existing post. -/
theorem C8_witness :
    get_comments_view exState2 5 "flat" = (exState2, .ok []) ∧
    get_comments_view exState2 1 "nested" =
      (exState2, .error "view_type must be 'tree' or 'flat'") :=
  ⟨(C8_view_type_error exState2 5 "flat").1 (by decide),
   (C8_view_type_error exState2 1 "nested").2
     { id := 1, title := "Post Title", comments := [1] } (by decide)
     (by decide) (by decide)⟩

/-- C10: the post-existence check precedes `view_type` validation, so an
unknown post returns the empty sequence for every `view_type` string, and an
error can only ever be raised when the post exists. -/
theorem C10_post_check_before_view_type (s : CommentSystem) (post_id : Nat)
    (view_type : String) :
    (s.posts.lookup post_id = none →
      get_comments_view s post_id view_type = (s, .ok [])) ∧
    (∀ e, (get_comments_view s post_id view_type).2 = .error e →
      (s.posts.lookup post_id).isSome = true) := by
  constructor
  · intro h; simp [get_comments_view, h]
  · intro e he
    cases hp : s.posts.lookup post_id with
    | none => simp [get_comments_view, hp] at he
    | some p => rfl

/-- Witness for C10: an invalid view type on a missing post still returns the
empty sequence rather than an error. -/
theorem C10_witness :
    get_comments_view exState2 5 "nested" = (exState2, .ok []) :=
  (C10_post_check_before_view_type exState2 5 "nested").1 (by decide)

/-!
## C9 — the delete cascade re-acquires the non-reentrant lock
-/

/-- Re-acquiring the held lock blocks, whatever the fuel. -/
theorem delete_locked_go_held (fuel : Nat) (s : CommentSystem) (id : Nat) :
    delete_locked_go fuel true s id = none := by
  cases fuel <;> rfl

/-- C9: the claim requires every public operation, in particular the recursive
delete cascade, to run to completion; but `delete_comment` re-enters
`with self.lock:` (a non-reentrant `threading.Lock`) for each reply, so
deleting any comment that has at least one reply blocks forever.  (A leaf
comment performs no recursive call and is deleted normally.) -/
theorem C9_delete_with_replies_deadlocks (s : CommentSystem) (id : Nat)
    (c : Comment) (hc : s.comments.lookup id = some c)
    (hr : c.replies ≠ []) :
    delete_comment_locked s id = none := by
  obtain ⟨r, rest, hrep⟩ := List.exists_cons_of_ne_nil hr
  simp [delete_comment_locked, delete_locked_go, hc, hrep,
    delete_locked_go_held]

/-- Witness for C9: deleting comment 1 — which has the reply 2 — deadlocks on
the concrete store (this is exactly the scenario of the repository's own
`test_delete_comment`). -/
theorem C9_witness : delete_comment_locked exState2 1 = none :=
  C9_delete_with_replies_deadlocks exState2 1
    { id := 1, user := "alice", content := "hi", timestamp := 0,
      parent_comment_id := none, replies := [2], vote_count := 0,
      collapsed := false }
    (by decide) (by decide)

/-!
## C2 — the depth cap on replies
-/

/-- Appending entries on the right never changes a successful lookup. -/
theorem lookup_append_of_some {m l : List (Nat × Comment)} {j : Nat}
    {c : Comment} (h : m.lookup j = some c) : (m ++ l).lookup j = some c := by
  rw [List.lookup_append, h]; rfl

/-- A parent-pointer-preserving in-place update keeps every present key
present with the same parent pointer. -/
theorem lookup_update_parentPreserved {m : List (Nat × Comment)} (pid : Nat)
    (f : Comment → Comment)
    (hf : ∀ c, (f c).parent_comment_id = c.parent_comment_id) :
    ∀ j c, m.lookup j = some c →
      ∃ c', (updateComment m pid f).lookup j = some c' ∧
        c'.parent_comment_id = c.parent_comment_id := by
  intro j c hc
  rw [lookup_updateComment]
  by_cases hj : j = pid
  · exact ⟨f c, by rw [if_pos hj, hc]; rfl, hf c⟩
  · exact ⟨c, by rw [if_neg hj, hc], rfl⟩

/-- The reply branch of `add_comment_insert`: the returned comment is the
fresh record, and the final index is the appended-and-reply-linked index,
possibly with the auto-collapse flag set on the parent's entry. -/
theorem add_comment_insert_parent_shape (s : CommentSystem) (post_id : Nat)
    (user content : String) (pid : Nat) :
    (add_comment_insert s post_id user content (some pid)).2 =
      some (newComment s user content (some pid)) ∧
    (add_comment_insert s post_id user content (some pid)).1.posts = s.posts ∧
    (add_comment_insert s post_id user content (some pid)).1.user_comments =
      userAppend s.user_comments user s.next_comment_id ∧
    (add_comment_insert s post_id user content (some pid)).1.next_comment_id =
      s.next_comment_id + 1 ∧
    ((add_comment_insert s post_id user content (some pid)).1.comments =
        updateComment
          (s.comments ++ [(s.next_comment_id, newComment s user content (some pid))])
          pid (pushReply s.next_comment_id) ∨
      (add_comment_insert s post_id user content (some pid)).1.comments =
        updateComment
          (updateComment
            (s.comments ++ [(s.next_comment_id, newComment s user content (some pid))])
            pid (pushReply s.next_comment_id))
          pid markCollapsed) := by
  unfold add_comment_insert
  dsimp only
  split
  · split
    · exact ⟨rfl, rfl, rfl, rfl, Or.inr rfl⟩
    · exact ⟨rfl, rfl, rfl, rfl, Or.inl rfl⟩
  · exact ⟨rfl, rfl, rfl, rfl, Or.inl rfl⟩

/-- C2: with a valid user, non-blank content, an existing post and an existing
parent whose depth is `d`, `add_comment` succeeds exactly when `d ≤ 3`; when
`d ≥ 4` it returns the absence value and mutates nothing; and a created reply
sits at depth `d + 1 ≤ 4` in the resulting store (so every comment lives at
depth 0..4). -/
theorem C2_depth_cap (s : CommentSystem) (post_id pid : Nat)
    (user content : String) (d : Nat)
    (hpost : (s.posts.lookup post_id).isSome = true)
    (hparent : (s.comments.lookup pid).isSome = true)
    (huser : user ≠ "") (hcontent : isBlank content = false)
    (hfresh : ∀ p ∈ s.comments, p.1 < s.next_comment_id)
    (hd : ReachesRoot s.comments pid d) :
    ((add_comment s post_id user content (some pid)).2.isSome = true ↔ d ≤ 3) ∧
    (4 ≤ d → add_comment s post_id user content (some pid) = (s, none)) ∧
    (∀ c, (add_comment s post_id user content (some pid)).2 = some c →
      ReachesRoot (add_comment s post_id user content (some pid)).1.comments
        c.id (d + 1) ∧ d + 1 ≤ 4) := by
  obtain ⟨po, hpo⟩ := Option.isSome_iff_exists.mp hpost
  obtain ⟨co, hco⟩ := Option.isSome_iff_exists.mp hparent
  have hg1 : ¬(user = "" ∨ isBlank content = true) := by
    rintro (h | h)
    · exact huser h
    · rw [hcontent] at h; exact Bool.false_ne_true h
  have hdep : get_comment_depth s pid = d := get_comment_depth_eq hd
  have hA : add_comment s post_id user content (some pid) =
      if 4 ≤ d then (s, none)
      else add_comment_insert s post_id user content (some pid) := by
    rw [add_comment, if_neg hg1]
    simp only [hpo, hco, Option.isNone_some, Bool.false_eq_true, if_false,
      hdep, ge_iff_le]
  by_cases hd4 : 4 ≤ d
  · rw [hA, if_pos hd4]
    refine ⟨?_, fun _ => rfl, ?_⟩
    · simp; omega
    · intro c hc; simp at hc
  · rw [hA, if_neg hd4]
    obtain ⟨hsnd, hposts, husers, hnext, hcomm⟩ :=
      add_comment_insert_parent_shape s post_id user content pid
    have hpidlt : pid < s.next_comment_id := by
      have := mem_keys_of_lookup hco
      obtain ⟨p, hp, he⟩ := List.mem_map.mp this
      exact he ▸ hfresh p hp
    have hpidne : pid ≠ s.next_comment_id := Nat.ne_of_lt hpidlt
    have hfreshnone : s.comments.lookup s.next_comment_id = none := by
      rw [List.lookup_eq_none_iff]
      intro p hp
      exact bne_iff_ne.mpr (Nat.ne_of_gt (hfresh p hp))
    set nc := newComment s user content (some pid) with hnc
    set m1 := s.comments ++ [(s.next_comment_id, nc)] with hm1
    set m3 := updateComment m1 pid (pushReply s.next_comment_id) with hm3
    have hm1new : m1.lookup s.next_comment_id = some nc := by
      rw [hm1, List.lookup_append, hfreshnone]
      simp
    have hm3new : m3.lookup s.next_comment_id = some nc := by
      rw [hm3, lookup_updateComment, if_neg (Ne.symm hpidne), hm1new]
    have hmono1 : ∀ j c, s.comments.lookup j = some c →
        ∃ c', m1.lookup j = some c' ∧
          c'.parent_comment_id = c.parent_comment_id :=
      fun j c hc => ⟨c, lookup_append_of_some hc, rfl⟩
    have hrr3 : ReachesRoot m3 pid d :=
      (ReachesRoot.mono
        (lookup_update_parentPreserved pid (pushReply s.next_comment_id)
          (fun c => rfl)))
        ((ReachesRoot.mono hmono1) hd)
    refine ⟨?_, fun h => absurd h hd4, ?_⟩
    · rw [hsnd]; simp; omega
    · intro c hc
      rw [hsnd] at hc
      have hceq : c = nc := by
        injection hc with h; exact h.symm
      subst hceq
      have hcid : nc.id = s.next_comment_id := rfl
      have hcpar : nc.parent_comment_id = some pid := rfl
      refine ⟨?_, by omega⟩
      rcases hcomm with hcm | hcm
      · rw [hcm, hcid]
        exact ReachesRoot.step hm3new hcpar hrr3
      · rw [hcm, hcid]
        have hnew4 : (updateComment m3 pid markCollapsed).lookup
            s.next_comment_id = some nc := by
          rw [lookup_updateComment, if_neg (Ne.symm hpidne), hm3new]
        have hrr4 : ReachesRoot (updateComment m3 pid markCollapsed) pid d :=
          (ReachesRoot.mono
            (lookup_update_parentPreserved pid markCollapsed (fun c => rfl)))
            hrr3
        exact ReachesRoot.step hnew4 hcpar hrr4

/-!
## C3 — auto-collapse of the direct parent
-/

/-- In-place updates preserve the number of entries. -/
theorem updateComment_length (m : List (Nat × Comment)) (id : Nat)
    (f : Comment → Comment) : (updateComment m id f).length = m.length := by
  induction m with
  | nil => rfl
  | cons p t ih =>
    obtain ⟨k, v⟩ := p
    by_cases hk : k = id
    · subst hk; rw [updateComment_cons_eq]; simp [ih]
    · rw [updateComment_cons_ne hk]; simp [ih]

/-- `_count_total_replies` only reads reply lists, so it is invariant under
index transformations that preserve every entry's `replies` and under record
changes away from `replies`. -/
theorem count_total_replies_congr {m₁ m₂ : List (Nat × Comment)}
    (hview : ∀ j, (m₂.lookup j).map Comment.replies =
      (m₁.lookup j).map Comment.replies) :
    ∀ (fuel : Nat) (c₂ c₁ : Comment), c₂.replies = c₁.replies →
      count_total_replies m₂ fuel c₂ = count_total_replies m₁ fuel c₁ := by
  intro fuel
  induction fuel with
  | zero => intro c₂ c₁ _; rfl
  | succ f ih =>
    intro c₂ c₁ hr
    rw [count_total_replies, count_total_replies, hr]
    have key : ∀ (l : List Nat),
        ((l.filterMap (fun rid => m₂.lookup rid)).map
          (count_total_replies m₂ f)).foldr (· + ·) 0 =
        ((l.filterMap (fun rid => m₁.lookup rid)).map
          (count_total_replies m₁ f)).foldr (· + ·) 0 := by
      intro l
      induction l with
      | nil => rfl
      | cons rid rest ihl =>
        have hv := hview rid
        cases h2 : m₂.lookup rid with
        | none =>
          cases h1 : m₁.lookup rid with
          | none => simp [List.filterMap_cons, h2, h1, ihl]
          | some r1 => rw [h2, h1] at hv; simp at hv
        | some r2 =>
          cases h1 : m₁.lookup rid with
          | none => rw [h2, h1] at hv; simp at hv
          | some r1 =>
            rw [h2, h1] at hv
            simp only [Option.map_some'] at hv
            simp only [List.filterMap_cons, h2, h1, List.map_cons,
              List.foldr_cons]
            rw [ih r2 r1 (Option.some.inj hv), ihl]
    rw [key c₁.replies]

/-- The index after the reply-append of `add_comment_insert`: the new record
added at the end, the parent's reply list extended. -/
def replyIndex (s : CommentSystem) (user content : String) (pid : Nat) :
    List (Nat × Comment) :=
  updateComment (s.comments ++ [(s.next_comment_id, newComment s user content (some pid))])
    pid (pushReply s.next_comment_id)

/-- The store state right after the reply-append, before the collapse
re-evaluation (the code's `self` at the `should_collapse_thread` call). -/
def replyMidState (s : CommentSystem) (user content : String) (pid : Nat) :
    CommentSystem :=
  { s with comments := replyIndex s user content pid,
           user_comments := userAppend s.user_comments user s.next_comment_id,
           next_comment_id := s.next_comment_id + 1 }

/-- Exact shape of the reply branch of `add_comment_insert`. -/
theorem add_comment_insert_parent_spec (s : CommentSystem) (post_id : Nat)
    (user content : String) (pid : Nat) (co : Comment)
    (hco : s.comments.lookup pid = some co) :
    add_comment_insert s post_id user content (some pid) =
      (if should_collapse_thread (replyMidState s user content pid)
          (pushReply s.next_comment_id co)
       then { replyMidState s user content pid with
              comments := updateComment (replyIndex s user content pid) pid markCollapsed }
       else replyMidState s user content pid,
       some (newComment s user content (some pid))) := by
  have hlk : (updateComment
      (s.comments ++ [(s.next_comment_id, newComment s user content (some pid))])
      pid (pushReply s.next_comment_id)).lookup pid =
      some (pushReply s.next_comment_id co) := by
    rw [lookup_updateComment, if_pos rfl, lookup_append_of_some hco]; rfl
  unfold add_comment_insert
  dsimp only
  rw [hlk]
  rfl

/-- Exact shape of the top-level branch of `add_comment_insert`. -/
theorem add_comment_insert_toplevel_spec (s : CommentSystem) (post_id : Nat)
    (user content : String) :
    add_comment_insert s post_id user content none =
      ({ s with
         comments := s.comments ++ [(s.next_comment_id, newComment s user content none)],
         user_comments := userAppend s.user_comments user s.next_comment_id,
         next_comment_id := s.next_comment_id + 1,
         posts := updatePost s.posts post_id (pushTopLevel s.next_comment_id) },
       some (newComment s user content none)) := rfl

/-- C3: whenever `add_comment` succeeds, every comment that already existed
keeps its entry, and its collapsed flag becomes `old || (direct parent ∧ the
parent's total reply-subtree size in the resulting store exceeds 10)` — so the
flag of any comment other than the direct parent is unchanged, a flag is never
reset to `false`, and the direct parent is collapsed exactly when its subtree
has grown beyond 10 (or was already collapsed). -/
theorem C3_auto_collapse (s s' : CommentSystem) (post_id : Nat)
    (user content : String) (parent : Option Nat) (c : Comment)
    (h : add_comment s post_id user content parent = (s', some c)) :
    ∀ id c₀, s.comments.lookup id = some c₀ →
      ∃ c₁, s'.comments.lookup id = some c₁ ∧
        c₁.collapsed = (c₀.collapsed ||
          ((parent == some id) &&
            decide (10 < count_total_replies s'.comments
              (s'.comments.length + 1) c₁))) := by
  intro id c₀ hc₀
  cases parent with
  | none =>
    simp only [add_comment] at h
    by_cases hg1 : user = "" ∨ isBlank content = true
    · rw [if_pos hg1] at h; simp [Prod.mk.injEq] at h
    · rw [if_neg hg1] at h
      by_cases hg2 : (s.posts.lookup post_id).isNone = true
      · rw [if_pos hg2] at h; simp [Prod.mk.injEq] at h
      · rw [if_neg hg2] at h
        rw [add_comment_insert_toplevel_spec] at h
        have hs' := congrArg Prod.fst h
        dsimp at hs'
        subst hs'
        refine ⟨c₀, lookup_append_of_some hc₀, ?_⟩
        simp
  | some pid =>
    simp only [add_comment] at h
    by_cases hg1 : user = "" ∨ isBlank content = true
    · rw [if_pos hg1] at h; simp [Prod.mk.injEq] at h
    · rw [if_neg hg1] at h
      by_cases hg2 : (s.posts.lookup post_id).isNone = true
      · rw [if_pos hg2] at h; simp [Prod.mk.injEq] at h
      · rw [if_neg hg2] at h
        by_cases hg3 : (s.comments.lookup pid).isNone = true
        · rw [if_pos hg3] at h; simp [Prod.mk.injEq] at h
        · rw [if_neg hg3] at h
          by_cases hg4 : 4 ≤ get_comment_depth s pid
          · rw [if_pos hg4] at h; simp [Prod.mk.injEq] at h
          · rw [if_neg hg4] at h
            obtain ⟨co, hco⟩ : ∃ co, s.comments.lookup pid = some co := by
              cases hx : s.comments.lookup pid with
              | none => rw [hx] at hg3; simp at hg3
              | some co => exact ⟨co, rfl⟩
            rw [add_comment_insert_parent_spec s post_id user content pid co hco] at h
            have hlkrep : (replyIndex s user content pid).lookup pid =
                some (pushReply s.next_comment_id co) := by
              rw [replyIndex, lookup_updateComment, if_pos rfl,
                lookup_append_of_some hco]; rfl
            by_cases hflag : should_collapse_thread
                (replyMidState s user content pid)
                (pushReply s.next_comment_id co) = true
            · rw [if_pos hflag] at h
              have hs' := congrArg Prod.fst h
              dsimp at hs'
              subst hs'
              by_cases hid : id = pid
              · subst hid
                have hc₀eq : c₀ = co := by rw [hc₀] at hco; injection hco
                subst hc₀eq
                have hcount : count_total_replies
                    (updateComment (replyIndex s user content id) id markCollapsed)
                    ((updateComment (replyIndex s user content id) id
                      markCollapsed).length + 1)
                    (markCollapsed (pushReply s.next_comment_id c₀)) =
                    count_total_replies (replyIndex s user content id)
                      ((replyIndex s user content id).length + 1)
                      (pushReply s.next_comment_id c₀) := by
                  rw [updateComment_length]
                  refine count_total_replies_congr ?_ _ _ _ rfl
                  intro j
                  rw [lookup_updateComment]
                  by_cases hj : j = id
                  · rw [if_pos hj]
                    cases (replyIndex s user content id).lookup j <;> rfl
                  · rw [if_neg hj]
                have hgt : decide (10 < count_total_replies
                    (replyIndex s user content id)
                    ((replyIndex s user content id).length + 1)
                    (pushReply s.next_comment_id c₀)) = true := hflag
                refine ⟨markCollapsed (pushReply s.next_comment_id c₀), ?_, ?_⟩
                · show (updateComment (replyIndex s user content id) id
                    markCollapsed).lookup id = _
                  rw [lookup_updateComment, if_pos rfl, hlkrep]; rfl
                · show (markCollapsed (pushReply s.next_comment_id c₀)).collapsed =
                    (c₀.collapsed || (((some id : Option Nat) == some id) &&
                      decide (10 < count_total_replies
                        (updateComment (replyIndex s user content id) id markCollapsed)
                        ((updateComment (replyIndex s user content id) id
                          markCollapsed).length + 1)
                        (markCollapsed (pushReply s.next_comment_id c₀)))))
                  rw [hcount, hgt]
                  simp [markCollapsed]
              · have hb : ((some pid : Option Nat) == some id) = false := by
                  refine beq_eq_false_iff_ne.mpr ?_
                  intro hh
                  exact hid (Option.some.inj hh).symm
                refine ⟨c₀, ?_, ?_⟩
                · show (updateComment (replyIndex s user content pid) pid
                    markCollapsed).lookup id = _
                  rw [lookup_updateComment, if_neg hid, replyIndex,
                    lookup_updateComment, if_neg hid,
                    lookup_append_of_some hc₀]
                · simp [hb]
            · rw [if_neg hflag] at h
              have hs' := congrArg Prod.fst h
              dsimp at hs'
              subst hs'
              by_cases hid : id = pid
              · subst hid
                have hc₀eq : c₀ = co := by rw [hc₀] at hco; injection hco
                subst hc₀eq
                have hle : decide (10 < count_total_replies
                    (replyMidState s user content id).comments
                    ((replyMidState s user content id).comments.length + 1)
                    (pushReply s.next_comment_id c₀)) = false := by
                  cases hsc : should_collapse_thread (replyMidState s user content id)
                      (pushReply s.next_comment_id c₀)
                  · exact hsc
                  · exact absurd hsc hflag
                refine ⟨pushReply s.next_comment_id c₀, ?_, ?_⟩
                · show (replyIndex s user content id).lookup id = _
                  exact hlkrep
                · show (pushReply s.next_comment_id c₀).collapsed =
                    (c₀.collapsed || (((some id : Option Nat) == some id) &&
                      decide (10 < count_total_replies
                        (replyMidState s user content id).comments
                        ((replyMidState s user content id).comments.length + 1)
                        (pushReply s.next_comment_id c₀))))
                  rw [hle]
                  simp [pushReply]
              · have hb : ((some pid : Option Nat) == some id) = false := by
                  refine beq_eq_false_iff_ne.mpr ?_
                  intro hh
                  exact hid (Option.some.inj hh).symm
                refine ⟨c₀, ?_, ?_⟩
                · show (replyIndex s user content pid).lookup id = _
                  rw [replyIndex, lookup_updateComment, if_neg hid,
                    lookup_append_of_some hc₀]
                · simp [hb]

/-- Replies piled directly under comment 1: `repState n` has the root comment
1 and `n` direct replies to it. -/
def repState : Nat → CommentSystem
  | 0 => exState1
  | n + 1 => (add_comment (repState n) 1 "u" "r" (some 1)).1

/-- Witness for C3: a concrete successful reply satisfies the collapse
equation, and the in-particular facts hold: after 11 direct replies comment 1
is collapsed, after 10 it is not. -/
theorem C3_witness :
    (∃ c₁, exState2.comments.lookup 1 = some c₁ ∧
      c₁.collapsed = (false ||
        ((some (1 : Nat) == some 1) &&
          decide (10 < count_total_replies exState2.comments
            (exState2.comments.length + 1) c₁)))) ∧
    ((repState 11).comments.lookup 1).map Comment.collapsed = some true ∧
    ((repState 10).comments.lookup 1).map Comment.collapsed = some false := by
  refine ⟨?_, by decide, by decide⟩
  exact C3_auto_collapse exState1 exState2 1 "bob" "hello" (some 1)
    (newComment exState1 "bob" "hello" (some 1)) (by decide) 1
    ⟨1, "alice", "hi", 0, none, [], 0, false⟩ (by decide)

/-!
## C4 — the flat view

`RTree` is the specification-level comment tree; `Represents m id t` says the
tree `t` is exactly the unfolding of comment `id` through the arena `m`;
`specFlatten` is the claim's depth-first pre-order flattening that skips the
reply subtree of a collapsed comment.
-/

inductive RTree where
  | node (c : Comment) (children : List RTree)
deriving Repr

mutual

def Represents (m : List (Nat × Comment)) : Nat → RTree → Prop
  | id, RTree.node c ts => m.lookup id = some c ∧ Fits m c.replies ts

def Fits (m : List (Nat × Comment)) : List Nat → List RTree → Prop
  | [], [] => True
  | id :: ids, t :: ts => Represents m id t ∧ Fits m ids ts
  | _, _ => False

end

/-- The claim's flattening, written from the spec's words: emit each comment
in order, then — only if it is not collapsed — its recursively flattened reply
subtree. -/
def specFlatten : List RTree → List Comment
  | [] => []
  | RTree.node c ts :: rest =>
    (c :: (if c.collapsed then [] else specFlatten ts)) ++ specFlatten rest

/-- A present lookup result is an entry of the list. -/
theorem mem_of_lookup_eq_some {m : List (Nat × Comment)} {k : Nat} {c : Comment}
    (h : m.lookup k = some c) : (k, c) ∈ m := by
  induction m with
  | nil => simp at h
  | cons p t ih =>
    obtain ⟨k', v⟩ := p
    rw [List.lookup_cons] at h
    cases hkk : (k == k') with
    | true =>
      rw [hkk] at h
      have hv : v = c := by injection h
      have hk : k = k' := beq_iff_eq.mp hkk
      subst hv; subst hk
      exact List.mem_cons_self _ _
    | false =>
      rw [hkk] at h
      exact List.mem_cons_of_mem _ (ih h)

/-- Executable check that every reply id of every indexed comment is itself
indexed with the parent pointer back to its parent. -/
def replyChildrenB (m : List (Nat × Comment)) : Bool :=
  m.all (fun p => p.2.replies.all (fun rid =>
    match m.lookup rid with
    | some rc => rc.parent_comment_id == some p.1
    | none => false))

theorem replyChildrenB_sound {m : List (Nat × Comment)}
    (h : replyChildrenB m = true) :
    ∀ k c, m.lookup k = some c → ∀ rid ∈ c.replies,
      ∃ rc, m.lookup rid = some rc ∧ rc.parent_comment_id = some k := by
  intro k c hk rid hrid
  have hmem := mem_of_lookup_eq_some hk
  rw [replyChildrenB, List.all_eq_true] at h
  have h2 := h (k, c) hmem
  rw [List.all_eq_true] at h2
  have h3 := h2 rid hrid
  cases hrc : m.lookup rid with
  | none => rw [hrc] at h3; simp at h3
  | some rc =>
    rw [hrc] at h3
    simp only [beq_iff_eq] at h3
    exact ⟨rc, rfl, h3⟩

/-- One step of the embedded flattening. -/
theorem flatten_comments_cons (m : List (Nat × Comment)) (f : Nat)
    (c : Comment) (cs : List Comment) :
    flatten_comments m (f + 1) (c :: cs) =
      (c :: (if c.collapsed then []
             else flatten_comments m f
               (c.replies.filterMap (fun rid => m.lookup rid)))) ++
        flatten_comments m (f + 1) cs := by
  show (c :: cs).flatMap _ = _
  rw [List.flatMap_cons]
  rfl

/-- With enough fuel, the embedded flattening of a represented forest is the
specification flattening. -/
theorem flatten_eq_spec {m : List (Nat × Comment)}
    (hrc : ∀ k c, m.lookup k = some c → ∀ rid ∈ c.replies,
      ∃ rc, m.lookup rid = some rc ∧ rc.parent_comment_id = some k) :
    ∀ (n : Nat) (F : List RTree) (ids : List Nat) (d : Nat), sizeOf F ≤ n →
      Fits m ids F → (∀ id ∈ ids, ReachesRoot m id d) →
      ∀ fuel, m.length - d < fuel →
      flatten_comments m fuel (ids.filterMap (fun rid => m.lookup rid)) =
        specFlatten F := by
  intro n
  induction n using Nat.strong_induction_on with
  | _ n ih =>
    intro F ids d hsz hfits hd fuel hfuel
    cases F with
    | nil =>
      cases ids with
      | nil => cases fuel <;> simp [flatten_comments, specFlatten]
      | cons id ids' => exact absurd hfits (by simp [Fits])
    | cons t Frest =>
      cases ids with
      | nil => exact absurd hfits (by simp [Fits])
      | cons id ids' =>
        obtain ⟨c, ts⟩ := t
        obtain ⟨⟨hlk, hkids⟩, hrest⟩ := hfits
        cases fuel with
        | zero => omega
        | succ f =>
          have hdid : ReachesRoot m id d := hd id (List.mem_cons_self _ _)
          have hdlt : d < m.length := hdid.lt_length
          have hsz' : sizeOf ts < n ∧ sizeOf Frest < n := by
            simp only [List.cons.sizeOf_spec, RTree.node.sizeOf_spec] at hsz
            constructor <;> omega
          have hkid_rr : ∀ rid ∈ c.replies, ReachesRoot m rid (d + 1) := by
            intro rid hrid
            obtain ⟨rc, hrc1, hrc2⟩ := hrc id c hlk rid hrid
            exact ReachesRoot.step hrc1 hrc2 hdid
          have hchild : flatten_comments m f
              (c.replies.filterMap (fun rid => m.lookup rid)) =
              specFlatten ts :=
            ih (sizeOf ts) hsz'.1 ts c.replies (d + 1) (le_refl _) hkids
              hkid_rr f (by omega)
          have hrest' : flatten_comments m (f + 1)
              (ids'.filterMap (fun rid => m.lookup rid)) =
              specFlatten Frest :=
            ih (sizeOf Frest) hsz'.2 Frest ids' d (le_refl _) hrest
              (fun x hx => hd x (List.mem_cons_of_mem _ hx)) (f + 1) hfuel
          rw [show (id :: ids').filterMap (fun rid => m.lookup rid) =
              c :: ids'.filterMap (fun rid => m.lookup rid) from by
            simp [List.filterMap_cons, hlk]]
          rw [flatten_comments_cons, hchild, hrest']
          conv_rhs => rw [specFlatten]

/-- C4: on an existing post whose top-level comments are represented by the
forest `F`, the flat view returns exactly the specification's depth-first
pre-order flattening in which a collapsed comment's reply subtree is omitted,
and the store is not mutated (the represented trees, and hence the index, are
untouched). -/
theorem C4_flat_view (s : CommentSystem) (post_id : Nat) (post : Post)
    (F : List RTree)
    (hpost : s.posts.lookup post_id = some post)
    (hrc : ∀ k c, s.comments.lookup k = some c → ∀ rid ∈ c.replies,
      ∃ rc, s.comments.lookup rid = some rc ∧ rc.parent_comment_id = some k)
    (hroots : ∀ id ∈ post.comments, ReachesRoot s.comments id 0)
    (hF : Fits s.comments post.comments F) :
    get_comments_view s post_id "flat" = (s, .ok (specFlatten F)) := by
  rw [get_comments_view, hpost]
  dsimp only
  rw [if_neg (by decide : ¬("flat" = "tree")), if_pos rfl]
  rw [show resolve s.comments post.comments =
      post.comments.filterMap (fun rid => s.comments.lookup rid) from rfl]
  rw [flatten_eq_spec hrc (sizeOf F) F post.comments 0 (le_refl _) hF hroots
    (s.comments.length + 1) (by omega)]

/-- The example store with comment 1 manually collapsed. -/
def exCollapsed : CommentSystem := (toggle_collapse exState2 1).1

/-- Witness for C4: on the concrete store where comment 1 (with reply 2) is
collapsed, the flat view emits comment 1 but omits its reply subtree. -/
theorem C4_witness :
    get_comments_view exCollapsed 1 "flat" =
      (exCollapsed, .ok (specFlatten
        [RTree.node
          { id := 1, user := "alice", content := "hi", timestamp := 0,
            parent_comment_id := none, replies := [2], vote_count := 0,
            collapsed := true }
          [RTree.node
            { id := 2, user := "bob", content := "hello", timestamp := 0,
              parent_comment_id := some 1, replies := [], vote_count := 0,
              collapsed := false } []]])) :=
  C4_flat_view exCollapsed 1
    { id := 1, title := "Post Title", comments := [1] }
    [RTree.node
      { id := 1, user := "alice", content := "hi", timestamp := 0,
        parent_comment_id := none, replies := [2], vote_count := 0,
        collapsed := true }
      [RTree.node
        { id := 2, user := "bob", content := "hello", timestamp := 0,
          parent_comment_id := some 1, replies := [], vote_count := 0,
          collapsed := false } []]]
    (by decide)
    (replyChildrenB_sound (by decide))
    (by
      intro id hid
      have : id = 1 := by
        cases hid with
        | head => rfl
        | tail _ hx => cases hx
      subst this
      exact rrCheck_sound 5 (by decide))
    ⟨⟨by decide, ⟨⟨by decide, trivial⟩, trivial⟩⟩, trivial⟩

/-!
## Deletion: helper layer

Lookups through the deletion primitives, the parent-pointer view of the index,
iterated parent hops, and the subtree function's structural lemmas.
-/

theorem lookup_eraseKey_self (m : List (Nat × Comment)) (id : Nat) :
    (eraseKey m id).lookup id = none := by
  rw [List.lookup_eq_none_iff]
  intro p hp
  have := (List.mem_filter.mp hp).2
  simp only [decide_not, Bool.not_eq_true', decide_eq_false_iff_not] at this
  exact bne_iff_ne.mpr (fun h => this h.symm)

theorem lookup_eraseKey_ne (m : List (Nat × Comment)) {x id : Nat}
    (h : x ≠ id) : (eraseKey m x).lookup id = m.lookup id := by
  induction m with
  | nil => rfl
  | cons p t ih =>
    obtain ⟨k, v⟩ := p
    by_cases hk : k = x
    · have he : eraseKey ((k, v) :: t) x = eraseKey t x := by
        simp [eraseKey, List.filter_cons, hk]
      have hb : (id == k) = false := beq_eq_false_iff_ne.mpr (by omega)
      rw [he, ih, List.lookup_cons, hb]
    · have he : eraseKey ((k, v) :: t) x = (k, v) :: eraseKey t x := by
        simp [eraseKey, List.filter_cons, hk]
      rw [he, List.lookup_cons, List.lookup_cons]
      cases hkk : (id == k) with
      | true => rfl
      | false => exact ih

theorem keys_updateComment (m : List (Nat × Comment)) (id : Nat)
    (f : Comment → Comment) :
    (updateComment m id f).map Prod.fst = m.map Prod.fst := by
  induction m with
  | nil => rfl
  | cons p t ih =>
    obtain ⟨k, v⟩ := p
    by_cases hk : k = id
    · subst hk; rw [updateComment_cons_eq]; simpa using ih
    · rw [updateComment_cons_ne hk]; simpa using ih

/-- Keys of one association list contained in the keys of another. -/
def SubKeys (m' m : List (Nat × Comment)) : Prop :=
  ∀ k, k ∈ m'.map Prod.fst → k ∈ m.map Prod.fst

theorem lookup_none_mono {m' m : List (Nat × Comment)} (hs : SubKeys m' m)
    {x : Nat} (h : m.lookup x = none) : m'.lookup x = none := by
  rw [List.lookup_eq_none_iff] at h ⊢
  intro p hp
  refine bne_iff_ne.mpr (fun hx => ?_)
  have hmem : p.1 ∈ m.map Prod.fst := hs p.1 (List.mem_map.mpr ⟨p, hp, rfl⟩)
  obtain ⟨q, hq, hqe⟩ := List.mem_map.mp hmem
  have hbq := bne_iff_ne.mp (h q hq)
  exact hbq (by rw [hx, ← hqe])

/-- The parent-pointer view of the index: presence and parent pointer of each
id, the only data the depth walk reads. -/
def parentView (m : List (Nat × Comment)) (x : Nat) : Option (Option Nat) :=
  (m.lookup x).map Comment.parent_comment_id

/-- Depth transfers to any index that preserves the parent view of every node
of depth at most `d`. -/
theorem ReachesRoot.transfer_depths {m1 m2 : List (Nat × Comment)} {d : Nat}
    (hview : ∀ a da, ReachesRoot m1 a da → da ≤ d →
      parentView m2 a = parentView m1 a) :
    ∀ {x dx}, ReachesRoot m1 x dx → dx ≤ d → ReachesRoot m2 x dx := by
  intro x dx h
  induction h with
  | root hc hp =>
    intro hle
    have hv := hview _ 0 (ReachesRoot.root hc hp) hle
    rw [parentView, parentView, hc] at hv
    cases hc2 : m2.lookup _ with
    | none => rw [hc2] at hv; simp at hv
    | some c2 =>
      rw [hc2] at hv
      simp only [Option.map_some'] at hv
      exact ReachesRoot.root hc2 (by rw [Option.some.inj hv, hp])
  | step hc hp hr ih =>
    intro hle
    have hv := hview _ _ (ReachesRoot.step hc hp hr) hle
    rw [parentView, parentView, hc] at hv
    cases hc2 : m2.lookup _ with
    | none => rw [hc2] at hv; simp at hv
    | some c2 =>
      rw [hc2] at hv
      simp only [Option.map_some'] at hv
      exact ReachesRoot.step hc2 (by rw [Option.some.inj hv, hp])
        (ih (by omega))

/-- One parent hop through the index. -/
def parentHop (m : List (Nat × Comment)) (x : Nat) : Option Nat :=
  match m.lookup x with
  | some c => c.parent_comment_id
  | none => none

/-- Iterated parent hop through the index. -/
def parentIter (m : List (Nat × Comment)) : Nat → Nat → Option Nat
  | 0, x => some x
  | k + 1, x => (parentHop m x).bind (parentIter m k)

theorem parentIter_add (m : List (Nat × Comment)) (a b : Nat) :
    ∀ x, parentIter m (a + b) x =
      (parentIter m a x).bind (parentIter m b) := by
  induction a with
  | zero => intro x; simp [parentIter]
  | succ a ih =>
    intro x
    rw [show a + 1 + b = (a + b) + 1 from by omega]
    rw [parentIter, parentIter]
    cases hx : parentHop m x with
    | none => rfl
    | some p =>
      simp only [Option.some_bind]
      rw [ih p]

/-- The conditional back-pointer property: every reply reference of an indexed
comment targets an indexed comment whose parent pointer returns to it (this is
`replyChildrenB` as a proposition). -/
def RB (m : List (Nat × Comment)) : Prop :=
  ∀ k c, m.lookup k = some c → ∀ rid ∈ c.replies,
    ∃ rc, m.lookup rid = some rc ∧ rc.parent_comment_id = some k

/-- Subtree members are indexed. -/
theorem subtree_present {m : List (Nat × Comment)} :
    ∀ {F r x}, x ∈ subtreeIds m F r → ∃ c, m.lookup x = some c := by
  intro F
  induction F with
  | zero => intro r x hx; simp [subtreeIds] at hx
  | succ f ih =>
    intro r x hx
    rw [subtreeIds] at hx
    cases hr : m.lookup r with
    | none => rw [hr] at hx; simp at hx
    | some c =>
      rw [hr] at hx
      rcases List.mem_cons.mp hx with rfl | hx
      · exact ⟨c, hr⟩
      · obtain ⟨rid, _, hx2⟩ := List.mem_flatMap.mp hx
        exact ih hx2

/-- The root belongs to its own subtree. -/
theorem subtree_self {m : List (Nat × Comment)} {F r : Nat} {c : Comment}
    (hr : m.lookup r = some c) : r ∈ subtreeIds m (F + 1) r := by
  rw [subtreeIds, hr]
  exact List.mem_cons_self _ _

/-- Subtree membership is monotone in the fuel. -/
theorem subtree_mono {m : List (Nat × Comment)} :
    ∀ {F F' : Nat}, F ≤ F' → ∀ {r x}, x ∈ subtreeIds m F r →
      x ∈ subtreeIds m F' r := by
  intro F
  induction F with
  | zero => intro F' _ r x hx; simp [subtreeIds] at hx
  | succ f ih =>
    intro F' hF r x hx
    obtain ⟨f', rfl⟩ : ∃ f', F' = f' + 1 :=
      ⟨F' - 1, by omega⟩
    rw [subtreeIds] at hx ⊢
    cases hr : m.lookup r with
    | none => rw [hr] at hx; simp at hx
    | some c =>
      rw [hr] at hx
      rcases List.mem_cons.mp hx with rfl | hx
      · exact List.mem_cons_self _ _
      · obtain ⟨rid, hrid, hx2⟩ := List.mem_flatMap.mp hx
        exact List.mem_cons_of_mem _
          (List.mem_flatMap.mpr ⟨rid, hrid, ih (by omega) hx2⟩)

/-- Every subtree member sits at least as deep as the subtree's root. -/
theorem subtree_depth_ge {m : List (Nat × Comment)} (hrb : RB m) :
    ∀ {F r dr x}, ReachesRoot m r dr → x ∈ subtreeIds m F r →
      ∃ dx, ReachesRoot m x dx ∧ dr ≤ dx := by
  intro F
  induction F with
  | zero => intro r dr x _ hx; simp [subtreeIds] at hx
  | succ f ih =>
    intro r dr x hrr hx
    rw [subtreeIds] at hx
    cases hr : m.lookup r with
    | none => rw [hr] at hx; simp at hx
    | some c =>
      rw [hr] at hx
      rcases List.mem_cons.mp hx with rfl | hx
      · exact ⟨dr, hrr, le_refl _⟩
      · obtain ⟨rid, hrid, hx2⟩ := List.mem_flatMap.mp hx
        obtain ⟨rc, hrc, hrcp⟩ := hrb r c hr rid hrid
        have hrr2 : ReachesRoot m rid (dr + 1) :=
          ReachesRoot.step hrc hrcp hrr
        obtain ⟨dx, hdx, hle⟩ := ih hrr2 hx2
        exact ⟨dx, hdx, by omega⟩

/-- From a subtree member, iterating the parent pointer by the depth
difference returns to the subtree's root. -/
theorem subtree_ancestor {m : List (Nat × Comment)} (hrb : RB m) :
    ∀ {F r dr x dx}, ReachesRoot m r dr → ReachesRoot m x dx →
      x ∈ subtreeIds m F r → parentIter m (dx - dr) x = some r := by
  intro F
  induction F with
  | zero => intro r dr x dx _ _ hx; simp [subtreeIds] at hx
  | succ f ih =>
    intro r dr x dx hrr hxx hx
    rw [subtreeIds] at hx
    cases hr : m.lookup r with
    | none => rw [hr] at hx; simp at hx
    | some c =>
      rw [hr] at hx
      rcases List.mem_cons.mp hx with rfl | hx
      · have : dx = dr := ReachesRoot.unique hxx hrr
        subst this
        simp [parentIter]
      · obtain ⟨rid, hrid, hx2⟩ := List.mem_flatMap.mp hx
        obtain ⟨rc, hrc, hrcp⟩ := hrb r c hr rid hrid
        have hrr2 : ReachesRoot m rid (dr + 1) :=
          ReachesRoot.step hrc hrcp hrr
        have hstep := ih hrr2 hxx hx2
        obtain ⟨ddx, hddx, hled⟩ := subtree_depth_ge hrb hrr2 hx2
        have hdd : ddx = dx := ReachesRoot.unique hddx hxx
        subst hdd
        have harith : ddx - dr = (ddx - (dr + 1)) + 1 := by omega
        rw [harith, parentIter_add]
        rw [hstep]
        simp [parentIter, parentHop, hrc, hrcp]

/-- Distinct comments at the same depth have disjoint reply subtrees. -/
theorem subtree_disjoint {m : List (Nat × Comment)} (hrb : RB m)
    {F G r1 r2 dr x : Nat} (h1 : ReachesRoot m r1 dr)
    (h2 : ReachesRoot m r2 dr) (hne : r1 ≠ r2)
    (hx1 : x ∈ subtreeIds m F r1) (hx2 : x ∈ subtreeIds m G r2) : False := by
  obtain ⟨dx, hdx, _⟩ := subtree_depth_ge hrb h1 hx1
  have e1 := subtree_ancestor hrb h1 hdx hx1
  have e2 := subtree_ancestor hrb h2 hdx hx2
  rw [e1] at e2
  exact hne (Option.some.inj e2)

/-- Subtree membership through a reply of the root. -/
theorem subtree_mem_child {m : List (Nat × Comment)} {f r rid x : Nat}
    {c : Comment} (hr : m.lookup r = some c) (hrid : rid ∈ c.replies)
    (hx : x ∈ subtreeIds m f rid) : x ∈ subtreeIds m (f + 1) r := by
  rw [subtreeIds, hr]
  exact List.mem_cons_of_mem _ (List.mem_flatMap.mpr ⟨rid, hrid, hx⟩)

theorem flatMap_congr_mem {α β : Type} {l : List α} {f g : α → List β}
    (h : ∀ x ∈ l, f x = g x) : l.flatMap f = l.flatMap g := by
  induction l with
  | nil => rfl
  | cons a t ih =>
    rw [List.flatMap_cons, List.flatMap_cons,
      h a (List.mem_cons_self _ _),
      ih (fun x hx => h x (List.mem_cons_of_mem _ hx))]

/-- Two indices that agree on every entry of a subtree (and on absence of
absent keys) compute the same subtree. -/
theorem subtree_congr {m1 m2 : List (Nat × Comment)} :
    ∀ {F r}, (∀ x, x ∈ subtreeIds m1 F r → m2.lookup x = m1.lookup x) →
      (∀ x, m1.lookup x = none → m2.lookup x = none) →
      subtreeIds m2 F r = subtreeIds m1 F r := by
  intro F
  induction F with
  | zero => intro r _ _; rfl
  | succ f ih =>
    intro r h1 h2
    cases hr : m1.lookup r with
    | none =>
      rw [subtreeIds, subtreeIds, hr, h2 r hr]
    | some c =>
      have hr2 : m2.lookup r = some c := by
        rw [h1 r (subtree_self hr), hr]
      rw [subtreeIds, subtreeIds, hr, hr2]
      dsimp only
      congr 1
      apply flatMap_congr_mem
      intro rid hrid
      exact ih
        (fun x hx => h1 x (subtree_mem_child hr hrid hx)) h2

/-- Splitting subtree membership at the root. -/
theorem subtree_mem_split {m : List (Nat × Comment)} {F r x : Nat}
    {c : Comment} (hr : m.lookup r = some c)
    (hx : x ∈ subtreeIds m (F + 1) r) :
    x = r ∨ ∃ rid ∈ c.replies, x ∈ subtreeIds m F rid := by
  rw [subtreeIds, hr] at hx
  rcases List.mem_cons.mp hx with rfl | hx
  · exact Or.inl rfl
  · obtain ⟨rid, hrid, hx2⟩ := List.mem_flatMap.mp hx
    exact Or.inr ⟨rid, hrid, hx2⟩

/-- No comment is its own parent (its depth would be off by one). -/
theorem no_self_parent {m : List (Nat × Comment)} {id d : Nat} {c : Comment}
    (hrr : ReachesRoot m id d) (hc : m.lookup id = some c)
    (hp : c.parent_comment_id = some id) : False := by
  cases hrr with
  | root hc' hp' =>
    rw [hc] at hc'; cases hc'; rw [hp] at hp'; cases hp'
  | step hc' hp' hr =>
    rw [hc] at hc'
    injection hc' with hce
    subst hce
    rw [hp] at hp'
    injection hp' with hpe
    subst hpe
    exact absurd (ReachesRoot.unique hr (ReachesRoot.step hc hp hr)) (by omega)

/-- The subtree computation is stable once the fuel covers the remaining
height (every chain is shorter than the index). -/
theorem subtree_stab {m : List (Nat × Comment)} (hrb : RB m) :
    ∀ (F : Nat) {r dr}, ReachesRoot m r dr → m.length ≤ F + dr →
      subtreeIds m (F + 1) r = subtreeIds m F r := by
  intro F
  induction F with
  | zero =>
    intro r dr hrr hF
    exact absurd hrr.lt_length (by omega)
  | succ f ih =>
    intro r dr hrr hF
    rw [subtreeIds, subtreeIds]
    cases hr : m.lookup r with
    | none => rfl
    | some c =>
      dsimp only
      congr 1
      apply flatMap_congr_mem
      intro rid hrid
      obtain ⟨rc, hrc, hrcp⟩ := hrb r c hr rid hrid
      exact ih (ReachesRoot.step hrc hrcp hrr) (by omega)

theorem subtree_stab_ge {m : List (Nat × Comment)} (hrb : RB m)
    {r dr : Nat} (hrr : ReachesRoot m r dr) :
    ∀ {F1 F2 : Nat}, F1 ≤ F2 → m.length ≤ F1 + dr →
      subtreeIds m F2 r = subtreeIds m F1 r := by
  intro F1 F2 h12 hb
  induction F2, h12 using Nat.le_induction with
  | base => rfl
  | succ F2 hle ih =>
    rw [subtree_stab hrb F2 hrr (by omega), ih]

/-- Deleting an unknown id is a no-op. -/
theorem delete_go_absent {s : CommentSystem} {id : Nat}
    (h : s.comments.lookup id = none) :
    ∀ fuel, delete_go fuel s id = (s, false) := by
  intro fuel
  cases fuel with
  | zero => rfl
  | succ f => rw [delete_go, h]

/-- Every container reference of the store: all top-level lists of the posts
followed by all reply lists of the indexed comments. -/
def allContainers (s : CommentSystem) : List Nat :=
  (s.posts.map (fun q => (q.2).comments)).flatten ++
    (s.comments.map (fun p => (p.2).replies)).flatten

theorem flatten_sublist {α : Type} :
    ∀ {l1 l2 : List (List α)}, l1.Sublist l2 → l1.flatten.Sublist l2.flatten := by
  intro l1 l2 h
  induction h with
  | slnil => exact List.Sublist.refl _
  | cons a h ih =>
    rw [List.flatten_cons]
    exact ih.trans (List.sublist_append_right _ _)
  | cons₂ a h ih =>
    rw [List.flatten_cons, List.flatten_cons]
    exact List.Sublist.append (List.Sublist.refl a) ih

theorem flatten_sublist_pointwise {α : Type} :
    ∀ {l1 l2 : List (List α)}, List.Forall₂ List.Sublist l1 l2 →
      l1.flatten.Sublist l2.flatten := by
  intro l1 l2 h
  induction h with
  | nil => exact List.Sublist.refl _
  | cons hab h ih =>
    rw [List.flatten_cons, List.flatten_cons]
    exact List.Sublist.append hab ih

theorem removeFromPosts_cons_mem {k : Nat} {p : Post} {t : List (Nat × Post)}
    {cid : Nat} (hmem : p.comments.contains cid = true) :
    removeFromPosts ((k, p) :: t) cid =
      (k, { p with comments := p.comments.erase cid }) :: t := by
  rw [removeFromPosts, if_pos hmem]

theorem removeFromPosts_cons_not_mem {k : Nat} {p : Post}
    {t : List (Nat × Post)} {cid : Nat}
    (hmem : ¬p.comments.contains cid = true) :
    removeFromPosts ((k, p) :: t) cid = (k, p) :: removeFromPosts t cid := by
  rw [removeFromPosts, if_neg hmem]

/-- `removeFromPosts` erases exactly the first occurrence of the id from the
concatenation of the posts' top-level lists. -/
theorem removeFromPosts_flatten (posts : List (Nat × Post)) (cid : Nat) :
    ((removeFromPosts posts cid).map (fun q => (q.2).comments)).flatten =
      ((posts.map (fun q => (q.2).comments)).flatten).erase cid := by
  induction posts with
  | nil => rfl
  | cons q t ih =>
    obtain ⟨k, p⟩ := q
    by_cases hmem : p.comments.contains cid = true
    · rw [removeFromPosts_cons_mem hmem]
      simp only [List.map_cons, List.flatten_cons]
      rw [List.erase_append_left _ (List.elem_iff.mp hmem)]
    · rw [removeFromPosts_cons_not_mem hmem]
      simp only [List.map_cons, List.flatten_cons]
      rw [ih, List.erase_append_right]
      intro hmem2
      exact hmem (List.elem_iff.mpr hmem2)

/-- `removeFromPosts` does not touch the post keys. -/
theorem removeFromPosts_keys (posts : List (Nat × Post)) (cid : Nat) :
    (removeFromPosts posts cid).map Prod.fst = posts.map Prod.fst := by
  induction posts with
  | nil => rfl
  | cons q t ih =>
    obtain ⟨k, p⟩ := q
    by_cases hmem : p.comments.contains cid = true
    · rw [removeFromPosts_cons_mem hmem]
      simp
    · rw [removeFromPosts_cons_not_mem hmem]
      simpa using ih

/-- Each post's list after `removeFromPosts` is a sublist of the original. -/
theorem removeFromPosts_pointwise (posts : List (Nat × Post)) (cid : Nat) :
    List.Forall₂ List.Sublist
      ((removeFromPosts posts cid).map (fun q => (q.2).comments))
      (posts.map (fun q => (q.2).comments)) := by
  induction posts with
  | nil => exact List.Forall₂.nil
  | cons q t ih =>
    obtain ⟨k, p⟩ := q
    by_cases hmem : p.comments.contains cid = true
    · rw [removeFromPosts_cons_mem hmem]
      exact List.Forall₂.cons (List.erase_sublist _ _)
        (List.forall₂_same.mpr (fun x _ => List.Sublist.refl x))
    · rw [removeFromPosts_cons_not_mem hmem]
      exact List.Forall₂.cons (List.Sublist.refl _) ih

/-- The reply lists of an update are pointwise sublists whenever the update
only erases replies. -/
theorem updateComment_replies_pointwise (m : List (Nat × Comment)) (id : Nat)
    (f : Comment → Comment) (hf : ∀ c, ((f c).replies).Sublist c.replies) :
    List.Forall₂ List.Sublist
      ((updateComment m id f).map (fun p => (p.2).replies))
      (m.map (fun p => (p.2).replies)) := by
  induction m with
  | nil => exact List.Forall₂.nil
  | cons p t ih =>
    obtain ⟨k, v⟩ := p
    by_cases hk : k = id
    · subst hk
      rw [updateComment_cons_eq]
      exact List.Forall₂.cons (hf v) ih
    · rw [updateComment_cons_ne hk]
      exact List.Forall₂.cons (List.Sublist.refl _) ih

/-- The root check for entries of a post's top-level list. -/
def isRootIn (m : List (Nat × Comment)) (cid : Nat) : Bool :=
  match m.lookup cid with
  | some c => c.parent_comment_id.isNone
  | none => false

theorem ReachesRoot.lookup {m : List (Nat × Comment)} {id d : Nat}
    (h : ReachesRoot m id d) : ∃ c, m.lookup id = some c := by
  cases h with
  | root hc _ => exact ⟨_, hc⟩
  | step hc _ _ => exact ⟨_, hc⟩

/-- Every id of a post's top-level list denotes an indexed root comment. -/
def PostRoots (s : CommentSystem) : Prop :=
  ∀ cid ∈ (s.posts.map (fun q => (q.2).comments)).flatten,
    isRootIn s.comments cid = true

/-- Parent containment outside the exception set `X`: every indexed non-root
comment not in `X` is listed in its parent's reply list.  (`X` collects the
comments the running cascade has already detached.) -/
def PCon (X : List Nat) (m : List (Nat × Comment)) : Prop :=
  ∀ k c, m.lookup k = some c → k ∉ X → ∀ pid,
    c.parent_comment_id = some pid →
    ∃ pc, m.lookup pid = some pc ∧ k ∈ pc.replies

/-- What the cascade of `delete_comment` guarantees about the index, the
posts, and the container references, relative to the pre-state. -/
structure DelSpec (X : List Nat) (s : CommentSystem) (id : Nat)
    (out : CommentSystem × Bool) : Prop where
  ret : out.2 = true
  killed : ∀ x ∈ subtreeIds s.comments (s.comments.length + 1) id,
    out.1.comments.lookup x = none
  keptPid : ∀ c pid, s.comments.lookup id = some c →
    c.parent_comment_id = some pid →
    out.1.comments.lookup pid = (s.comments.lookup pid).map (dropReply id)
  keptOther : ∀ x, x ∉ subtreeIds s.comments (s.comments.length + 1) id →
    (∀ c, s.comments.lookup id = some c → c.parent_comment_id ≠ some x) →
    out.1.comments.lookup x = s.comments.lookup x
  postsEq : ∀ c, s.comments.lookup id = some c →
    out.1.posts = (match c.parent_comment_id with
      | none => removeFromPosts s.posts id
      | some _ => s.posts)
  keysSub : (out.1.comments.map Prod.fst).Sublist (s.comments.map Prod.fst)
  contSub : (allContainers out.1).Sublist (allContainers s)
  ukeysEq : out.1.user_comments.map Prod.fst = s.user_comments.map Prod.fst
  rbOut : RB out.1.comments
  prOut : PostRoots out.1
  pcOut : PCon X out.1.comments

/-- The invariant carried through the cascade's fold over the snapshot of the
direct replies: `U` is the union of the already-deleted reply subtrees
(measured in the post-detach state `s2`). -/
structure FoldInv (X : List Nat) (s2 : CommentSystem) (id d : Nat)
    (U : List Nat) (t : CommentSystem) : Prop where
  absent : ∀ x ∈ U, t.comments.lookup x = none
  recEq : ∀ x, x ∉ U → x ≠ id → t.comments.lookup x = s2.comments.lookup x
  idRec : ∀ c2, s2.comments.lookup id = some c2 →
    ∃ ci, t.comments.lookup id = some ci ∧
      ci.parent_comment_id = c2.parent_comment_id ∧
      ci.replies.Sublist c2.replies ∧ ci.user = c2.user
  keysSub : (t.comments.map Prod.fst).Sublist (s2.comments.map Prod.fst)
  contSub : (allContainers t).Sublist (allContainers s2)
  postsEq : t.posts = s2.posts
  ukeysEq : t.user_comments.map Prod.fst = s2.user_comments.map Prod.fst
  rb : RB t.comments
  noRef : id ∉ allContainers t
  uDep : ∀ x ∈ U, ∃ dx, ReachesRoot s2.comments x dx ∧ d + 1 ≤ dx
  pr : PostRoots t
  pcx : PCon (id :: X) t.comments

/-- The detach-and-unindex prefix of a `delete_go` step: remove the comment
from its container (the enclosing post's top-level list for a root, the
parent's reply list otherwise) and drop the id from its author's list. -/
def detachState (s : CommentSystem) (id : Nat) (c : Comment) : CommentSystem :=
  let s1 :=
    match c.parent_comment_id with
    | none => { s with posts := removeFromPosts s.posts id }
    | some pid =>
      { s with comments := updateComment s.comments pid (dropReply id) }
  { s1 with user_comments := userRemove s1.user_comments c.user id }

theorem detach_root (s : CommentSystem) (id : Nat) (c : Comment)
    (h : c.parent_comment_id = none) :
    detachState s id c =
      { s with posts := removeFromPosts s.posts id,
               user_comments := userRemove s.user_comments c.user id } := by
  rw [detachState, h]

theorem detach_pid (s : CommentSystem) (id : Nat) (c : Comment) (pid : Nat)
    (h : c.parent_comment_id = some pid) :
    detachState s id c =
      { s with comments := updateComment s.comments pid (dropReply id),
               user_comments := userRemove s.user_comments c.user id } := by
  rw [detachState, h]

/-- Unfolding one successful `delete_go` step through `detachState`. -/
theorem delete_go_succ (fuel : Nat) (s : CommentSystem) (id : Nat)
    (c : Comment) (h : s.comments.lookup id = some c) :
    delete_go (fuel + 1) s id =
      ({ (c.replies.foldl (fun st rid => (delete_go fuel st rid).1)
            (detachState s id c)) with
          comments := eraseKey
            (c.replies.foldl (fun st rid => (delete_go fuel st rid).1)
              (detachState s id c)).comments id },
        true) := by
  rw [delete_go, h]
  rfl

theorem lookup_of_mem_nodup {α β : Type} [BEq α] [LawfulBEq α]
    {m : List (α × β)} (hn : (m.map Prod.fst).Nodup) {k : α} {v : β}
    (hm : (k, v) ∈ m) : m.lookup k = some v := by
  induction m with
  | nil => simp at hm
  | cons p t ih =>
    obtain ⟨k0, v0⟩ := p
    rw [List.map_cons, List.nodup_cons] at hn
    rcases List.mem_cons.mp hm with he | hm2
    · rw [Prod.mk.injEq] at he
      obtain ⟨rfl, rfl⟩ := he
      simp [List.lookup_cons]
    · have hk : k ≠ k0 := by
        intro he
        subst he
        exact hn.1 (List.mem_map.mpr ⟨(k, v), hm2, rfl⟩)
      rw [List.lookup_cons]
      have hb : (k == k0) = false := beq_eq_false_iff_ne.mpr hk
      rw [hb]
      exact ih hn.2 hm2

theorem nodup_not_mem_erase {l : List Nat} (h : l.Nodup) (a : Nat) :
    a ∉ l.erase a := fun hm => ((List.Nodup.mem_erase_iff h).mp hm).1 rfl

theorem keys_eraseKey_sublist (m : List (Nat × Comment)) (id : Nat) :
    ((eraseKey m id).map Prod.fst).Sublist (m.map Prod.fst) := by
  rw [eraseKey]
  exact (List.filter_sublist m).map Prod.fst

theorem updateUserList_cons_eq {u : String} (l : List Nat)
    (t : List (String × List Nat)) (f : List Nat → List Nat) :
    updateUserList ((u, l) :: t) u f = (u, f l) :: updateUserList t u f := by
  simp [updateUserList]

theorem updateUserList_cons_ne {u user : String} (h : u ≠ user) (l : List Nat)
    (t : List (String × List Nat)) (f : List Nat → List Nat) :
    updateUserList ((u, l) :: t) user f = (u, l) :: updateUserList t user f := by
  simp [updateUserList, h]

theorem keys_updateUserList (uc : List (String × List Nat)) (user : String)
    (f : List Nat → List Nat) :
    (updateUserList uc user f).map Prod.fst = uc.map Prod.fst := by
  induction uc with
  | nil => rfl
  | cons p t ih =>
    obtain ⟨u, l⟩ := p
    by_cases hu : u = user
    · subst hu; rw [updateUserList_cons_eq]; simpa using ih
    · rw [updateUserList_cons_ne hu]; simpa using ih

theorem lookup_updateUserList (uc : List (String × List Nat)) (user w : String)
    (f : List Nat → List Nat) :
    (updateUserList uc user f).lookup w =
      if w = user then (uc.lookup w).map f else uc.lookup w := by
  induction uc with
  | nil => simp [updateUserList]
  | cons p t ih =>
    obtain ⟨u, l⟩ := p
    by_cases hu : u = user
    · subst hu
      rw [updateUserList_cons_eq]
      by_cases hw : w = u
      · subst hw; simp
      · have hb : (w == u) = false := beq_eq_false_iff_ne.mpr hw
        rw [List.lookup_cons, List.lookup_cons]
        simp [hb, ih, hw]
    · rw [updateUserList_cons_ne hu]
      by_cases hw : w = u
      · subst hw; simp [hu]
      · have hb : (w == u) = false := beq_eq_false_iff_ne.mpr hw
        rw [List.lookup_cons, List.lookup_cons]
        simp [hb, ih]

theorem mem_updateComment {m : List (Nat × Comment)} {pid : Nat}
    {f : Comment → Comment} {q : Nat × Comment}
    (hq : q ∈ updateComment m pid f) :
    (q ∈ m ∧ q.1 ≠ pid) ∨
      (q.1 = pid ∧ ∃ c0, (pid, c0) ∈ m ∧ q.2 = f c0) := by
  induction m with
  | nil => simp [updateComment] at hq
  | cons p t ih =>
    obtain ⟨k, v⟩ := p
    by_cases hk : k = pid
    · subst hk
      rw [updateComment_cons_eq] at hq
      rcases List.mem_cons.mp hq with rfl | hq2
      · exact Or.inr ⟨rfl, v, List.mem_cons_self _ _, rfl⟩
      · rcases ih hq2 with ⟨h, hne⟩ | ⟨h1, c0, hc0, h2⟩
        · exact Or.inl ⟨List.mem_cons_of_mem _ h, hne⟩
        · exact Or.inr ⟨h1, c0, List.mem_cons_of_mem _ hc0, h2⟩
    · rw [updateComment_cons_ne hk] at hq
      rcases List.mem_cons.mp hq with rfl | hq2
      · exact Or.inl ⟨List.mem_cons_self _ _, hk⟩
      · rcases ih hq2 with ⟨h, hne⟩ | ⟨h1, c0, hc0, h2⟩
        · exact Or.inl ⟨List.mem_cons_of_mem _ h, hne⟩
        · exact Or.inr ⟨h1, c0, List.mem_cons_of_mem _ hc0, h2⟩

theorem parentView_updateComment (m : List (Nat × Comment)) (pid : Nat)
    (f : Comment → Comment)
    (hf : ∀ c, (f c).parent_comment_id = c.parent_comment_id) (x : Nat) :
    parentView (updateComment m pid f) x = parentView m x := by
  rw [parentView, parentView, lookup_updateComment]
  by_cases hx : x = pid
  · rw [if_pos hx]
    cases m.lookup x with
    | none => rfl
    | some c => simp [hf]
  · rw [if_neg hx]

theorem isRootIn_congr {m1 m2 : List (Nat × Comment)} {x : Nat}
    (h : parentView m2 x = parentView m1 x) :
    isRootIn m2 x = isRootIn m1 x := by
  rw [isRootIn, isRootIn]
  rw [parentView, parentView] at h
  cases h1 : m1.lookup x with
  | none =>
    rw [h1] at h
    cases h2 : m2.lookup x with
    | none => rfl
    | some c => rw [h2] at h; simp at h
  | some c =>
    rw [h1] at h
    cases h2 : m2.lookup x with
    | none => rw [h2] at h; simp at h
    | some c2 =>
      rw [h2] at h
      simp only [Option.map_some'] at h
      dsimp only
      rw [Option.some.inj h]

theorem lookup_updateComment_target {m : List (Nat × Comment)} {pid : Nat}
    {f : Comment → Comment}
    (hfp : ∀ c, (f c).parent_comment_id = c.parent_comment_id)
    {rid k : Nat} {rc : Comment} (hrc : m.lookup rid = some rc)
    (hrcp : rc.parent_comment_id = some k) :
    ∃ rc2, (updateComment m pid f).lookup rid = some rc2 ∧
      rc2.parent_comment_id = some k := by
  by_cases hrp : rid = pid
  · refine ⟨f rc, ?_, ?_⟩
    · rw [lookup_updateComment, if_pos hrp, hrc]; rfl
    · rw [hfp]; exact hrcp
  · exact ⟨rc, by rw [lookup_updateComment, if_neg hrp, hrc], hrcp⟩

theorem RB_updateComment {m : List (Nat × Comment)} (hrb : RB m) (pid : Nat)
    (f : Comment → Comment)
    (hfp : ∀ c, (f c).parent_comment_id = c.parent_comment_id)
    (hfr : ∀ c rid, rid ∈ (f c).replies → rid ∈ c.replies) :
    RB (updateComment m pid f) := by
  intro k c hk rid hrid
  rw [lookup_updateComment] at hk
  by_cases hkp : k = pid
  · rw [if_pos hkp] at hk
    cases hm : m.lookup k with
    | none => rw [hm] at hk; simp at hk
    | some c0 =>
      rw [hm] at hk
      simp only [Option.map_some'] at hk
      obtain ⟨rc, hrc, hrcp⟩ :=
        hrb k c0 hm rid (hfr c0 rid ((Option.some.inj hk) ▸ hrid))
      exact lookup_updateComment_target hfp hrc hrcp
  · rw [if_neg hkp] at hk
    obtain ⟨rc, hrc, hrcp⟩ := hrb k c hk rid hrid
    exact lookup_updateComment_target hfp hrc hrcp

theorem RB_eraseKey {m : List (Nat × Comment)} (hrb : RB m) (id : Nat)
    (hnoref : ∀ k c, m.lookup k = some c → id ∉ c.replies) :
    RB (eraseKey m id) := by
  intro k c hk rid hrid
  have hkne : k ≠ id := by
    intro he
    subst he
    rw [lookup_eraseKey_self] at hk
    cases hk
  rw [lookup_eraseKey_ne m (Ne.symm hkne)] at hk
  have hrne : rid ≠ id := fun he => hnoref k c hk (he ▸ hrid)
  obtain ⟨rc, hrc, hrcp⟩ := hrb k c hk rid hrid
  exact ⟨rc, by rw [lookup_eraseKey_ne m (Ne.symm hrne), hrc], hrcp⟩

theorem subtree_child_closed {m : List (Nat × Comment)} (hrb : RB m) :
    ∀ {F r x : Nat}, x ∈ subtreeIds m F r →
      ∀ {cx : Comment} {rid : Nat}, m.lookup x = some cx → rid ∈ cx.replies →
      rid ∈ subtreeIds m (F + 1) r := by
  intro F
  induction F with
  | zero => intro r x hx; simp [subtreeIds] at hx
  | succ f ih =>
    intro r x hx cx rid hcx hrid
    cases hr : m.lookup r with
    | none => rw [subtreeIds, hr] at hx; simp at hx
    | some c =>
      rcases subtree_mem_split hr hx with rfl | ⟨rid0, hrid0, hx2⟩
      · have hcc : cx = c := by rw [hcx] at hr; exact Option.some.inj hr
        subst hcc
        obtain ⟨rc, hrc, _⟩ := hrb x cx hcx rid hrid
        exact subtree_mem_child hcx hrid (subtree_self hrc)
      · exact subtree_mem_child hr hrid0 (ih hx2 hcx hrid)

theorem mem_replies_flatten_iff {m : List (Nat × Comment)} {x : Nat} :
    x ∈ (m.map (fun p => (p.2).replies)).flatten ↔
      ∃ q ∈ m, x ∈ (q.2).replies := by
  rw [List.mem_flatten]
  constructor
  · rintro ⟨l, hl, hx⟩
    obtain ⟨q, hq, rfl⟩ := List.mem_map.mp hl
    exact ⟨q, hq, hx⟩
  · rintro ⟨q, hq, hx⟩
    exact ⟨_, List.mem_map.mpr ⟨q, hq, rfl⟩, hx⟩

theorem subKeys_of_sublist {m' m : List (Nat × Comment)}
    (h : (m'.map Prod.fst).Sublist (m.map Prod.fst)) : SubKeys m' m :=
  fun _ hk => List.Sublist.mem hk h

theorem length_le_of_keys_sublist {m' m : List (Nat × Comment)}
    (h : (m'.map Prod.fst).Sublist (m.map Prod.fst)) :
    m'.length ≤ m.length := by
  have := h.length_le
  simpa using this

/-- The cascade's fold over the snapshot of the direct replies preserves the
fold invariant, accumulating the deleted subtrees. -/
theorem delete_fold_spec (fuel : Nat)
    (IH : ∀ (X2 : List Nat) (t : CommentSystem) (rid d2 : Nat),
      (t.comments.map Prod.fst).Nodup → RB t.comments → PostRoots t →
      (allContainers t).Nodup → PCon X2 t.comments →
      ReachesRoot t.comments rid d2 → t.comments.length + 1 ≤ fuel + d2 →
      DelSpec X2 t rid (delete_go fuel t rid))
    (X : List Nat) (s2 : CommentSystem) (id d : Nat) (c2 : Comment)
    (hKN2 : (s2.comments.map Prod.fst).Nodup) (hRB2 : RB s2.comments)
    (hON2 : (allContainers s2).Nodup)
    (hid : s2.comments.lookup id = some c2)
    (hrr2 : ReachesRoot s2.comments id d)
    (hfuel : s2.comments.length ≤ fuel + d)
    (hrepN : c2.replies.Nodup) :
    ∀ (l processed : List Nat), processed ++ l = c2.replies →
      ∀ t, FoldInv X s2 id d
          (processed.flatMap (subtreeIds s2.comments (s2.comments.length + 1)))
          t →
        FoldInv X s2 id d
          ((processed ++ l).flatMap
            (subtreeIds s2.comments (s2.comments.length + 1)))
          (l.foldl (fun st rid => (delete_go fuel st rid).1) t) := by
  intro l
  induction l with
  | nil =>
    intro processed hpl t hinv
    simpa using hinv
  | cons rid l2 ihl =>
    intro processed hpl t hinv
    have hrepN' : (processed ++ rid :: l2).Nodup := by rw [hpl]; exact hrepN
    have hridrep : rid ∈ c2.replies := by
      rw [← hpl]; exact List.mem_append_right _ (List.mem_cons_self _ _)
    have hproc_mem : ∀ r ∈ processed, r ∈ c2.replies := by
      intro r hr; rw [← hpl]; exact List.mem_append_left _ hr
    have hproc_ne : ∀ r ∈ processed, r ≠ rid := by
      intro r hr he
      have hd := (List.nodup_append.mp hrepN').2.2
      exact hd hr (he ▸ List.mem_cons_self rid l2)
    have children : ∀ r ∈ c2.replies,
        ∃ rc, s2.comments.lookup r = some rc ∧
          rc.parent_comment_id = some id := fun r hr => hRB2 id c2 hid r hr
    have childRR : ∀ r ∈ c2.replies, ReachesRoot s2.comments r (d + 1) := by
      intro r hr
      obtain ⟨rc, hrc, hrcp⟩ := children r hr
      exact ReachesRoot.step hrc hrcp hrr2
    obtain ⟨rc, hrc, hrcp⟩ := children rid hridrep
    have hrid_not_U : rid ∉ processed.flatMap
        (subtreeIds s2.comments (s2.comments.length + 1)) := by
      intro hmem
      obtain ⟨rj, hrj, hin⟩ := List.mem_flatMap.mp hmem
      exact subtree_disjoint hRB2 (childRR rj (hproc_mem rj hrj))
        (childRR rid hridrep) (hproc_ne rj hrj) hin
        (subtree_self (F := 0) hrc)
    have hrid_ne_id : rid ≠ id := by
      intro he
      exact no_self_parent hrr2 (he ▸ hrc) hrcp
    have ht_rid : t.comments.lookup rid = some rc := by
      rw [hinv.recEq rid hrid_not_U hrid_ne_id]; exact hrc
    have hU_deep : ∀ x ∈ processed.flatMap
        (subtreeIds s2.comments (s2.comments.length + 1)),
        ∀ da, ReachesRoot s2.comments x da → d + 1 ≤ da := by
      intro x hx da hda
      obtain ⟨dx, hdx, hled⟩ := hinv.uDep x hx
      have := ReachesRoot.unique hda hdx
      omega
    have hRRtid : ReachesRoot t.comments id d := by
      refine ReachesRoot.transfer_depths ?_ hrr2 (le_refl d)
      intro a da ha hle
      by_cases haU : a ∈ processed.flatMap
          (subtreeIds s2.comments (s2.comments.length + 1))
      · exact absurd (hU_deep a haU da ha) (by omega)
      · by_cases haid : a = id
        · subst haid
          obtain ⟨ci, hci, hcip, _, _⟩ := hinv.idRec c2 hid
          rw [parentView, parentView, hci, hid]
          simp [hcip]
        · rw [parentView, parentView, hinv.recEq a haU haid]
    have hRRtrid : ReachesRoot t.comments rid (d + 1) :=
      ReachesRoot.step ht_rid hrcp hRRtid
    have hKNt : (t.comments.map Prod.fst).Nodup := hKN2.sublist hinv.keysSub
    have hONt : (allContainers t).Nodup := hON2.sublist hinv.contSub
    have hlen_t : t.comments.length ≤ s2.comments.length :=
      length_le_of_keys_sublist hinv.keysSub
    have DS := IH (id :: X) t rid (d + 1) hKNt hinv.rb hinv.pr hONt hinv.pcx
      hRRtrid (by omega)
    have EQF : ∀ F, subtreeIds t.comments F rid =
        subtreeIds s2.comments F rid := by
      intro F
      apply subtree_congr
      · intro x hx
        obtain ⟨dx, hdx, hdxge⟩ :=
          subtree_depth_ge hRB2 (childRR rid hridrep) hx
        have hxU : x ∉ processed.flatMap
            (subtreeIds s2.comments (s2.comments.length + 1)) := by
          intro hmem
          obtain ⟨rj, hrj, hin⟩ := List.mem_flatMap.mp hmem
          exact subtree_disjoint hRB2 (childRR rj (hproc_mem rj hrj))
            (childRR rid hridrep) (hproc_ne rj hrj) hin hx
        have hxid : x ≠ id := by
          intro he
          subst he
          have := ReachesRoot.unique hdx hrr2
          omega
        exact hinv.recEq x hxU hxid
      · intro x hx
        exact lookup_none_mono (subKeys_of_sublist hinv.keysSub) hx
    have hksetEq : subtreeIds s2.comments (s2.comments.length + 1) rid =
        subtreeIds t.comments (t.comments.length + 1) rid :=
      (EQF (s2.comments.length + 1)).symm.trans
        (subtree_stab_ge hinv.rb hRRtrid (by omega) (by omega))
    have hpar_clause : ∀ x : Nat, x ≠ id → ∀ c,
        t.comments.lookup rid = some c → c.parent_comment_id ≠ some x := by
      intro x hxne c hc
      have hcc : c = rc := by
        rw [ht_rid] at hc
        exact (Option.some.inj hc).symm
      subst hcc
      rw [hrcp]
      intro he
      exact hxne (Option.some.inj he).symm
    have hpe : (delete_go fuel t rid).1.posts = t.posts := by
      have h0 := DS.postsEq rc ht_rid
      rw [hrcp] at h0
      exact h0
    have newInv : FoldInv X s2 id d
        ((processed.flatMap
          (subtreeIds s2.comments (s2.comments.length + 1))) ++
          subtreeIds s2.comments (s2.comments.length + 1) rid)
        ((delete_go fuel t rid).1) := by
      refine
        { absent := ?_, recEq := ?_, idRec := ?_
          keysSub := DS.keysSub.trans hinv.keysSub
          contSub := DS.contSub.trans hinv.contSub
          postsEq := hpe.trans hinv.postsEq
          ukeysEq := DS.ukeysEq.trans hinv.ukeysEq
          rb := DS.rbOut
          noRef := fun hmem => hinv.noRef (List.Sublist.mem hmem DS.contSub)
          uDep := ?_, pr := ?_, pcx := DS.pcOut }
      · intro x hx
        rcases List.mem_append.mp hx with hxU | hxS
        · have hnone := hinv.absent x hxU
          have hxid : x ≠ id := by
            intro he
            subst he
            obtain ⟨ci, hci, _⟩ := hinv.idRec c2 hid
            rw [hci] at hnone
            cases hnone
          have hxK : x ∉ subtreeIds t.comments (t.comments.length + 1) rid := by
            intro hk
            obtain ⟨cx, hcx⟩ := subtree_present hk
            rw [hnone] at hcx
            cases hcx
          rw [DS.keptOther x hxK (hpar_clause x hxid)]
          exact hnone
        · rw [hksetEq] at hxS
          exact DS.killed x hxS
      · intro x hxU' hxid
        have hxU : x ∉ processed.flatMap
            (subtreeIds s2.comments (s2.comments.length + 1)) :=
          fun h => hxU' (List.mem_append.mpr (Or.inl h))
        have hxK : x ∉ subtreeIds t.comments (t.comments.length + 1) rid := by
          rw [← hksetEq]
          exact fun h => hxU' (List.mem_append.mpr (Or.inr h))
        rw [DS.keptOther x hxK (hpar_clause x hxid),
          hinv.recEq x hxU hxid]
      · intro c2' hc2'
        have hcc : c2' = c2 := by
          rw [hid] at hc2'
          exact (Option.some.inj hc2').symm
        subst hcc
        obtain ⟨ci, hci, hcip, hcir, hciu⟩ := hinv.idRec c2' hid
        have hidK : id ∉ subtreeIds t.comments (t.comments.length + 1) rid := by
          intro hk
          obtain ⟨dx, hdx, hge⟩ := subtree_depth_ge hinv.rb hRRtrid hk
          have := ReachesRoot.unique hdx hRRtid
          omega
        have hkp := DS.keptPid rc id ht_rid hrcp
        rw [hci] at hkp
        refine ⟨dropReply rid ci, by simpa using hkp, ?_, ?_, ?_⟩
        · simpa [dropReply] using hcip
        · exact (List.erase_sublist _ _).trans hcir
        · simpa [dropReply] using hciu
      · intro x hx
        rcases List.mem_append.mp hx with hxU | hxS
        · exact hinv.uDep x hxU
        · obtain ⟨dx, hdx, hge⟩ :=
            subtree_depth_ge hRB2 (childRR rid hridrep) hxS
          exact ⟨dx, hdx, hge⟩
      · intro cid hcid
        rw [hpe] at hcid
        have hc_t := hinv.pr cid hcid
        rw [isRootIn] at hc_t
        cases hcc : t.comments.lookup cid with
        | none => rw [hcc] at hc_t; simp at hc_t
        | some cc =>
          rw [hcc] at hc_t
          dsimp only at hc_t
          have hcid_ne : cid ≠ id := by
            intro he
            subst he
            refine hinv.noRef ?_
            unfold allContainers
            exact List.mem_append_left _ hcid
          have hcK : cid ∉ subtreeIds t.comments
              (t.comments.length + 1) rid := by
            intro hk
            obtain ⟨dx, hdx, hge⟩ := subtree_depth_ge hinv.rb hRRtrid hk
            have hroot : ReachesRoot t.comments cid 0 :=
              ReachesRoot.root hcc (Option.isNone_iff_eq_none.mp hc_t)
            have := ReachesRoot.unique hdx hroot
            omega
          rw [isRootIn, DS.keptOther cid hcK (hpar_clause cid hcid_ne), hcc]
          exact hc_t
    rw [List.foldl_cons,
      show processed ++ rid :: l2 = (processed ++ [rid]) ++ l2 by simp]
    refine ihl (processed ++ [rid]) (by rw [← hpl]; simp) _ ?_
    have hUeq : (processed ++ [rid]).flatMap
        (subtreeIds s2.comments (s2.comments.length + 1)) =
        (processed.flatMap
          (subtreeIds s2.comments (s2.comments.length + 1))) ++
          subtreeIds s2.comments (s2.comments.length + 1) rid := by
      simp [List.flatMap_append]
    rw [hUeq]
    exact newInv

/-- The facts about the post-detach state of a delete step that the master
characterization threads into the cascade's fold. -/
structure DetachFacts (X : List Nat) (s : CommentSystem) (id d : Nat)
    (c : Comment) : Prop where
  view : ∀ x, parentView (detachState s id c).comments x =
    parentView s.comments x
  keys : (detachState s id c).comments.map Prod.fst = s.comments.map Prod.fst
  len : (detachState s id c).comments.length = s.comments.length
  lookId : (detachState s id c).comments.lookup id = some c
  lookPid : ∀ pid0, c.parent_comment_id = some pid0 →
    (detachState s id c).comments.lookup pid0 =
      (s.comments.lookup pid0).map (dropReply id)
  lookOther : ∀ x, (∀ pid0, c.parent_comment_id = some pid0 → x ≠ pid0) →
    (detachState s id c).comments.lookup x = s.comments.lookup x
  rb : RB (detachState s id c).comments
  rr : ReachesRoot (detachState s id c).comments id d
  kn : ((detachState s id c).comments.map Prod.fst).Nodup
  pr : PostRoots (detachState s id c)
  cont : (allContainers (detachState s id c)).Sublist (allContainers s)
  once : (allContainers (detachState s id c)).Nodup
  noRef : id ∉ allContainers (detachState s id c)
  pcx : PCon (id :: X) (detachState s id c).comments
  ukeys : (detachState s id c).user_comments.map Prod.fst =
    s.user_comments.map Prod.fst
  repN : c.replies.Nodup
  postsMatch : (detachState s id c).posts =
    (match c.parent_comment_id with
      | none => removeFromPosts s.posts id
      | some _ => s.posts)
  subEq : ∀ rid ∈ c.replies, ∀ F,
    subtreeIds (detachState s id c).comments F rid =
      subtreeIds s.comments F rid
  pd : ∀ pid0, c.parent_comment_id = some pid0 →
    ∃ dp, ReachesRoot s.comments pid0 dp ∧ d = dp + 1
  pidNe : ∀ pid0, c.parent_comment_id = some pid0 → id ≠ pid0

theorem detach_facts (X : List Nat) (s : CommentSystem) (id d : Nat)
    (c : Comment) (hKN : (s.comments.map Prod.fst).Nodup) (hRB : RB s.comments)
    (hPR : PostRoots s) (hON : (allContainers s).Nodup)
    (hPC : PCon X s.comments) (hrr : ReachesRoot s.comments id d)
    (hc : s.comments.lookup id = some c) : DetachFacts X s id d c := by
  have hpd : ∀ pid0, c.parent_comment_id = some pid0 →
      ∃ dp, ReachesRoot s.comments pid0 dp ∧ d = dp + 1 := by
    intro pid0 hcp
    cases hrr with
    | root hc0 hp0 =>
      rw [hc] at hc0
      cases hc0
      rw [hcp] at hp0
      cases hp0
    | step hc0 hp0 hr0 =>
      rw [hc] at hc0
      cases hc0
      rw [hcp] at hp0
      injection hp0 with hp0e
      subst hp0e
      exact ⟨_, hr0, rfl⟩
  have hpid_ne : ∀ pid0, c.parent_comment_id = some pid0 → id ≠ pid0 := by
    intro pid0 hcp he
    exact no_self_parent hrr hc (by rw [hcp, he])
  have huc2 : (detachState s id c).user_comments =
      userRemove s.user_comments c.user id := by
    cases hcp : c.parent_comment_id with
    | none => rw [detach_root s id c hcp]
    | some pid0 => rw [detach_pid s id c pid0 hcp]
  have hD : (c.parent_comment_id = none ∧
        (detachState s id c).comments = s.comments ∧
        (detachState s id c).posts = removeFromPosts s.posts id) ∨
      (∃ pid0, c.parent_comment_id = some pid0 ∧
        (detachState s id c).comments =
          updateComment s.comments pid0 (dropReply id) ∧
        (detachState s id c).posts = s.posts) := by
    cases hcp : c.parent_comment_id with
    | none =>
      refine Or.inl ⟨rfl, ?_, ?_⟩
      · rw [detach_root s id c hcp]
      · rw [detach_root s id c hcp]
    | some pid0 =>
      refine Or.inr ⟨pid0, rfl, ?_, ?_⟩
      · rw [detach_pid s id c pid0 hcp]
      · rw [detach_pid s id c pid0 hcp]
  have hview : ∀ x, parentView (detachState s id c).comments x =
      parentView s.comments x := by
    intro x
    rcases hD with ⟨hcp, hcm, hps⟩ | ⟨pid0, hcp, hcm, hps⟩
    · rw [hcm]
    · rw [hcm]
      exact parentView_updateComment s.comments pid0 (dropReply id)
        (fun c0 => rfl) x
  have hkeys : (detachState s id c).comments.map Prod.fst =
      s.comments.map Prod.fst := by
    rcases hD with ⟨hcp, hcm, hps⟩ | ⟨pid0, hcp, hcm, hps⟩
    · rw [hcm]
    · rw [hcm, keys_updateComment]
  have hlen : (detachState s id c).comments.length = s.comments.length := by
    have h0 := congrArg List.length hkeys
    simpa using h0
  have hlookId : (detachState s id c).comments.lookup id = some c := by
    rcases hD with ⟨hcp, hcm, hps⟩ | ⟨pid0, hcp, hcm, hps⟩
    · rw [hcm]; exact hc
    · rw [hcm, lookup_updateComment, if_neg (hpid_ne pid0 hcp)]
      exact hc
  have hlookPid : ∀ pid0, c.parent_comment_id = some pid0 →
      (detachState s id c).comments.lookup pid0 =
        (s.comments.lookup pid0).map (dropReply id) := by
    intro pid0 hcp
    rcases hD with ⟨hcp2, hcm, hps⟩ | ⟨pid1, hcp2, hcm, hps⟩
    · rw [hcp] at hcp2; cases hcp2
    · rw [hcp] at hcp2
      injection hcp2 with hcp2e
      subst hcp2e
      rw [hcm, lookup_updateComment, if_pos rfl]
  have hlookOther : ∀ x, (∀ pid0, c.parent_comment_id = some pid0 → x ≠ pid0) →
      (detachState s id c).comments.lookup x = s.comments.lookup x := by
    intro x hx
    rcases hD with ⟨hcp, hcm, hps⟩ | ⟨pid0, hcp, hcm, hps⟩
    · rw [hcm]
    · rw [hcm, lookup_updateComment, if_neg (hx pid0 hcp)]
  have hrb2 : RB (detachState s id c).comments := by
    rcases hD with ⟨hcp, hcm, hps⟩ | ⟨pid0, hcp, hcm, hps⟩
    · rw [hcm]; exact hRB
    · rw [hcm]
      exact RB_updateComment hRB pid0 (dropReply id) (fun c0 => rfl)
        (fun c0 rid h => List.mem_of_mem_erase h)
  have hrr2 : ReachesRoot (detachState s id c).comments id d :=
    ReachesRoot.transfer_depths (fun a da _ _ => hview a) hrr (le_refl d)
  have hkn2 : ((detachState s id c).comments.map Prod.fst).Nodup := by
    rw [hkeys]; exact hKN
  have hisroot : ∀ x, isRootIn (detachState s id c).comments x =
      isRootIn s.comments x := fun x => isRootIn_congr (hview x)
  have hpostsMatch : (detachState s id c).posts =
      (match c.parent_comment_id with
        | none => removeFromPosts s.posts id
        | some _ => s.posts) := by
    rcases hD with ⟨hcp, hcm, hps⟩ | ⟨pid0, hcp, hcm, hps⟩
    · rw [hps, hcp]
    · rw [hps, hcp]
  have hpr2 : PostRoots (detachState s id c) := by
    intro cid hcid
    rw [hisroot cid]
    rcases hD with ⟨hcp, hcm, hps⟩ | ⟨pid0, hcp, hcm, hps⟩
    · rw [hps, removeFromPosts_flatten] at hcid
      exact hPR cid (List.mem_of_mem_erase hcid)
    · rw [hps] at hcid
      exact hPR cid hcid
  have hcont2 : (allContainers (detachState s id c)).Sublist
      (allContainers s) := by
    unfold allContainers
    rcases hD with ⟨hcp, hcm, hps⟩ | ⟨pid0, hcp, hcm, hps⟩
    · rw [hcm, hps, removeFromPosts_flatten]
      exact List.Sublist.append (List.erase_sublist _ _) (List.Sublist.refl _)
    · rw [hcm, hps]
      exact List.Sublist.append (List.Sublist.refl _)
        (flatten_sublist_pointwise
          (updateComment_replies_pointwise s.comments pid0 (dropReply id)
            (fun c0 => List.erase_sublist _ _)))
  have hon2 : (allContainers (detachState s id c)).Nodup := hON.sublist hcont2
  have hndP : ((s.posts.map (fun q => (q.2).comments)).flatten).Nodup := by
    have h0 : (((s.posts.map (fun q => (q.2).comments)).flatten) ++
        ((s.comments.map (fun p => (p.2).replies)).flatten)).Nodup := hON
    exact h0.of_append_left
  have hndR : ((s.comments.map (fun p => (p.2).replies)).flatten).Nodup := by
    have h0 : (((s.posts.map (fun q => (q.2).comments)).flatten) ++
        ((s.comments.map (fun p => (p.2).replies)).flatten)).Nodup := hON
    exact h0.of_append_right
  have hnoref2 : id ∉ allContainers (detachState s id c) := by
    intro hmem
    unfold allContainers at hmem
    rcases List.mem_append.mp hmem with hpostsM | hrepM
    · rcases hD with ⟨hcp, hcm, hps⟩ | ⟨pid0, hcp, hcm, hps⟩
      · rw [hps, removeFromPosts_flatten] at hpostsM
        exact nodup_not_mem_erase hndP id hpostsM
      · rw [hps] at hpostsM
        have h1 := hPR id hpostsM
        rw [isRootIn, hc] at h1
        dsimp only at h1
        rw [hcp] at h1
        simp at h1
    · rcases hD with ⟨hcp, hcm, hps⟩ | ⟨pid0, hcp, hcm, hps⟩
      · rw [hcm] at hrepM
        obtain ⟨⟨k, ck⟩, hq, hin⟩ := mem_replies_flatten_iff.mp hrepM
        have hlk : s.comments.lookup k = some ck := lookup_of_mem_nodup hKN hq
        obtain ⟨rc0, hrc0, hrcp0⟩ := hRB k ck hlk id hin
        rw [hc] at hrc0
        cases hrc0
        rw [hcp] at hrcp0
        cases hrcp0
      · rw [hcm] at hrepM
        obtain ⟨⟨k, ck⟩, hq, hin⟩ := mem_replies_flatten_iff.mp hrepM
        rcases mem_updateComment hq with ⟨hqm, hkne⟩ | ⟨hkeq, c0, hc0, hck⟩
        · have hlk : s.comments.lookup k = some ck :=
            lookup_of_mem_nodup hKN hqm
          obtain ⟨rc0, hrc0, hrcp0⟩ := hRB k ck hlk id hin
          rw [hc] at hrc0
          cases hrc0
          rw [hcp] at hrcp0
          exact hkne (Option.some.inj hrcp0).symm
        · have hndrep : c0.replies.Nodup :=
            (List.nodup_flatten.mp hndR).1 _
              (List.mem_map.mpr ⟨(pid0, c0), hc0, rfl⟩)
          rw [hck] at hin
          exact nodup_not_mem_erase hndrep id (by simpa [dropReply] using hin)
  have hpc2 : PCon (id :: X) (detachState s id c).comments := by
    intro k ck hk hkX pidk hpk
    have hkid : k ≠ id := fun he => hkX (he ▸ List.mem_cons_self _ _)
    have hkX0 : k ∉ X := fun h => hkX (List.mem_cons_of_mem _ h)
    have hv := hview k
    rw [parentView, parentView, hk] at hv
    cases hsk : s.comments.lookup k with
    | none => rw [hsk] at hv; simp at hv
    | some cku =>
      rw [hsk] at hv
      simp only [Option.map_some'] at hv
      have hparents : ck.parent_comment_id = cku.parent_comment_id :=
        Option.some.inj hv
      obtain ⟨pc, hpc, hmemk⟩ := hPC k cku hsk hkX0 pidk
        (by rw [← hparents]; exact hpk)
      by_cases hdet : ∀ pid0, c.parent_comment_id = some pid0 → pidk ≠ pid0
      · exact ⟨pc, by rw [hlookOther pidk hdet]; exact hpc, hmemk⟩
      · push_neg at hdet
        obtain ⟨pid0, hcp, hpeq⟩ := hdet
        subst hpeq
        refine ⟨dropReply id pc, ?_, ?_⟩
        · rw [hlookPid pidk hcp, hpc]; rfl
        · simp only [dropReply]
          exact (List.mem_erase_of_ne hkid).mpr hmemk
  have hukeys : (detachState s id c).user_comments.map Prod.fst =
      s.user_comments.map Prod.fst := by
    rw [huc2, userRemove, keys_updateUserList]
  have hrepN : c.replies.Nodup :=
    (List.nodup_flatten.mp hndR).1 _
      (List.mem_map.mpr ⟨(id, c), mem_of_lookup_eq_some hc, rfl⟩)
  have hsubEq : ∀ rid ∈ c.replies, ∀ F,
      subtreeIds (detachState s id c).comments F rid =
        subtreeIds s.comments F rid := by
    intro rid hrid F
    apply subtree_congr
    · intro x hx
      obtain ⟨rcx, hrcx, hrcpx⟩ := hRB id c hc rid hrid
      have hrrx : ReachesRoot s.comments rid (d + 1) :=
        ReachesRoot.step hrcx hrcpx hrr
      obtain ⟨dx, hdx, hge⟩ := subtree_depth_ge hRB hrrx hx
      apply hlookOther
      intro pid0 hcp he
      obtain ⟨dp, hdp, hdeq⟩ := hpd pid0 hcp
      rw [he] at hdx
      have h1 := ReachesRoot.unique hdx hdp
      omega
    · intro x hx
      rcases hD with ⟨hcp, hcm, hps⟩ | ⟨pid0, hcp, hcm, hps⟩
      · rw [hcm]; exact hx
      · rw [hcm, lookup_updateComment]
        by_cases hxp : x = pid0
        · rw [if_pos hxp, hx]; rfl
        · rw [if_neg hxp]; exact hx
  exact
    { view := hview, keys := hkeys, len := hlen, lookId := hlookId
      lookPid := hlookPid, lookOther := hlookOther, rb := hrb2, rr := hrr2
      kn := hkn2, pr := hpr2, cont := hcont2, once := hon2, noRef := hnoref2
      pcx := hpc2, ukeys := hukeys, repN := hrepN, postsMatch := hpostsMatch
      subEq := hsubEq, pd := hpd, pidNe := hpid_ne }

/-- The master characterization of the cascade `delete_go`, by fuel
induction: on a well-formed store with the target indexed at depth `d` and
depth-balanced fuel, the call returns success, removes exactly the target's
reply subtree from the index, detaches the target from its container, leaves
every other record untouched, and preserves the structural invariants. -/
theorem delete_master :
    ∀ (fuel : Nat) (X : List Nat) (s : CommentSystem) (id d : Nat),
      (s.comments.map Prod.fst).Nodup → RB s.comments → PostRoots s →
      (allContainers s).Nodup → PCon X s.comments →
      ReachesRoot s.comments id d → s.comments.length + 1 ≤ fuel + d →
      DelSpec X s id (delete_go fuel s id) := by
  intro fuel
  induction fuel with
  | zero =>
    intro X s id d _ _ _ _ _ hrr hf
    exact absurd hrr.lt_length (by omega)
  | succ fuel ih =>
    intro X s id d hKN hRB hPR hON hPC hrr hf
    obtain ⟨c, hc⟩ := hrr.lookup
    have df := detach_facts X s id d c hKN hRB hPR hON hPC hrr hc
    have hfuel2 : (detachState s id c).comments.length ≤ fuel + d := by
      rw [df.len]; omega
    have hinit : FoldInv X (detachState s id c) id d
        (([] : List Nat).flatMap
          (subtreeIds (detachState s id c).comments
            ((detachState s id c).comments.length + 1)))
        (detachState s id c) := by
      refine
        { absent := ?_, recEq := fun x _ _ => rfl, idRec := ?_
          keysSub := List.Sublist.refl _, contSub := List.Sublist.refl _
          postsEq := rfl, ukeysEq := rfl, rb := df.rb, noRef := df.noRef
          uDep := ?_, pr := df.pr, pcx := df.pcx }
      · intro x hx; simp at hx
      · intro c2 hc2
        exact ⟨c2, hc2, rfl, List.Sublist.refl _, rfl⟩
      · intro x hx; simp at hx
    have FI := delete_fold_spec fuel ih X (detachState s id c) id d c
      df.kn df.rb df.once df.lookId df.rr hfuel2 df.repN
      c.replies [] (by simp) (detachState s id c) hinit
    rw [List.nil_append] at FI
    have hUeq : c.replies.flatMap
        (subtreeIds (detachState s id c).comments
          ((detachState s id c).comments.length + 1)) =
        c.replies.flatMap
          (subtreeIds s.comments (s.comments.length + 1)) := by
      apply flatMap_congr_mem
      intro rid hrid
      rw [df.len]
      exact df.subEq rid hrid _
    rw [hUeq] at FI
    have children_s : ∀ rid ∈ c.replies,
        ∃ rc, s.comments.lookup rid = some rc ∧
          rc.parent_comment_id = some id := fun rid h => hRB id c hc rid h
    have childRR_s : ∀ rid ∈ c.replies,
        ReachesRoot s.comments rid (d + 1) := by
      intro rid h
      obtain ⟨rc, h1, h2⟩ := children_s rid h
      exact ReachesRoot.step h1 h2 hrr
    have hUdeep : ∀ x ∈ c.replies.flatMap
        (subtreeIds s.comments (s.comments.length + 1)),
        ∃ dx, ReachesRoot s.comments x dx ∧ d + 1 ≤ dx := by
      intro x hx
      obtain ⟨rid, hrid, hin⟩ := List.mem_flatMap.mp hx
      exact subtree_depth_ge hRB (childRR_s rid hrid) hin
    have hstab_id : subtreeIds s.comments (s.comments.length + 2) id =
        subtreeIds s.comments (s.comments.length + 1) id :=
      subtree_stab hRB (s.comments.length + 1) hrr (by omega)
    have hmem_SS_of_U : ∀ x ∈ c.replies.flatMap
        (subtreeIds s.comments (s.comments.length + 1)),
        x ∈ subtreeIds s.comments (s.comments.length + 1) id := by
      intro x hx
      obtain ⟨rid, hrid, hin⟩ := List.mem_flatMap.mp hx
      rw [← hstab_id]
      exact subtree_mem_child hc hrid hin
    have hSS_split : ∀ x ∈ subtreeIds s.comments (s.comments.length + 1) id,
        x = id ∨ x ∈ c.replies.flatMap
          (subtreeIds s.comments (s.comments.length + 1)) := by
      intro x hx
      rcases subtree_mem_split hc hx with rfl | ⟨rid, hrid, hin⟩
      · exact Or.inl rfl
      · exact Or.inr (List.mem_flatMap.mpr ⟨rid, hrid,
          subtree_mono (by omega) hin⟩)
    rw [delete_go_succ fuel s id c hc]
    have hkilled : ∀ x ∈ subtreeIds s.comments (s.comments.length + 1) id,
        (eraseKey (c.replies.foldl (fun st rid => (delete_go fuel st rid).1)
          (detachState s id c)).comments id).lookup x = none := by
      intro x hx
      rcases hSS_split x hx with rfl | hxU
      · exact lookup_eraseKey_self _ _
      · obtain ⟨dx, hdx, hge⟩ := hUdeep x hxU
        have hxid : x ≠ id := by
          intro he
          rw [he] at hdx
          have h1 := ReachesRoot.unique hdx hrr
          omega
        rw [lookup_eraseKey_ne _ (Ne.symm hxid)]
        exact FI.absent x hxU
    have hkeys2sub : ((detachState s id c).comments.map Prod.fst).Sublist
        (s.comments.map Prod.fst) := by
      rw [df.keys]
    have hnoref3 : ∀ k ck,
        (c.replies.foldl (fun st rid => (delete_go fuel st rid).1)
          (detachState s id c)).comments.lookup k = some ck →
        id ∉ ck.replies := by
      intro k ck hk hin
      refine FI.noRef ?_
      unfold allContainers
      exact List.mem_append_right _
        (mem_replies_flatten_iff.mpr ⟨(k, ck), mem_of_lookup_eq_some hk, hin⟩)
    have hcont_out : (allContainers
        { (c.replies.foldl (fun st rid => (delete_go fuel st rid).1)
            (detachState s id c)) with
          comments := eraseKey (c.replies.foldl
            (fun st rid => (delete_go fuel st rid).1)
            (detachState s id c)).comments id }).Sublist
        (allContainers (c.replies.foldl
          (fun st rid => (delete_go fuel st rid).1) (detachState s id c))) := by
      unfold allContainers
      refine List.Sublist.append (List.Sublist.refl _) ?_
      rw [eraseKey]
      exact flatten_sublist ((List.filter_sublist _).map _)
    have hprOut : PostRoots
        { (c.replies.foldl (fun st rid => (delete_go fuel st rid).1)
            (detachState s id c)) with
          comments := eraseKey (c.replies.foldl
            (fun st rid => (delete_go fuel st rid).1)
            (detachState s id c)).comments id } := by
      intro cid hcid
      have hcid3 : cid ∈ (((c.replies.foldl
          (fun st rid => (delete_go fuel st rid).1)
          (detachState s id c)).posts).map
            (fun q => (q.2).comments)).flatten := hcid
      rw [FI.postsEq] at hcid3
      have h1 := df.pr cid hcid3
      rw [isRootIn] at h1
      cases hcc : (detachState s id c).comments.lookup cid with
      | none => rw [hcc] at h1; simp at h1
      | some cc =>
        rw [hcc] at h1
        dsimp only at h1
        have hcid_ne : cid ≠ id := by
          intro he
          subst he
          refine df.noRef ?_
          unfold allContainers
          exact List.mem_append_left _ hcid3
        have hrrcid : ReachesRoot (detachState s id c).comments cid 0 :=
          ReachesRoot.root hcc (Option.isNone_iff_eq_none.mp h1)
        have hrrcid_s : ReachesRoot s.comments cid 0 :=
          ReachesRoot.transfer_depths (fun a da _ _ => (df.view a).symm)
            hrrcid (le_refl 0)
        have hcidU : cid ∉ c.replies.flatMap
            (subtreeIds s.comments (s.comments.length + 1)) := by
          intro hmem
          obtain ⟨dx, hdx, hge⟩ := hUdeep cid hmem
          have h2 := ReachesRoot.unique hdx hrrcid_s
          omega
        rw [isRootIn, lookup_eraseKey_ne _ (Ne.symm hcid_ne),
          FI.recEq cid hcidU hcid_ne, hcc]
        dsimp only
        exact h1
    have hpcOut : PCon X (eraseKey (c.replies.foldl
        (fun st rid => (delete_go fuel st rid).1)
        (detachState s id c)).comments id) := by
      intro k ck hk0 hkX pidk hpk
      have hkid : k ≠ id := by
        intro he
        rw [he, lookup_eraseKey_self] at hk0
        cases hk0
      have hk := hk0
      rw [lookup_eraseKey_ne _ (Ne.symm hkid)] at hk
      have hkU : k ∉ c.replies.flatMap
          (subtreeIds s.comments (s.comments.length + 1)) := by
        intro hmem
        rw [FI.absent k hmem] at hk
        cases hk
      have hk2 : (detachState s id c).comments.lookup k = some ck := by
        rw [← FI.recEq k hkU hkid]
        exact hk
      have hv := df.view k
      rw [parentView, parentView, hk2] at hv
      cases hsk : s.comments.lookup k with
      | none => rw [hsk] at hv; simp at hv
      | some cku =>
        rw [hsk] at hv
        simp only [Option.map_some'] at hv
        have hpar_eq : ck.parent_comment_id = cku.parent_comment_id :=
          Option.some.inj hv
        obtain ⟨pc, hpc, hmemk⟩ := hPC k cku hsk hkX pidk
          (by rw [← hpar_eq]; exact hpk)
        have hkSS : k ∉ subtreeIds s.comments (s.comments.length + 1) id := by
          intro hmem
          rw [hkilled k hmem] at hk0
          cases hk0
        have hpidkSS : pidk ∉ subtreeIds s.comments
            (s.comments.length + 1) id := by
          intro hmem
          apply hkSS
          rw [← hstab_id]
          exact subtree_child_closed hRB hmem hpc hmemk
        have hpidk_id : pidk ≠ id := by
          intro he
          apply hkSS
          subst he
          rw [hc] at hpc
          cases hpc
          rw [← hstab_id]
          exact subtree_mem_child hc hmemk
            (subtree_self (F := s.comments.length) hsk)
        have hpidkU : pidk ∉ c.replies.flatMap
            (subtreeIds s.comments (s.comments.length + 1)) := by
          intro hmem
          obtain ⟨rid, hrid, hin⟩ := List.mem_flatMap.mp hmem
          have hk_in : k ∈ subtreeIds s.comments
              (s.comments.length + 1 + 1) rid :=
            subtree_child_closed hRB hin hpc hmemk
          have hstab_rid : subtreeIds s.comments
              (s.comments.length + 1 + 1) rid =
              subtreeIds s.comments (s.comments.length + 1) rid :=
            subtree_stab hRB (s.comments.length + 1) (childRR_s rid hrid)
              (by omega)
          rw [hstab_rid] at hk_in
          have hkU2 : k ∈ c.replies.flatMap
              (subtreeIds s.comments (s.comments.length + 1)) :=
            List.mem_flatMap.mpr ⟨rid, hrid, hk_in⟩
          rw [FI.absent k hkU2] at hk
          cases hk
        by_cases hdet : ∀ pid0, c.parent_comment_id = some pid0 → pidk ≠ pid0
        · refine ⟨pc, ?_, hmemk⟩
          rw [lookup_eraseKey_ne _ (Ne.symm hpidk_id),
            FI.recEq pidk hpidkU hpidk_id, df.lookOther pidk hdet]
          exact hpc
        · push_neg at hdet
          obtain ⟨pid0, hcp, hpeq⟩ := hdet
          subst hpeq
          refine ⟨dropReply id pc, ?_, ?_⟩
          · rw [lookup_eraseKey_ne _ (Ne.symm hpidk_id),
              FI.recEq pidk hpidkU hpidk_id, df.lookPid pidk hcp, hpc]
            rfl
          · simp only [dropReply]
            exact (List.mem_erase_of_ne hkid).mpr hmemk
    refine
      { ret := rfl
        killed := hkilled
        keptPid := ?_
        keptOther := ?_
        postsEq := ?_
        keysSub := (keys_eraseKey_sublist _ _).trans
          (FI.keysSub.trans hkeys2sub)
        contSub := hcont_out.trans (FI.contSub.trans df.cont)
        ukeysEq := FI.ukeysEq.trans df.ukeys
        rbOut := RB_eraseKey FI.rb id hnoref3
        prOut := hprOut
        pcOut := hpcOut }
    · intro c' pid' hc' hp'
      rw [hc] at hc'
      cases hc'
      have hpne : id ≠ pid' := df.pidNe pid' hp'
      obtain ⟨dp, hdp, hdeq⟩ := df.pd pid' hp'
      have hpU : pid' ∉ c.replies.flatMap
          (subtreeIds s.comments (s.comments.length + 1)) := by
        intro hmem
        obtain ⟨dx, hdx, hge⟩ := hUdeep pid' hmem
        have h1 := ReachesRoot.unique hdx hdp
        omega
      rw [lookup_eraseKey_ne _ hpne, FI.recEq pid' hpU (Ne.symm hpne)]
      exact df.lookPid pid' hp'
    · intro x hxSS hxpar
      have hxid : x ≠ id := by
        intro he
        subst he
        exact hxSS (subtree_self (F := s.comments.length) hc)
      have hxU : x ∉ c.replies.flatMap
          (subtreeIds s.comments (s.comments.length + 1)) :=
        fun h => hxSS (hmem_SS_of_U x h)
      rw [lookup_eraseKey_ne _ (Ne.symm hxid), FI.recEq x hxU hxid]
      exact df.lookOther x (fun pid0 hcp he => hxpar c hc (by rw [hcp, he]))
    · intro c' hc'
      rw [hc] at hc'
      cases hc'
      exact FI.postsEq.trans df.postsMatch

/-!
## User lists through deletion

`userView m u` is the list of ids of the comments authored by `u` in index
order, which is authoring order since the arena only ever appends.  During a
cascade the ids already erased from the user lists but not yet from the index
are collected in an exception list `E`.
-/

/-- Drop the entries whose key lies in `E`. -/
def eraseKeys (m : List (Nat × Comment)) (E : List Nat) :
    List (Nat × Comment) :=
  m.filter (fun p => !(E.contains p.1))

/-- The ids of the comments authored by `u`, in index (= authoring) order. -/
def userView (m : List (Nat × Comment)) (u : String) : List Nat :=
  (m.filter (fun p => (p.2).user == u)).map Prod.fst

/-- `userView` outside the exception keys `E`. -/
def userViewE (m : List (Nat × Comment)) (E : List Nat) (u : String) :
    List Nat :=
  userView (eraseKeys m E) u

theorem eraseKeys_nil (m : List (Nat × Comment)) : eraseKeys m [] = m := by
  rw [eraseKeys]
  simp

theorem userViewE_nil (m : List (Nat × Comment)) (u : String) :
    userViewE m [] u = userView m u := by
  rw [userViewE, eraseKeys_nil]

theorem filter_and {α : Type} (l : List α) (p q : α → Bool) :
    (l.filter p).filter q = l.filter (fun a => p a && q a) := by
  induction l with
  | nil => rfl
  | cons a t ih =>
    cases hp : p a with
    | true =>
      cases hq : q a with
      | true => simp [List.filter_cons, hp, hq, ih]
      | false => simp [List.filter_cons, hp, hq, ih]
    | false => simp [List.filter_cons, hp, ih]

theorem eraseKeys_eraseKey (m : List (Nat × Comment)) (id : Nat)
    (E : List Nat) : eraseKeys (eraseKey m id) E = eraseKeys m (id :: E) := by
  rw [eraseKeys, eraseKey, filter_and, eraseKeys]
  apply List.filter_congr
  intro p hp
  simp [List.contains_cons, Bool.not_or]

theorem userViewE_eraseKey (m : List (Nat × Comment)) (id : Nat)
    (E : List Nat) (u : String) :
    userViewE (eraseKey m id) E u = userViewE m (id :: E) u := by
  rw [userViewE, userViewE, eraseKeys_eraseKey]

theorem userViewE_cons_sublist (m : List (Nat × Comment)) (id : Nat)
    (E : List Nat) (u : String) :
    (userViewE m (id :: E) u).Sublist (userViewE m E u) := by
  rw [userViewE, userViewE, ← eraseKeys_eraseKey, userView, userView]
  have h1 : (eraseKeys (eraseKey m id) E).Sublist (eraseKeys m E) := by
    rw [eraseKeys, eraseKeys, eraseKey]
    exact (List.filter_sublist m).filter _
  exact (h1.filter _).map _

theorem userViewE_subset_keys (m : List (Nat × Comment)) (E : List Nat)
    (u : String) : ∀ x ∈ userViewE m E u, x ∈ m.map Prod.fst := by
  intro x hx
  rw [userViewE, userView] at hx
  obtain ⟨p, hp, rfl⟩ := List.mem_map.mp hx
  have h1 := (List.mem_filter.mp hp).1
  rw [eraseKeys] at h1
  exact List.mem_map.mpr ⟨p, (List.mem_filter.mp h1).1, rfl⟩

/-- One step of `userViewE` down an association list. -/
theorem userViewE_cons (k : Nat) (v : Comment) (t : List (Nat × Comment))
    (E : List Nat) (u : String) :
    userViewE ((k, v) :: t) E u =
      if (!(E.contains k) && ((v.user) == u)) = true
      then k :: userViewE t E u else userViewE t E u := by
  rw [userViewE, userView, eraseKeys, List.filter_cons]
  by_cases h1 : (!(E.contains k)) = true
  · rw [if_pos h1, List.filter_cons]
    by_cases h2 : ((v.user) == u) = true
    · rw [if_pos h2, if_pos (by rw [h1, h2]; rfl)]
      rfl
    · have h2f : ((v.user) == u) = false := Bool.eq_false_iff.mpr h2
      rw [if_neg h2, if_neg (by rw [h2f]; simp)]
      rfl
  · have h1f : (!(E.contains k)) = false := Bool.eq_false_iff.mpr h1
    rw [if_neg h1, if_neg (by rw [h1f]; simp)]
    rfl

theorem userViewE_not_key {m : List (Nat × Comment)} {id : Nat}
    (h : id ∉ m.map Prod.fst) (E : List Nat) (u : String) :
    userViewE m (id :: E) u = userViewE m E u := by
  rw [userViewE, userViewE, eraseKeys, eraseKeys]
  apply congrArg (fun l => userView l u)
  apply List.filter_congr
  intro p hp
  have hne : p.1 ≠ id := fun he => h (List.mem_map.mpr ⟨p, hp, he⟩)
  simp [List.contains_cons, hne]

/-- Erasing an id authored by `u` from `u`'s view is passing the id into the
exception list. -/
theorem userViewE_cons_erase (m : List (Nat × Comment))
    (hKN : (m.map Prod.fst).Nodup) (E : List Nat) (id : Nat) (u : String)
    (hcu : ∀ p ∈ m, p.1 = id → (p.2).user = u) :
    userViewE m (id :: E) u = (userViewE m E u).erase id := by
  induction m with
  | nil => rfl
  | cons p t ih =>
    obtain ⟨k, v⟩ := p
    rw [List.map_cons, List.nodup_cons] at hKN
    have ihe := ih hKN.2 (fun q hq hqe => hcu q (List.mem_cons_of_mem _ hq) hqe)
    rw [userViewE_cons, userViewE_cons]
    by_cases hk : k = id
    · have hvu : (v.user) = u := hcu (k, v) (List.mem_cons_self _ _) hk
      have hnotk : id ∉ t.map Prod.fst := hk ▸ hKN.1
      have hnotview : id ∉ userViewE t E u :=
        fun hmem => hnotk (userViewE_subset_keys t E u id hmem)
      have hcont : ((id :: E).contains k) = true := by
        simp [List.contains_cons, hk]
      rw [if_neg (by rw [hcont]; simp)]
      by_cases hE : id ∈ E
      · have hcE : (E.contains k) = true := by
          rw [hk]
          simpa [List.elem_iff] using hE
        rw [if_neg (by rw [hcE]; simp)]
        rw [userViewE_not_key hnotk, List.erase_of_not_mem hnotview]
      · have hcE : (E.contains k) = false := by
          rw [hk]
          exact Bool.eq_false_iff.mpr (fun h => hE (List.elem_iff.mp h))
        have hbu : ((v.user) == u) = true := beq_iff_eq.mpr hvu
        rw [if_pos (by rw [hcE, hbu]; rfl), hk, List.erase_cons_head]
        exact userViewE_not_key hnotk E u
    · have hb : (k == id) = false := beq_eq_false_iff_ne.mpr hk
      have hcont_eq : ((id :: E).contains k) = (E.contains k) := by
        rw [List.contains_cons, hb, Bool.false_or]
      have hcond_eq : (!((id :: E).contains k) && ((v.user) == u)) =
          (!(E.contains k) && ((v.user) == u)) := by
        rw [hcont_eq]
      by_cases hcond : (!(E.contains k) && ((v.user) == u)) = true
      · rw [if_pos (hcond_eq.trans hcond), if_pos hcond,
          List.erase_cons, if_neg (by rw [hb]; simp), ihe]
      · rw [if_neg (fun h => hcond (hcond_eq.symm.trans h)), if_neg hcond]
        exact ihe

/-- An id not authored by `u` does not change `u`'s view when passed into the
exception list. -/
theorem userViewE_cons_ne (m : List (Nat × Comment)) (E : List Nat)
    (id : Nat) (u : String)
    (hcu : ∀ p ∈ m, p.1 = id → ¬((p.2).user = u)) :
    userViewE m (id :: E) u = userViewE m E u := by
  induction m with
  | nil => rfl
  | cons p t ih =>
    obtain ⟨k, v⟩ := p
    have ihe := ih (fun q hq hqe => hcu q (List.mem_cons_of_mem _ hq) hqe)
    rw [userViewE_cons, userViewE_cons]
    by_cases hk : k = id
    · have hvu : ¬((v.user) = u) := hcu (k, v) (List.mem_cons_self _ _) hk
      have hbu : ((v.user) == u) = false := beq_eq_false_iff_ne.mpr hvu
      have hcont : ((id :: E).contains k) = true := by
        simp [List.contains_cons, hk]
      rw [if_neg (by rw [hcont]; simp), if_neg (by rw [hbu]; simp)]
      exact ihe
    · have hb : (k == id) = false := beq_eq_false_iff_ne.mpr hk
      have hcont_eq : ((id :: E).contains k) = (E.contains k) := by
        rw [List.contains_cons, hb, Bool.false_or]
      have hcond_eq : (!((id :: E).contains k) && ((v.user) == u)) =
          (!(E.contains k) && ((v.user) == u)) := by
        rw [hcont_eq]
      by_cases hcond : (!(E.contains k) && ((v.user) == u)) = true
      · rw [if_pos (hcond_eq.trans hcond), if_pos hcond, ihe]
      · rw [if_neg (fun h => hcond (hcond_eq.symm.trans h)), if_neg hcond]
        exact ihe

/-- An in-place update that keeps every author fixes every user view. -/
theorem userViewE_updateComment (m : List (Nat × Comment)) (pid : Nat)
    (f : Comment → Comment) (hf : ∀ c, ((f c).user) = c.user)
    (E : List Nat) (u : String) :
    userViewE (updateComment m pid f) E u = userViewE m E u := by
  induction m with
  | nil => rfl
  | cons p t ih =>
    obtain ⟨k, v⟩ := p
    by_cases hk : k = pid
    · subst hk
      rw [updateComment_cons_eq, userViewE_cons, userViewE_cons, hf, ih]
    · rw [updateComment_cons_ne hk, userViewE_cons, userViewE_cons, ih]

theorem lookup_userRemove (uc : List (String × List Nat)) (w u : String)
    (id : Nat) :
    (userRemove uc w id).lookup u =
      if u = w then (uc.lookup u).map (fun l => l.erase id)
      else uc.lookup u := by
  rw [userRemove]
  exact lookup_updateUserList uc w u _

/-- Through the whole cascade each user's stored id list stays the author's
view of the index outside the exception keys `E`, and the index keys only
shrink. -/
theorem delete_users :
    ∀ (fuel : Nat) (s : CommentSystem) (id : Nat) (E : List Nat),
      (s.comments.map Prod.fst).Nodup →
      (∀ u, ((s.user_comments.lookup u).getD []) =
        userViewE s.comments E u) →
      ((delete_go fuel s id).1.comments.map Prod.fst).Sublist
        (s.comments.map Prod.fst) ∧
      (∀ u, (((delete_go fuel s id).1.user_comments.lookup u).getD []) =
        userViewE (delete_go fuel s id).1.comments E u) := by
  intro fuel
  induction fuel with
  | zero =>
    intro s id E hKN hU
    exact ⟨List.Sublist.refl _, hU⟩
  | succ fuel ih =>
    intro s id E hKN hU
    cases hc : s.comments.lookup id with
    | none =>
      rw [delete_go_absent hc]
      exact ⟨List.Sublist.refl _, hU⟩
    | some c =>
      rw [delete_go_succ fuel s id c hc]
      have hViewInv : ∀ (E2 : List Nat) (u : String),
          userViewE (detachState s id c).comments E2 u =
            userViewE s.comments E2 u := by
        intro E2 u
        cases hcp : c.parent_comment_id with
        | none => rw [detach_root s id c hcp]
        | some pid0 =>
          rw [detach_pid s id c pid0 hcp]
          exact userViewE_updateComment s.comments pid0 (dropReply id)
            (fun c0 => rfl) E2 u
      have hkeys2 : (detachState s id c).comments.map Prod.fst =
          s.comments.map Prod.fst := by
        cases hcp : c.parent_comment_id with
        | none => rw [detach_root s id c hcp]
        | some pid0 =>
          rw [detach_pid s id c pid0 hcp]
          exact keys_updateComment _ _ _
      have huc2 : (detachState s id c).user_comments =
          userRemove s.user_comments c.user id := by
        cases hcp : c.parent_comment_id with
        | none => rw [detach_root s id c hcp]
        | some pid0 => rw [detach_pid s id c pid0 hcp]
      have hU2 : ∀ u, (((detachState s id c).user_comments.lookup u).getD [])
          = userViewE (detachState s id c).comments (id :: E) u := by
        intro u
        rw [huc2, lookup_userRemove, hViewInv]
        by_cases hu : u = c.user
        · rw [if_pos hu]
          have hcu : ∀ p ∈ s.comments, p.1 = id → (p.2).user = u := by
            intro p hp hpe
            obtain ⟨k, v⟩ := p
            have hpe2 : k = id := hpe
            have hl := lookup_of_mem_nodup hKN hp
            rw [hpe2] at hl
            rw [hl] at hc
            cases hc
            exact hu.symm
          cases hl : s.user_comments.lookup u with
          | none =>
            have h0 := hU u
            rw [hl] at h0
            simp only [Option.getD_none] at h0
            have hsub := userViewE_cons_sublist s.comments id E u
            rw [← h0] at hsub
            simp only [Option.map_none', Option.getD_none]
            exact (List.eq_nil_of_sublist_nil hsub).symm
          | some l =>
            have h0 := hU u
            rw [hl] at h0
            simp only [Option.getD_some] at h0
            simp only [Option.map_some', Option.getD_some]
            rw [h0]
            exact (userViewE_cons_erase s.comments hKN E id u hcu).symm
        · rw [if_neg hu]
          have hcu : ∀ p ∈ s.comments, p.1 = id → ¬((p.2).user = u) := by
            intro p hp hpe hpu
            obtain ⟨k, v⟩ := p
            have hpe2 : k = id := hpe
            have hl := lookup_of_mem_nodup hKN hp
            rw [hpe2] at hl
            rw [hl] at hc
            cases hc
            exact hu hpu.symm
          rw [hU u]
          exact (userViewE_cons_ne s.comments E id u hcu).symm
      have hfold : ∀ (l : List Nat) (t : CommentSystem),
          (t.comments.map Prod.fst).Sublist (s.comments.map Prod.fst) →
          (∀ u, ((t.user_comments.lookup u).getD []) =
            userViewE t.comments (id :: E) u) →
          (((l.foldl (fun st rid => (delete_go fuel st rid).1) t).comments.map
            Prod.fst).Sublist (s.comments.map Prod.fst)) ∧
          (∀ u, ((((l.foldl (fun st rid => (delete_go fuel st rid).1)
              t).user_comments.lookup u).getD []) =
            userViewE ((l.foldl (fun st rid => (delete_go fuel st rid).1)
              t).comments) (id :: E) u)) := by
        intro l
        induction l with
        | nil =>
          intro t h1 h2
          exact ⟨h1, h2⟩
        | cons rid l2 ihl =>
          intro t h1 h2
          rw [List.foldl_cons]
          have hKNt : (t.comments.map Prod.fst).Nodup := hKN.sublist h1
          obtain ⟨hs1, hs2⟩ := ih t rid (id :: E) hKNt h2
          exact ihl _ (hs1.trans h1) hs2
      obtain ⟨hf1, hf2⟩ := hfold c.replies (detachState s id c)
        (by rw [hkeys2]) hU2
      constructor
      · exact (keys_eraseKey_sublist _ _).trans hf1
      · intro u
        rw [userViewE_eraseKey]
        exact hf2 u

/-!
## Structural well-formedness of reachable stores
-/

theorem nodup_append_singleton {α : Type} {l : List α} {a : α}
    (hl : l.Nodup) (ha : a ∉ l) : (l ++ [a]).Nodup := by
  simp [List.nodup_append, hl, ha]

theorem lookup_none_of_not_mem {α β : Type} [BEq α] [LawfulBEq α]
    {m : List (α × β)} {a : α} (h : a ∉ m.map Prod.fst) :
    m.lookup a = none := by
  rw [List.lookup_eq_none_iff]
  intro p hp
  exact bne_iff_ne.mpr (fun he => h (List.mem_map.mpr ⟨p, hp, he.symm⟩))

theorem not_mem_keys_of_lookup_none {α β : Type} [BEq α] [LawfulBEq α]
    {m : List (α × β)} {a : α} (h : m.lookup a = none) :
    a ∉ m.map Prod.fst := by
  intro hmem
  obtain ⟨p, hp, hpe⟩ := List.mem_map.mp hmem
  rw [List.lookup_eq_none_iff] at h
  exact bne_iff_ne.mp (h p hp) hpe.symm

theorem lookup_append_fresh {α β : Type} [BEq α] [LawfulBEq α]
    {m : List (α × β)} {a : α} (h : m.lookup a = none) (l : List (α × β)) :
    (m ++ l).lookup a = l.lookup a := by
  rw [List.lookup_append, h, Option.none_or]

theorem lookup_singleton_self {α β : Type} [BEq α] [LawfulBEq α]
    (k : α) (v : β) : ([(k, v)] : List (α × β)).lookup k = some v := by
  simp [List.lookup_cons]

theorem lookup_singleton_ne {α β : Type} [BEq α] [LawfulBEq α]
    {u k : α} (h : u ≠ k) (v : β) :
    ([(k, v)] : List (α × β)).lookup u = none := by
  rw [List.lookup_cons]
  have hb : (u == k) = false := beq_eq_false_iff_ne.mpr h
  rw [hb]
  rfl

/-- Case analysis of a lookup in an arena extended by one fresh entry. -/
theorem lookup_append_cases {m : List (Nat × Comment)} {cid k : Nat}
    {nc c : Comment} (h : (m ++ [(cid, nc)]).lookup k = some c) :
    m.lookup k = some c ∨ (k = cid ∧ c = nc ∧ m.lookup k = none) := by
  cases hm : m.lookup k with
  | some c0 =>
    rw [lookup_append_of_some hm] at h
    exact Or.inl h
  | none =>
    rw [lookup_append_fresh hm] at h
    by_cases hk : k = cid
    · subst hk
      rw [lookup_singleton_self] at h
      exact Or.inr ⟨rfl, (Option.some.inj h).symm, rfl⟩
    · rw [lookup_singleton_ne hk] at h
      cases h

theorem keys_updatePost (posts : List (Nat × Post)) (id : Nat)
    (f : Post → Post) :
    (updatePost posts id f).map Prod.fst = posts.map Prod.fst := by
  induction posts with
  | nil => rfl
  | cons p t ih =>
    obtain ⟨k, v⟩ := p
    by_cases hk : k = id
    · simp [updatePost, hk, ih]
    · simp [updatePost, hk, ih]

theorem updatePost_not_mem {posts : List (Nat × Post)} {id : Nat}
    (h : id ∉ posts.map Prod.fst) (f : Post → Post) :
    updatePost posts id f = posts := by
  induction posts with
  | nil => rfl
  | cons p t ih =>
    obtain ⟨k, v⟩ := p
    rw [List.map_cons] at h
    have hk : k ≠ id := by
      intro he
      subst he
      exact h (List.mem_cons_self _ _)
    simp only [updatePost, if_neg hk]
    rw [ih (fun hm => h (List.mem_cons_of_mem _ hm))]

theorem updateComment_not_mem {m : List (Nat × Comment)} {id : Nat}
    (h : id ∉ m.map Prod.fst) (f : Comment → Comment) :
    updateComment m id f = m := by
  induction m with
  | nil => rfl
  | cons p t ih =>
    obtain ⟨k, v⟩ := p
    rw [List.map_cons] at h
    have hk : k ≠ id := by
      intro he
      subst he
      exact h (List.mem_cons_self _ _)
    rw [updateComment_cons_ne hk, ih (fun hm => h (List.mem_cons_of_mem _ hm))]

/-- Appending one id to the distinguished post's list permutes the flattened
top-level lists to a cons. -/
theorem updatePost_push_flatten_perm {posts : List (Nat × Post)}
    (hpkn : (posts.map Prod.fst).Nodup) {post_id : Nat} {po : Post}
    (hpo : posts.lookup post_id = some po) (cid : Nat) :
    List.Perm
      (((updatePost posts post_id (pushTopLevel cid)).map
        (fun q => (q.2).comments)).flatten)
      (cid :: ((posts.map (fun q => (q.2).comments)).flatten)) := by
  induction posts with
  | nil => cases hpo
  | cons p t ih =>
    obtain ⟨k, v⟩ := p
    rw [List.map_cons, List.nodup_cons] at hpkn
    by_cases hk : k = post_id
    · subst hk
      have ht : updatePost t k (pushTopLevel cid) = t :=
        updatePost_not_mem hpkn.1 _
      have hcons : updatePost ((k, v) :: t) k (pushTopLevel cid) =
          (k, pushTopLevel cid v) :: updatePost t k (pushTopLevel cid) := by
        simp [updatePost]
      rw [hcons, ht]
      simp only [List.map_cons, List.flatten_cons, pushTopLevel]
      rw [List.append_assoc]
      exact List.perm_middle
    · have hpo2 : t.lookup post_id = some po := by
        rw [List.lookup_cons] at hpo
        have hb : (post_id == k) = false :=
          beq_eq_false_iff_ne.mpr (fun he => hk he.symm)
        rw [hb] at hpo
        exact hpo
      simp only [updatePost, if_neg hk, List.map_cons, List.flatten_cons]
      refine ((ih hpkn.2 hpo2).append_left v.comments).trans ?_
      exact List.perm_middle

/-- Appending one id to the distinguished parent's reply list permutes the
flattened reply lists to a cons. -/
theorem updateComment_push_replies_flatten_perm {m : List (Nat × Comment)}
    (hkn : (m.map Prod.fst).Nodup) {pid : Nat} {co : Comment}
    (hco : m.lookup pid = some co) (cid : Nat) :
    List.Perm
      (((updateComment m pid (pushReply cid)).map
        (fun p => (p.2).replies)).flatten)
      (cid :: ((m.map (fun p => (p.2).replies)).flatten)) := by
  induction m with
  | nil => cases hco
  | cons p t ih =>
    obtain ⟨k, v⟩ := p
    rw [List.map_cons, List.nodup_cons] at hkn
    by_cases hk : k = pid
    · subst hk
      have ht : updateComment t k (pushReply cid) = t :=
        updateComment_not_mem hkn.1 _
      rw [updateComment_cons_eq, ht]
      simp only [List.map_cons, List.flatten_cons, pushReply]
      rw [List.append_assoc]
      exact List.perm_middle
    · have hco2 : t.lookup pid = some co := by
        rw [List.lookup_cons] at hco
        have hb : (pid == k) = false :=
          beq_eq_false_iff_ne.mpr (fun he => hk he.symm)
        rw [hb] at hco
        exact hco
      rw [updateComment_cons_ne hk]
      simp only [List.map_cons, List.flatten_cons]
      refine ((ih hkn.2 hco2).append_left v.replies).trans ?_
      exact List.perm_middle

theorem replies_map_updateComment (m : List (Nat × Comment)) (k : Nat)
    (f : Comment → Comment) (hfr : ∀ c, (f c).replies = c.replies) :
    (updateComment m k f).map (fun p => (p.2).replies) =
      m.map (fun p => (p.2).replies) := by
  induction m with
  | nil => rfl
  | cons p t ih =>
    obtain ⟨k0, v⟩ := p
    by_cases hk : k0 = k
    · subst hk
      rw [updateComment_cons_eq, List.map_cons, List.map_cons, ih]
      simp [hfr]
    · rw [updateComment_cons_ne hk, List.map_cons, List.map_cons, ih]

/-- The record-level view of the comments authored by each user, across an
index extension by a single fresh entry. -/
theorem userView_append_single (m : List (Nat × Comment)) (k : Nat)
    (v : Comment) (u : String) :
    userView (m ++ [(k, v)]) u =
      userView m u ++ (if ((v.user) == u) = true then [k] else []) := by
  rw [userView, userView, List.filter_append, List.map_append]
  congr 1
  rw [List.filter_cons]
  by_cases hu : ((v.user) == u) = true
  · rw [if_pos hu, if_pos hu]
    rfl
  · rw [if_neg hu, if_neg hu]
    rfl

theorem lookup_userAppend (uc : List (String × List Nat)) (user u : String)
    (cid : Nat) :
    (userAppend uc user cid).lookup u =
      if u = user then some (((uc.lookup user).getD []) ++ [cid])
      else uc.lookup u := by
  rw [userAppend]
  cases hl : uc.lookup user with
  | none =>
    by_cases hu : u = user
    · subst hu
      rw [lookup_append_fresh hl, lookup_singleton_self, if_pos rfl]
      rfl
    · rw [if_neg hu, List.lookup_append, lookup_singleton_ne hu,
        Option.or_none]
  | some l0 =>
    rw [lookup_updateUserList]
    by_cases hu : u = user
    · subst hu
      rw [if_pos rfl, if_pos rfl, hl]
      rfl
    · rw [if_neg hu, if_neg hu]

/-- The back-pointer property extends across a fresh entry with no replies. -/
theorem RB_append_fresh {m : List (Nat × Comment)} (hrb : RB m) {cid : Nat}
    {nc : Comment} (hrep : nc.replies = []) :
    RB (m ++ [(cid, nc)]) := by
  intro k c hk rid hrid
  rcases lookup_append_cases hk with hm | ⟨hkc, hcnc, _⟩
  · obtain ⟨rc, hrc, hrcp⟩ := hrb k c hm rid hrid
    exact ⟨rc, lookup_append_of_some hrc, hrcp⟩
  · rw [hcnc, hrep] at hrid
    cases hrid

/-- The structural well-formedness invariant of reachable stores: unique
ids below the counters, reply back-pointers, root-only post lists, every
container reference unique and indexed, every comment with a well-founded
parent chain, every non-root contained in its parent, and the user lists
exactly the per-author views of the index. -/
structure WF (s : CommentSystem) : Prop where
  kn : (s.comments.map Prod.fst).Nodup
  idb : ∀ k ∈ s.comments.map Prod.fst, k < s.next_comment_id
  pkn : (s.posts.map Prod.fst).Nodup
  pidb : ∀ k ∈ s.posts.map Prod.fst, k < s.next_post_id
  rb : RB s.comments
  pr : PostRoots s
  once : (allContainers s).Nodup
  cont : ∀ x ∈ allContainers s, x ∈ s.comments.map Prod.fst
  wd : ∀ k c, s.comments.lookup k = some c →
    ∃ dk, ReachesRoot s.comments k dk
  pc : PCon [] s.comments
  ukn : (s.user_comments.map Prod.fst).Nodup
  ul : ∀ u, ((s.user_comments.lookup u).getD []) = userView s.comments u

theorem allContainers_update (s : CommentSystem) (k : Nat)
    (f : Comment → Comment) (hfr : ∀ c, (f c).replies = c.replies) :
    allContainers { s with comments := updateComment s.comments k f } =
      allContainers s := by
  unfold allContainers
  dsimp only
  rw [replies_map_updateComment s.comments k f hfr]

/-- A record update that keeps author, parent and replies preserves the
well-formedness bundle. -/
theorem WF_updateComment {s : CommentSystem} (hwf : WF s) (k : Nat)
    (f : Comment → Comment)
    (hfu : ∀ c, ((f c).user) = c.user)
    (hfp : ∀ c, (f c).parent_comment_id = c.parent_comment_id)
    (hfr : ∀ c, (f c).replies = c.replies) :
    WF { s with comments := updateComment s.comments k f } := by
  have hview : ∀ x, parentView (updateComment s.comments k f) x =
      parentView s.comments x := parentView_updateComment s.comments k f hfp
  have hunder : ∀ {k0 : Nat} {c0 : Comment},
      (updateComment s.comments k f).lookup k0 = some c0 →
      ∃ c1, s.comments.lookup k0 = some c1 ∧
        c0.parent_comment_id = c1.parent_comment_id ∧
        c0.replies = c1.replies := by
    intro k0 c0 hk0
    rw [lookup_updateComment] at hk0
    by_cases hkk : k0 = k
    · rw [if_pos hkk] at hk0
      cases hm : s.comments.lookup k0 with
      | none => rw [hm] at hk0; simp at hk0
      | some c1 =>
        rw [hm] at hk0
        simp only [Option.map_some'] at hk0
        have he : c0 = f c1 := (Option.some.inj hk0).symm
        subst he
        exact ⟨c1, rfl, hfp c1, hfr c1⟩
    · rw [if_neg hkk] at hk0
      exact ⟨c0, hk0, rfl, rfl⟩
  refine
    { kn := by
        dsimp only
        rw [keys_updateComment]
        exact hwf.kn
      idb := by
        dsimp only
        rw [keys_updateComment]
        exact hwf.idb
      pkn := hwf.pkn
      pidb := hwf.pidb
      rb := RB_updateComment hwf.rb k f hfp
        (fun c rid h => (hfr c) ▸ h)
      pr := ?_
      once := by rw [allContainers_update s k f hfr]; exact hwf.once
      cont := ?_
      wd := ?_
      pc := ?_
      ukn := hwf.ukn
      ul := ?_ }
  · intro cid hcid
    have hcid2 : cid ∈ ((s.posts.map (fun q => (q.2).comments)).flatten) :=
      hcid
    rw [show isRootIn (updateComment s.comments k f) cid =
        isRootIn s.comments cid from isRootIn_congr (hview cid)]
    exact hwf.pr cid hcid2
  · intro x hx
    have hx2 : x ∈ allContainers s := by
      rw [← allContainers_update s k f hfr]
      exact hx
    dsimp only
    rw [keys_updateComment]
    exact hwf.cont x hx2
  · intro k0 c0 hk0
    obtain ⟨c1, hm, _, _⟩ := hunder hk0
    obtain ⟨dk, hdk⟩ := hwf.wd k0 c1 hm
    exact ⟨dk, ReachesRoot.transfer_depths (fun a da _ _ => hview a)
      hdk (le_refl dk)⟩
  · intro k0 c0 hk0 hX pidk hpk
    obtain ⟨c1, hm, hp1, _⟩ := hunder hk0
    obtain ⟨pc0, hpc0, hmemk⟩ := hwf.pc k0 c1 hm hX pidk
      (by rw [← hp1]; exact hpk)
    by_cases hp : pidk = k
    · refine ⟨f pc0, ?_, ?_⟩
      · rw [lookup_updateComment, if_pos hp, hpc0]; rfl
      · rw [hfr]; exact hmemk
    · refine ⟨pc0, ?_, hmemk⟩
      rw [lookup_updateComment, if_neg hp]
      exact hpc0
  · intro u
    dsimp only
    rw [show userView (updateComment s.comments k f) u =
        userView s.comments u from by
      rw [← userViewE_nil, ← userViewE_nil]
      exact userViewE_updateComment s.comments k f hfu [] u]
    exact hwf.ul u

theorem wf_init : WF CommentSystem.init := by
  refine
    { kn := List.nodup_nil, idb := ?_, pkn := List.nodup_nil, pidb := ?_
      rb := ?_, pr := ?_, once := ?_, cont := ?_, wd := ?_, pc := ?_
      ukn := List.nodup_nil, ul := ?_ }
  · intro k hk; simp [CommentSystem.init] at hk
  · intro k hk; simp [CommentSystem.init] at hk
  · intro k c hk; simp [CommentSystem.init] at hk
  · intro cid hcid; simp [CommentSystem.init] at hcid
  · simp [allContainers, CommentSystem.init]
  · intro x hx; simp [allContainers, CommentSystem.init] at hx
  · intro k c hk; simp [CommentSystem.init] at hk
  · intro k c hk; simp [CommentSystem.init] at hk
  · intro u; rfl

theorem wf_create_post (s : CommentSystem) (hwf : WF s) (title : String) :
    WF (create_post s title).1 := by
  have hshape : (create_post s title).1 =
      { s with next_post_id := s.next_post_id + 1,
               posts := s.posts ++ [(s.next_post_id,
                 { id := s.next_post_id, title := title, comments := [] })] } :=
    rfl
  rw [hshape]
  have hfreshp : s.next_post_id ∉ s.posts.map Prod.fst := by
    intro hmem
    exact absurd (hwf.pidb _ hmem) (by omega)
  have hflat : (((s.posts ++ [(s.next_post_id,
      ({ id := s.next_post_id, title := title, comments := [] } : Post))]).map
        (fun q => (q.2).comments)).flatten) =
      ((s.posts.map (fun q => (q.2).comments)).flatten) := by
    rw [List.map_append, List.flatten_append]
    simp
  have hcont : allContainers { s with next_post_id := s.next_post_id + 1, posts := s.posts ++ [(s.next_post_id, ({ id := s.next_post_id, title := title, comments := [] } : Post))] } = allContainers s := by
    unfold allContainers
    dsimp only
    rw [hflat]
  refine
    { kn := hwf.kn, idb := hwf.idb, pkn := ?_, pidb := ?_, rb := hwf.rb
      pr := ?_, once := by rw [hcont]; exact hwf.once, cont := ?_
      wd := hwf.wd, pc := hwf.pc, ukn := hwf.ukn, ul := hwf.ul }
  · dsimp only
    rw [List.map_append]
    exact nodup_append_singleton hwf.pkn hfreshp
  · intro k hk
    dsimp only
    rw [List.map_append] at hk
    rcases List.mem_append.mp hk with h | h
    · have := hwf.pidb k h
      omega
    · have hke : k = s.next_post_id := by simpa using h
      omega
  · intro cid hcid
    have hcid2 : cid ∈ ((s.posts.map (fun q => (q.2).comments)).flatten) := by
      rw [← hflat]
      exact hcid
    exact hwf.pr cid hcid2
  · intro x hx
    rw [hcont] at hx
    exact hwf.cont x hx

theorem wf_upvote (s : CommentSystem) (hwf : WF s) (id : Nat) :
    WF (upvote_comment s id).1 := by
  rw [upvote_comment]
  cases h : s.comments.lookup id with
  | none => exact hwf
  | some c =>
    exact WF_updateComment hwf id incVote (fun c => rfl) (fun c => rfl)
      (fun c => rfl)

theorem wf_downvote (s : CommentSystem) (hwf : WF s) (id : Nat) :
    WF (downvote_comment s id).1 := by
  rw [downvote_comment]
  cases h : s.comments.lookup id with
  | none => exact hwf
  | some c =>
    exact WF_updateComment hwf id decVote (fun c => rfl) (fun c => rfl)
      (fun c => rfl)

theorem wf_toggle (s : CommentSystem) (hwf : WF s) (id : Nat) :
    WF (toggle_collapse s id).1 := by
  rw [toggle_collapse]
  cases h : s.comments.lookup id with
  | none => exact hwf
  | some c =>
    exact WF_updateComment hwf id flipCollapsed (fun c => rfl) (fun c => rfl)
      (fun c => rfl)

/-- Inserting a fresh top-level comment preserves well-formedness. -/
theorem wf_insert_toplevel (s : CommentSystem) (hwf : WF s) (post_id : Nat)
    (user content : String) (po : Post)
    (hpo : s.posts.lookup post_id = some po) :
    WF { s with
      comments := s.comments ++
        [(s.next_comment_id, newComment s user content none)],
      user_comments := userAppend s.user_comments user s.next_comment_id,
      next_comment_id := s.next_comment_id + 1,
      posts := updatePost s.posts post_id (pushTopLevel s.next_comment_id) } := by
  have hfresh : s.next_comment_id ∉ s.comments.map Prod.fst := by
    intro hmem
    exact absurd (hwf.idb _ hmem) (by omega)
  have hlkf : s.comments.lookup s.next_comment_id = none :=
    lookup_none_of_not_mem hfresh
  have hkeys : (s.comments ++
      [(s.next_comment_id, newComment s user content none)]).map Prod.fst =
      s.comments.map Prod.fst ++ [s.next_comment_id] := by
    rw [List.map_append]
    rfl
  have hnotcont : s.next_comment_id ∉ allContainers s :=
    fun h => hfresh (hwf.cont _ h)
  have hpermP := updatePost_push_flatten_perm hwf.pkn hpo s.next_comment_id
  have hrepF : ((s.comments ++
      [(s.next_comment_id, newComment s user content none)]).map
        (fun p => (p.2).replies)).flatten =
      ((s.comments.map (fun p => (p.2).replies)).flatten) := by
    rw [List.map_append, List.flatten_append]
    simp [newComment]
  have hpermC : List.Perm
      (allContainers { s with
        comments := s.comments ++
          [(s.next_comment_id, newComment s user content none)],
        user_comments := userAppend s.user_comments user s.next_comment_id,
        next_comment_id := s.next_comment_id + 1,
        posts := updatePost s.posts post_id (pushTopLevel s.next_comment_id) })
      (s.next_comment_id :: allContainers s) := by
    unfold allContainers
    dsimp only
    rw [hrepF]
    exact (hpermP.append (List.Perm.refl _)).trans (List.Perm.refl _)
  have hviewT : ∀ a da, ReachesRoot s.comments a da →
      parentView (s.comments ++
        [(s.next_comment_id, newComment s user content none)]) a =
      parentView s.comments a := by
    intro a da ha
    obtain ⟨ca, hca⟩ := ha.lookup
    rw [parentView, parentView, hca, lookup_append_of_some hca]
  refine
    { kn := ?_, idb := ?_, pkn := ?_, pidb := ?_, rb := ?_, pr := ?_
      once := ?_, cont := ?_, wd := ?_, pc := ?_, ukn := ?_, ul := ?_ }
  · dsimp only
    rw [hkeys]
    exact nodup_append_singleton hwf.kn hfresh
  · intro k hk
    dsimp only at hk ⊢
    rw [hkeys] at hk
    rcases List.mem_append.mp hk with h | h
    · have := hwf.idb k h
      omega
    · have hke : k = s.next_comment_id := by simpa using h
      omega
  · dsimp only
    rw [keys_updatePost]
    exact hwf.pkn
  · intro k hk
    dsimp only at hk ⊢
    rw [keys_updatePost] at hk
    exact hwf.pidb k hk
  · exact RB_append_fresh hwf.rb rfl
  · intro cid0 hcid0
    dsimp only at hcid0
    rcases List.mem_cons.mp ((hpermP.mem_iff).mp hcid0) with rfl | hmem
    · rw [isRootIn, lookup_append_fresh hlkf, lookup_singleton_self]
      rfl
    · have h1 := hwf.pr cid0 hmem
      rw [isRootIn] at h1
      cases hcc : s.comments.lookup cid0 with
      | none => rw [hcc] at h1; simp at h1
      | some cc =>
        rw [hcc] at h1
        rw [isRootIn, lookup_append_of_some hcc]
        exact h1
  · exact (hpermC.nodup_iff).mpr (List.nodup_cons.mpr ⟨hnotcont, hwf.once⟩)
  · intro x hx
    dsimp only
    rw [hkeys]
    rcases List.mem_cons.mp ((hpermC.mem_iff).mp hx) with rfl | hmem
    · exact List.mem_append_right _ (List.mem_cons_self _ _)
    · exact List.mem_append_left _ (hwf.cont x hmem)
  · intro k0 c0 hk0
    rcases lookup_append_cases hk0 with hm | ⟨hkc, hcnc, _⟩
    · obtain ⟨dk, hdk⟩ := hwf.wd k0 c0 hm
      exact ⟨dk, ReachesRoot.transfer_depths
        (fun a da ha _ => hviewT a da ha) hdk (le_refl dk)⟩
    · subst hkc
      refine ⟨0, ReachesRoot.root (c := c0) ?_ ?_⟩
      · show (s.comments ++
            [(s.next_comment_id, newComment s user content none)]).lookup
            s.next_comment_id = some c0
        rw [lookup_append_fresh hlkf, lookup_singleton_self, hcnc]
      · rw [hcnc]
        rfl
  · intro k0 c0 hk0 hX pidk hpk
    rcases lookup_append_cases hk0 with hm | ⟨hkc, hcnc, _⟩
    · obtain ⟨pc0, hpc0, hmm⟩ := hwf.pc k0 c0 hm hX pidk hpk
      exact ⟨pc0, lookup_append_of_some hpc0, hmm⟩
    · rw [hcnc] at hpk
      cases hpk
  · dsimp only
    rw [userAppend]
    cases hu : s.user_comments.lookup user with
    | none =>
      rw [List.map_append]
      exact nodup_append_singleton hwf.ukn (not_mem_keys_of_lookup_none hu)
    | some l0 =>
      rw [keys_updateUserList]
      exact hwf.ukn
  · intro u
    dsimp only
    rw [lookup_userAppend, userView_append_single]
    by_cases hu : u = user
    · rw [if_pos hu]
      have hbu : (((newComment s user content none).user) == u) = true :=
        beq_iff_eq.mpr hu.symm
      rw [if_pos hbu]
      simp only [Option.getD_some]
      rw [hu, hwf.ul user]
    · rw [if_neg hu]
      have hbu : (((newComment s user content none).user) == u) = false :=
        beq_eq_false_iff_ne.mpr (fun he => hu he.symm)
      rw [if_neg (by rw [hbu]; simp), List.append_nil]
      exact hwf.ul u

/-- Inserting a fresh reply under an existing parent preserves
well-formedness. -/
theorem wf_reply_core (s : CommentSystem) (hwf : WF s) (pid cid : Nat)
    (nc co : Comment)
    (hfresh : cid ∉ s.comments.map Prod.fst)
    (hncp : nc.parent_comment_id = some pid)
    (hncr : nc.replies = [])
    (hco : s.comments.lookup pid = some co)
    (hnext : cid = s.next_comment_id) :
    WF { s with
      comments := updateComment (s.comments ++ [(cid, nc)]) pid
        (pushReply cid),
      user_comments := userAppend s.user_comments (nc.user) cid,
      next_comment_id := cid + 1 } := by
  have hlkf : s.comments.lookup cid = none := lookup_none_of_not_mem hfresh
  have hpidcid : pid ≠ cid := by
    intro he
    rw [he, hlkf] at hco
    cases hco
  have hm1keys : ((s.comments ++ [(cid, nc)]).map Prod.fst) =
      s.comments.map Prod.fst ++ [cid] := by
    rw [List.map_append]
    rfl
  have hkn1 : ((s.comments ++ [(cid, nc)]).map Prod.fst).Nodup := by
    rw [hm1keys]
    exact nodup_append_singleton hwf.kn hfresh
  have hm1pid : (s.comments ++ [(cid, nc)]).lookup pid = some co :=
    lookup_append_of_some hco
  have hm1cid : (s.comments ++ [(cid, nc)]).lookup cid = some nc := by
    rw [lookup_append_fresh hlkf, lookup_singleton_self]
  have hrb1 : RB (s.comments ++ [(cid, nc)]) := RB_append_fresh hwf.rb hncr
  have hlookU : ∀ x, (updateComment (s.comments ++ [(cid, nc)]) pid
      (pushReply cid)).lookup x =
      if x = pid then some (pushReply cid co)
      else (s.comments ++ [(cid, nc)]).lookup x := by
    intro x
    rw [lookup_updateComment]
    by_cases hx : x = pid
    · rw [if_pos hx, if_pos hx, hx, hm1pid]
      rfl
    · rw [if_neg hx, if_neg hx]
  have hview : ∀ a da, ReachesRoot s.comments a da →
      parentView (updateComment (s.comments ++ [(cid, nc)]) pid
        (pushReply cid)) a = parentView s.comments a := by
    intro a da ha
    obtain ⟨ca, hca⟩ := ha.lookup
    rw [parentView, parentView, hca, hlookU]
    by_cases hx : a = pid
    · rw [if_pos hx]
      rw [hx] at hca
      have hcaco : ca = co := by
        rw [hca] at hco
        exact Option.some.inj hco
      rw [hcaco]
      rfl
    · rw [if_neg hx, lookup_append_of_some hca]
  have hkeysU : (updateComment (s.comments ++ [(cid, nc)]) pid
      (pushReply cid)).map Prod.fst = s.comments.map Prod.fst ++ [cid] := by
    rw [keys_updateComment, hm1keys]
  have hnotcont : cid ∉ allContainers s := fun h => hfresh (hwf.cont _ h)
  have hrepM1 : ((s.comments ++ [(cid, nc)]).map
      (fun p => (p.2).replies)).flatten =
      (s.comments.map (fun p => (p.2).replies)).flatten := by
    rw [List.map_append, List.flatten_append]
    simp [hncr]
  have hrepPerm2 : List.Perm
      (((updateComment (s.comments ++ [(cid, nc)]) pid
        (pushReply cid)).map (fun p => (p.2).replies)).flatten)
      (cid :: ((s.comments.map (fun p => (p.2).replies)).flatten)) := by
    rw [← hrepM1]
    exact updateComment_push_replies_flatten_perm hkn1 hm1pid cid
  have hpermC : List.Perm
      (allContainers { s with
        comments := updateComment (s.comments ++ [(cid, nc)]) pid
          (pushReply cid),
        user_comments := userAppend s.user_comments (nc.user) cid,
        next_comment_id := cid + 1 })
      (cid :: allContainers s) := by
    unfold allContainers
    dsimp only
    exact (hrepPerm2.append_left _).trans List.perm_middle
  refine
    { kn := ?_, idb := ?_, pkn := hwf.pkn, pidb := hwf.pidb, rb := ?_
      pr := ?_, once := ?_, cont := ?_, wd := ?_, pc := ?_, ukn := ?_
      ul := ?_ }
  · dsimp only
    rw [hkeysU]
    exact nodup_append_singleton hwf.kn hfresh
  · intro k hk
    dsimp only at hk ⊢
    rw [hkeysU] at hk
    rcases List.mem_append.mp hk with h | h
    · have h2 := hwf.idb k h
      omega
    · have hke : k = cid := by simpa using h
      omega
  · intro k c hk rid hrid
    rw [hlookU] at hk
    by_cases hkp : k = pid
    · rw [if_pos hkp] at hk
      have hc2 : c = pushReply cid co := (Option.some.inj hk).symm
      subst hc2
      subst hkp
      rcases List.mem_append.mp hrid with h | h
      · obtain ⟨rc, hrc, hrcp⟩ := hrb1 k co hm1pid rid h
        exact lookup_updateComment_target (f := pushReply cid)
          (fun c0 => rfl) hrc hrcp
      · have hre : rid = cid := by simpa using h
        subst hre
        refine ⟨nc, ?_, hncp⟩
        rw [hlookU, if_neg (fun hh => hpidcid hh.symm)]
        exact hm1cid
    · rw [if_neg hkp] at hk
      obtain ⟨rc, hrc, hrcp⟩ := hrb1 k c hk rid hrid
      exact lookup_updateComment_target (f := pushReply cid)
        (fun c0 => rfl) hrc hrcp
  · intro cid0 hcid0
    have h1 := hwf.pr cid0 hcid0
    rw [isRootIn] at h1
    cases hcc : s.comments.lookup cid0 with
    | none => rw [hcc] at h1; simp at h1
    | some cc =>
      rw [hcc] at h1
      dsimp only at h1
      rw [isRootIn, hlookU]
      by_cases hx : cid0 = pid
      · rw [if_pos hx]
        rw [hx] at hcc
        have hcoeq : cc = co := by
          rw [hcc] at hco
          exact Option.some.inj hco
        dsimp only
        show co.parent_comment_id.isNone = true
        rw [← hcoeq]
        exact h1
      · rw [if_neg hx, lookup_append_of_some hcc]
        exact h1
  · exact (hpermC.nodup_iff).mpr (List.nodup_cons.mpr ⟨hnotcont, hwf.once⟩)
  · intro x hx
    dsimp only
    rw [hkeysU]
    rcases List.mem_cons.mp ((hpermC.mem_iff).mp hx) with rfl | hmem
    · exact List.mem_append_right _ (List.mem_cons_self _ _)
    · exact List.mem_append_left _ (hwf.cont x hmem)
  · intro k0 c0 hk0
    rw [hlookU] at hk0
    by_cases hx : k0 = pid
    · obtain ⟨dk, hdk⟩ := hwf.wd pid co hco
      subst hx
      exact ⟨dk, ReachesRoot.transfer_depths
        (fun a da ha _ => hview a da ha) hdk (le_refl dk)⟩
    · rw [if_neg hx] at hk0
      rcases lookup_append_cases hk0 with hm | ⟨hkc, hcnc, _⟩
      · obtain ⟨dk, hdk⟩ := hwf.wd k0 c0 hm
        exact ⟨dk, ReachesRoot.transfer_depths
          (fun a da ha _ => hview a da ha) hdk (le_refl dk)⟩
      · obtain ⟨dp, hdp⟩ := hwf.wd pid co hco
        have hrrp := ReachesRoot.transfer_depths
          (fun a da ha _ => hview a da ha) hdp (le_refl dp)
        refine ⟨dp + 1, ReachesRoot.step (c := nc) ?_ hncp hrrp⟩
        rw [hlookU, if_neg hx, hkc]
        exact hm1cid
  · intro k0 c0 hk0 hX pidk hpk
    rw [hlookU] at hk0
    by_cases hx : k0 = pid
    · rw [if_pos hx] at hk0
      have hc2 : c0 = pushReply cid co := (Option.some.inj hk0).symm
      subst hc2
      subst hx
      obtain ⟨pc0, hpc0, hmm⟩ := hwf.pc k0 co hco hX pidk hpk
      by_cases hpp : pidk = k0
      · refine ⟨pushReply cid pc0, ?_, ?_⟩
        · rw [hlookU, if_pos hpp]
          subst hpp
          have hpe : pc0 = co := by
            rw [hpc0] at hco
            exact Option.some.inj hco
          rw [hpe]
        · exact List.mem_append_left _ hmm
      · refine ⟨pc0, ?_, hmm⟩
        rw [hlookU, if_neg hpp]
        exact lookup_append_of_some hpc0
    · rw [if_neg hx] at hk0
      rcases lookup_append_cases hk0 with hm | ⟨hkc, hcnc, _⟩
      · obtain ⟨pc0, hpc0, hmm⟩ := hwf.pc k0 c0 hm hX pidk hpk
        by_cases hpp : pidk = pid
        · refine ⟨pushReply cid pc0, ?_, ?_⟩
          · rw [hlookU, if_pos hpp]
            subst hpp
            have hpe : pc0 = co := by
              rw [hpc0] at hco
              exact Option.some.inj hco
            rw [hpe]
          · exact List.mem_append_left _ hmm
        · refine ⟨pc0, ?_, hmm⟩
          rw [hlookU, if_neg hpp]
          exact lookup_append_of_some hpc0
      · rw [hcnc, hncp] at hpk
        have hpidk : pid = pidk := Option.some.inj hpk
        subst hpidk
        refine ⟨pushReply cid co, ?_, ?_⟩
        · rw [hlookU, if_pos rfl]
        · rw [hkc]
          exact List.mem_append_right _ (List.mem_cons_self _ _)
  · dsimp only
    rw [userAppend]
    cases hu : s.user_comments.lookup (nc.user) with
    | none =>
      rw [List.map_append]
      exact nodup_append_singleton hwf.ukn (not_mem_keys_of_lookup_none hu)
    | some l0 =>
      rw [keys_updateUserList]
      exact hwf.ukn
  · intro u
    dsimp only
    rw [lookup_userAppend]
    have hviewEq : userView (updateComment (s.comments ++ [(cid, nc)]) pid
        (pushReply cid)) u = userView (s.comments ++ [(cid, nc)]) u := by
      rw [← userViewE_nil, ← userViewE_nil]
      exact userViewE_updateComment _ pid (pushReply cid) (fun c0 => rfl) [] u
    rw [hviewEq, userView_append_single]
    by_cases hu : u = nc.user
    · rw [if_pos hu]
      have hbu : ((nc.user) == u) = true := beq_iff_eq.mpr hu.symm
      rw [if_pos hbu]
      simp only [Option.getD_some]
      rw [hu, hwf.ul (nc.user)]
    · rw [if_neg hu]
      have hbu : ((nc.user) == u) = false :=
        beq_eq_false_iff_ne.mpr (fun he => hu he.symm)
      rw [if_neg (by rw [hbu]; simp), List.append_nil]
      exact hwf.ul u

theorem wf_reply_mid (s : CommentSystem) (hwf : WF s) (pid : Nat)
    (co : Comment) (hco : s.comments.lookup pid = some co)
    (user content : String) :
    WF (replyMidState s user content pid) := by
  have hfresh : s.next_comment_id ∉ s.comments.map Prod.fst := by
    intro hmem
    exact absurd (hwf.idb _ hmem) (by omega)
  exact wf_reply_core s hwf pid s.next_comment_id
    (newComment s user content (some pid)) co hfresh rfl rfl hco rfl

theorem wf_add (s : CommentSystem) (hwf : WF s) (post_id : Nat)
    (user content : String) (parent : Option Nat) :
    WF (add_comment s post_id user content parent).1 := by
  unfold add_comment
  by_cases hg1 : user = "" ∨ isBlank content
  · rw [if_pos hg1]
    exact hwf
  · rw [if_neg hg1]
    by_cases hg2 : (s.posts.lookup post_id).isNone = true
    · rw [if_pos hg2]
      cases parent with
      | none => exact hwf
      | some pid => exact hwf
    · rw [if_neg hg2]
      obtain ⟨po, hpo⟩ : ∃ po, s.posts.lookup post_id = some po := by
        cases hp : s.posts.lookup post_id with
        | none => rw [hp] at hg2; simp at hg2
        | some po => exact ⟨po, rfl⟩
      cases parent with
      | none =>
        dsimp only
        rw [add_comment_insert_toplevel_spec]
        exact wf_insert_toplevel s hwf post_id user content po hpo
      | some pid =>
        dsimp only
        by_cases hg3 : (s.comments.lookup pid).isNone = true
        · rw [if_pos hg3]
          exact hwf
        · rw [if_neg hg3]
          obtain ⟨co, hco⟩ : ∃ co, s.comments.lookup pid = some co := by
            cases hp : s.comments.lookup pid with
            | none => rw [hp] at hg3; simp at hg3
            | some co => exact ⟨co, rfl⟩
          by_cases hg4 : get_comment_depth s pid ≥ 4
          · rw [if_pos hg4]
            exact hwf
          · rw [if_neg hg4]
            rw [add_comment_insert_parent_spec s post_id user content pid co
              hco]
            have hmid : WF (replyMidState s user content pid) :=
              wf_reply_mid s hwf pid co hco user content
            by_cases hcol : should_collapse_thread
                (replyMidState s user content pid)
                (pushReply s.next_comment_id co) = true
            · rw [if_pos hcol]
              exact WF_updateComment hmid pid markCollapsed (fun c => rfl)
                (fun c => rfl) (fun c => rfl)
            · rw [if_neg hcol]
              exact hmid

/-- The cascade never touches the id counters or the post keys. -/
theorem delete_go_frame :
    ∀ (fuel : Nat) (s : CommentSystem) (id : Nat),
      (delete_go fuel s id).1.next_comment_id = s.next_comment_id ∧
      (delete_go fuel s id).1.next_post_id = s.next_post_id ∧
      (delete_go fuel s id).1.posts.map Prod.fst = s.posts.map Prod.fst := by
  intro fuel
  induction fuel with
  | zero => intro s id; exact ⟨rfl, rfl, rfl⟩
  | succ fuel ih =>
    intro s id
    cases hc : s.comments.lookup id with
    | none =>
      rw [delete_go_absent hc]
      exact ⟨rfl, rfl, rfl⟩
    | some c =>
      rw [delete_go_succ fuel s id c hc]
      have hdetach : (detachState s id c).next_comment_id =
          s.next_comment_id ∧
          (detachState s id c).next_post_id = s.next_post_id ∧
          (detachState s id c).posts.map Prod.fst = s.posts.map Prod.fst := by
        cases hcp : c.parent_comment_id with
        | none =>
          rw [detach_root s id c hcp]
          exact ⟨rfl, rfl, removeFromPosts_keys s.posts id⟩
        | some pid0 =>
          rw [detach_pid s id c pid0 hcp]
          exact ⟨rfl, rfl, rfl⟩
      have hfold : ∀ (l : List Nat) (t : CommentSystem),
          (t.next_comment_id = s.next_comment_id ∧
            t.next_post_id = s.next_post_id ∧
            t.posts.map Prod.fst = s.posts.map Prod.fst) →
          ((l.foldl (fun st rid => (delete_go fuel st rid).1)
              t).next_comment_id = s.next_comment_id ∧
            (l.foldl (fun st rid => (delete_go fuel st rid).1)
              t).next_post_id = s.next_post_id ∧
            (l.foldl (fun st rid => (delete_go fuel st rid).1)
              t).posts.map Prod.fst = s.posts.map Prod.fst) := by
        intro l
        induction l with
        | nil =>
          intro t h
          exact h
        | cons rid l2 ihl =>
          intro t h
          rw [List.foldl_cons]
          obtain ⟨h1, h2, h3⟩ := h
          obtain ⟨g1, g2, g3⟩ := ih t rid
          exact ihl _ ⟨g1.trans h1, g2.trans h2, g3.trans h3⟩
      obtain ⟨f1, f2, f3⟩ := hfold c.replies (detachState s id c) hdetach
      exact ⟨f1, f2, f3⟩

/-- Deleting preserves well-formedness. -/
theorem wf_delete (s : CommentSystem) (hwf : WF s) (id : Nat) :
    WF (delete_comment s id).1 := by
  rw [delete_comment]
  cases hc : s.comments.lookup id with
  | none =>
    rw [delete_go_absent hc]
    exact hwf
  | some c =>
    obtain ⟨d, hrr⟩ := hwf.wd id c hc
    have DS := delete_master (s.comments.length + 1) [] s id d hwf.kn
      hwf.rb hwf.pr hwf.once hwf.pc hrr (by omega)
    obtain ⟨hkeysSub, hUL⟩ := delete_users (s.comments.length + 1) s id []
      hwf.kn (by intro u; rw [userViewE_nil]; exact hwf.ul u)
    obtain ⟨hfr1, hfr2, hfr3⟩ := delete_go_frame (s.comments.length + 1) s id
    have hknOut : ((delete_go (s.comments.length + 1) s
        id).1.comments.map Prod.fst).Nodup := hwf.kn.sublist DS.keysSub
    have hstab_id : subtreeIds s.comments (s.comments.length + 2) id =
        subtreeIds s.comments (s.comments.length + 1) id :=
      subtree_stab hwf.rb (s.comments.length + 1) hrr (by omega)
    have hrec_eq : ∀ k0 cs c0, s.comments.lookup k0 = some cs →
        (delete_go (s.comments.length + 1) s id).1.comments.lookup k0 =
          some c0 →
        c0.parent_comment_id = cs.parent_comment_id := by
      intro k0 cs c0 hcs hco0
      have hk0SS : k0 ∉ subtreeIds s.comments (s.comments.length + 1) id := by
        intro hm
        rw [DS.killed k0 hm] at hco0
        cases hco0
      by_cases hpar : ∀ c', s.comments.lookup id = some c' →
          c'.parent_comment_id ≠ some k0
      · rw [DS.keptOther k0 hk0SS hpar, hcs] at hco0
        cases hco0
        rfl
      · push_neg at hpar
        obtain ⟨c', hc', hp'⟩ := hpar
        rw [DS.keptPid c' k0 hc' hp', hcs] at hco0
        simp only [Option.map_some'] at hco0
        cases hco0
        rfl
    have hsurvive : ∀ p dp, ReachesRoot s.comments p dp →
        p ∉ subtreeIds s.comments (s.comments.length + 1) id →
        ∃ cp', (delete_go (s.comments.length + 1) s
          id).1.comments.lookup p = some cp' := by
      intro p dp hp hpSS
      obtain ⟨cp, hcp⟩ := hp.lookup
      by_cases hpar : ∀ c', s.comments.lookup id = some c' →
          c'.parent_comment_id ≠ some p
      · rw [DS.keptOther p hpSS hpar, hcp]
        exact ⟨cp, rfl⟩
      · push_neg at hpar
        obtain ⟨c', hc', hp'⟩ := hpar
        rw [DS.keptPid c' p hc' hp', hcp]
        exact ⟨dropReply id cp, rfl⟩
    have htrans : ∀ dk k0, ReachesRoot s.comments k0 dk →
        ∀ c0, (delete_go (s.comments.length + 1) s
          id).1.comments.lookup k0 = some c0 →
        ReachesRoot (delete_go (s.comments.length + 1) s id).1.comments
          k0 dk := by
      intro dk
      induction dk using Nat.strong_induction_on with
      | _ dk ih2
      =>
      intro k0 hrr0 c0 hco0
      have hk0SS : k0 ∉ subtreeIds s.comments (s.comments.length + 1) id := by
        intro hm
        rw [DS.killed k0 hm] at hco0
        cases hco0
      cases hrr0 with
      | root hcs hps =>
        refine ReachesRoot.root hco0 ?_
        rw [hrec_eq k0 _ c0 hcs hco0]
        exact hps
      | step hcs hps hr =>
        rename_i p dprev cs
        have hkrep : ∀ pc2, s.comments.lookup p = some pc2 →
            k0 ∈ pc2.replies := by
          intro pc2 hpc2
          obtain ⟨pc0, hpc0, hmm⟩ := hwf.pc k0 cs hcs
            (List.not_mem_nil k0) p hps
          rw [hpc0] at hpc2
          cases hpc2
          exact hmm
        have hpne : p ≠ id := by
          intro he
          subst he
          apply hk0SS
          rw [← hstab_id]
          exact subtree_mem_child hc (hkrep c hc)
            (subtree_self (F := s.comments.length) hcs)
        have hpSS : p ∉ subtreeIds s.comments
            (s.comments.length + 1) id := by
          intro hm
          apply hk0SS
          obtain ⟨pc2, hpc2⟩ := hr.lookup
          rw [← hstab_id]
          exact subtree_child_closed hwf.rb hm hpc2 (hkrep pc2 hpc2)
        obtain ⟨cp', hcp'⟩ := hsurvive p dprev hr hpSS
        have hrrp := ih2 dprev (by omega) p hr cp' hcp'
        refine ReachesRoot.step hco0 ?_ hrrp
        rw [hrec_eq k0 cs c0 hcs hco0]
        exact hps
    refine
      { kn := hknOut
        idb := ?_, pkn := ?_, pidb := ?_
        rb := DS.rbOut, pr := DS.prOut
        once := hwf.once.sublist DS.contSub
        cont := ?_, wd := ?_, pc := DS.pcOut
        ukn := by rw [DS.ukeysEq]; exact hwf.ukn
        ul := ?_ }
    · intro k hk
      rw [hfr1]
      exact hwf.idb k (List.Sublist.mem hk DS.keysSub)
    · rw [hfr3]
      exact hwf.pkn
    · intro k hk
      rw [hfr3] at hk
      rw [hfr2]
      exact hwf.pidb k hk
    · intro x hx
      unfold allContainers at hx
      rcases List.mem_append.mp hx with hpmem | hrmem
      · have h1 := DS.prOut x hpmem
        rw [isRootIn] at h1
        cases hcc : (delete_go (s.comments.length + 1) s
            id).1.comments.lookup x with
        | none => rw [hcc] at h1; simp at h1
        | some cc => exact mem_keys_of_lookup hcc
      · obtain ⟨⟨k, ck⟩, hq, hin⟩ := mem_replies_flatten_iff.mp hrmem
        have hlk := lookup_of_mem_nodup hknOut hq
        obtain ⟨rc, hrc, _⟩ := DS.rbOut k ck hlk x hin
        exact mem_keys_of_lookup hrc
    · intro k0 c0 hk0
      have hmem : k0 ∈ s.comments.map Prod.fst :=
        List.Sublist.mem (mem_keys_of_lookup hk0) DS.keysSub
      obtain ⟨⟨k1, cs⟩, hq, hqe⟩ := List.mem_map.mp hmem
      have hqe2 : k1 = k0 := hqe
      have hcs := lookup_of_mem_nodup hwf.kn hq
      rw [hqe2] at hcs
      obtain ⟨dk, hdk⟩ := hwf.wd k0 cs hcs
      exact ⟨dk, htrans dk k0 hdk c0 hk0⟩
    · intro u
      have h2 := hUL u
      rw [userViewE_nil] at h2
      exact h2

theorem get_comments_view_fst (s : CommentSystem) (post_id : Nat)
    (view_type : String) : (get_comments_view s post_id view_type).1 = s := by
  rw [get_comments_view]
  cases h : s.posts.lookup post_id with
  | none => rfl
  | some po =>
    dsimp only
    by_cases h1 : view_type = "tree"
    · rw [if_pos h1]
    · rw [if_neg h1]
      by_cases h2 : view_type = "flat"
      · rw [if_pos h2]
      · rw [if_neg h2]

theorem get_user_comments_fst (s : CommentSystem) (user : String) :
    (get_user_comments s user).1 = s := by
  rw [get_user_comments]
  cases h : s.user_comments.lookup user with
  | none => rfl
  | some ids => rfl

/-- The stores reachable from the initial store by sequences of the public
operations. -/
inductive Reachable : CommentSystem → Prop
  | init : Reachable CommentSystem.init
  | create {s : CommentSystem} (title : String) :
      Reachable s → Reachable (create_post s title).1
  | add {s : CommentSystem} (post_id : Nat) (user content : String)
      (parent : Option Nat) :
      Reachable s → Reachable (add_comment s post_id user content parent).1
  | upvote {s : CommentSystem} (comment_id : Nat) :
      Reachable s → Reachable (upvote_comment s comment_id).1
  | downvote {s : CommentSystem} (comment_id : Nat) :
      Reachable s → Reachable (downvote_comment s comment_id).1
  | toggle {s : CommentSystem} (comment_id : Nat) :
      Reachable s → Reachable (toggle_collapse s comment_id).1
  | delete {s : CommentSystem} (comment_id : Nat) :
      Reachable s → Reachable (delete_comment s comment_id).1
  | view {s : CommentSystem} (post_id : Nat) (view_type : String) :
      Reachable s → Reachable (get_comments_view s post_id view_type).1
  | byUser {s : CommentSystem} (user : String) :
      Reachable s → Reachable (get_user_comments s user).1

/-- Every reachable store is well-formed. -/
theorem reachable_wf {s : CommentSystem} (h : Reachable s) : WF s := by
  induction h with
  | init => exact wf_init
  | create title _ ih => exact wf_create_post _ ih title
  | add post_id user content parent _ ih =>
    exact wf_add _ ih post_id user content parent
  | upvote comment_id _ ih => exact wf_upvote _ ih comment_id
  | downvote comment_id _ ih => exact wf_downvote _ ih comment_id
  | toggle comment_id _ ih => exact wf_toggle _ ih comment_id
  | delete comment_id _ ih => exact wf_delete _ ih comment_id
  | view post_id view_type _ ih =>
    rw [get_comments_view_fst]
    exact ih
  | byUser user _ ih =>
    rw [get_user_comments_fst]
    exact ih

/-- A reply chain below comment 1: `chainState n` has comments `1 .. n+1`,
with comment `k+1` a reply to comment `k` (so comment `n+1` has depth `n`). -/
def chainState : Nat → CommentSystem
  | 0 => exState1
  | n + 1 => (add_comment (chainState n) 1 "u" "r" (some (n + 1))).1

/-- Witness for C2: a reply under the depth-3 comment of a concrete chain is
accepted, a reply under the depth-4 comment is rejected without mutation. -/
theorem C2_witness :
    (add_comment (chainState 3) 1 "u" "r" (some 4)).2.isSome = true ∧
    add_comment (chainState 4) 1 "u" "r" (some 5) = (chainState 4, none) :=
  ⟨(C2_depth_cap (chainState 3) 1 4 "u" "r" 3 (by decide) (by decide)
      (by decide) (by decide) (by decide)
      (rrCheck_sound 10 (by decide))).1.mpr (by omega),
   (C2_depth_cap (chainState 4) 1 5 "u" "r" 4 (by decide) (by decide)
      (by decide) (by decide) (by decide)
      (rrCheck_sound 10 (by decide))).2.1 (by omega)⟩

theorem filterMap_lookup_map_fst (m : List (Nat × Comment)) :
    ∀ (l : List (Nat × Comment)), (∀ p ∈ l, m.lookup p.1 = some p.2) →
      ((l.map Prod.fst).filterMap (fun id => m.lookup id)) =
        l.map Prod.snd := by
  intro l
  induction l with
  | nil => intro _; rfl
  | cons p t ih =>
    intro h
    rw [List.map_cons, List.filterMap_cons, h p (List.mem_cons_self _ _),
      List.map_cons, ih (fun q hq => h q (List.mem_cons_of_mem _ hq))]

/-- Resolving a user's view through the arena returns that user's records. -/
theorem resolve_userView (m : List (Nat × Comment))
    (hkn : (m.map Prod.fst).Nodup) (u : String) :
    resolve m (userView m u) =
      (m.filter (fun p => (p.2).user == u)).map Prod.snd := by
  rw [userView, resolve]
  exact filterMap_lookup_map_fst m _
    (fun p hp => lookup_of_mem_nodup hkn (List.mem_filter.mp hp).1)

/-- C1 (refuted — code bug): the claim asserts that `delete_comment` on any
id present in the global index returns `true` and removes the whole reply
subtree (the comment and all its descendants) from the index, from the
containers and from the users' lists, while an absent id returns `false`
with the store unchanged.  Only the absent-id half is true of the source.
The body runs under `with self.lock:` where `self.lock` is a non-reentrant
`threading.Lock`, and it recursively calls `delete_comment` for every entry
of `comment.replies` while still holding that lock; so for any indexed
comment with at least one reply the call blocks forever on the inner
acquire (modelled: the lock-aware `delete_comment_locked` yields `none`) —
it never returns `true` and never removes the subtree, refuting the claim's
central cascade case. -/
theorem C1_delete_cascade_blocks (s : CommentSystem) (id : Nat) :
    (s.comments.lookup id = none →
      delete_comment_locked s id = some (s, false)) ∧
    (∀ c, s.comments.lookup id = some c → c.replies ≠ [] →
      delete_comment_locked s id = none) := by
  constructor
  · intro hnone
    simp [delete_comment_locked, delete_locked_go, hnone]
  · intro c hc hr
    obtain ⟨r, rest, hrep⟩ := List.exists_cons_of_ne_nil hr
    simp [delete_comment_locked, delete_locked_go, hc, hrep,
      delete_locked_go_held]

/-- Witness for C1 on the concrete store `exState2` (comment 1 by alice
holds the reply 2 by bob, id 3 is unused): deleting the absent id 3 returns
`false` with the store unchanged, while deleting comment 1 — the claim's
cascade case, and exactly the scenario of the repository's own
`test_delete_comment` — blocks forever instead of returning `true`. -/
theorem C1_witness :
    delete_comment_locked exState2 3 = some (exState2, false) ∧
    delete_comment_locked exState2 1 = none :=
  ⟨(C1_delete_cascade_blocks exState2 3).1 (by decide),
   (C1_delete_cascade_blocks exState2 1).2
     { id := 1, user := "alice", content := "hi", timestamp := 0,
       parent_comment_id := none, replies := [2], vote_count := 0,
       collapsed := false }
     (by decide) (by decide)⟩

/-- C6: on every reachable store, each user's comment-id list is exactly the
list of ids of that user's comments still present in the global index, in
authoring (= index insertion) order; `get_user_comments` therefore returns
exactly that user's still-existing comment records in authoring order, and
the empty sequence for an unknown user. -/
theorem C6_user_lists (s : CommentSystem) (hs : Reachable s) (user : String) :
    ((s.user_comments.lookup user).getD []) =
      (s.comments.filter (fun p => (p.2).user == user)).map Prod.fst ∧
    (get_user_comments s user).2 =
      (s.comments.filter (fun p => (p.2).user == user)).map Prod.snd ∧
    (s.user_comments.lookup user = none →
      (get_user_comments s user).2 = []) := by
  have hwf := reachable_wf hs
  refine ⟨hwf.ul user, ?_, ?_⟩
  · rw [get_user_comments]
    cases hl : s.user_comments.lookup user with
    | none =>
      dsimp only
      have h2 := hwf.ul user
      rw [hl] at h2
      simp only [Option.getD_none] at h2
      rw [userView] at h2
      have h3 : (s.comments.filter (fun p => (p.2).user == user)) = [] :=
        List.map_eq_nil_iff.mp h2.symm
      rw [h3]
      rfl
    | some ids =>
      dsimp only
      have h2 := hwf.ul user
      rw [hl] at h2
      simp only [Option.getD_some] at h2
      rw [h2]
      exact resolve_userView s.comments hwf.kn user
  · intro hl
    rw [get_user_comments, hl]

/-- Witness for C6 at a concrete reachable store and user. -/
theorem C6_witness :
    ((exState2.user_comments.lookup "alice").getD []) =
      (exState2.comments.filter (fun p => (p.2).user == "alice")).map
        Prod.fst ∧
    (get_user_comments exState2 "alice").2 =
      (exState2.comments.filter (fun p => (p.2).user == "alice")).map
        Prod.snd ∧
    (exState2.user_comments.lookup "alice" = none →
      (get_user_comments exState2 "alice").2 = []) :=
  C6_user_lists exState2
    (Reachable.add 1 "bob" "hello" (some 1)
      (Reachable.add 1 "alice" "hi" none
        (Reachable.create "Post Title" Reachable.init))) "alice"

end CTS
